import Mathlib

/-!
# Wheel sieve `sieve_8of30_par.c` (PrimeC/solution_2)

A shallow embedding of the C program and a verification of its contract.

Modelling conventions.

* `unsigned int` values are natural numbers below `2^32`; every `unsigned int`
  addition, subtraction, multiplication and left shift of the source is
  embedded with its wrap-around (`add32`, `sub32`, `mul32`, `shl32`).
* The `calloc`ed word array `a` is embedded as `Words`: the number of words
  that were allocated together with the little-endian bit image of the block
  (word `i` occupies the bits `[i*W, (i+1)*W)` of the image, `W` the width of
  `TYPE`).  A word access outside the allocated block has no defined behaviour
  in C; the embedding returns `none` for it.
* Loops are embedded by structural recursion on a fuel argument and return
  `none` when the fuel is exhausted before the loop condition fails; the
  callers pass the fuel, and the theorems show that the result is `some`.
* The two preprocessor switches (`COMPILE_64_BIT`, `_OPENMP`) and the value of
  `omp_get_max_threads()` are the fields of `Build`.
* `(unsigned int)sqrt(maxints)`: the double-precision square root of a 32-bit
  integer, truncated, is the integer square root; it is embedded as `isqrt`.
* `#pragma omp parallel`: the team has `numthreads` members, thread `ithread`
  runs the body of the region with its own private variables; the embedding
  runs the bodies one after the other in the order of the thread numbers
  (the region's writes are `|=` on words, and the threads own disjoint words).
* `numthreads*300` and `numthreads-1` are `int` expressions of the source; the
  embedding takes their mathematical values (a thread count is at least 1 and
  far below `2^31/300`).
* Definitions listed under "Traces" and "Specification vocabulary" do not occur
  in the source; they name what the loops of the source visit and are tied to the
  loops by theorems.
-/

namespace Sieve8of30

/-! ## Machine arithmetic -/

/-- Sum of two `unsigned int`. -/
def add32 (x y : Nat) : Nat := (x + y) % 4294967296

/-- Difference of two `unsigned int`. -/
def sub32 (x y : Nat) : Nat := (x + (4294967296 - y % 4294967296)) % 4294967296

/-- Product of two `unsigned int`. -/
def mul32 (x y : Nat) : Nat := (x * y) % 4294967296

/-- Left shift of an `unsigned int`. -/
def shl32 (x k : Nat) : Nat := (x <<< k) % 4294967296

/-- Integer square root by upward search, `r` the current candidate. -/
def isqrt_loop (n : Nat) : Nat → Nat → Nat
  | 0, r => r
  | fuel + 1, r => if (r + 1) * (r + 1) ≤ n then isqrt_loop n fuel (r + 1) else r

/-- Value of `(unsigned int)sqrt(n)`. -/
def isqrt (n : Nat) : Nat := isqrt_loop n n 0

/-! ## Build configuration -/

/-- Compile-time switches and the size of the thread team. -/
structure Build where
  /-- `COMPILE_64_BIT` is defined. -/
  COMPILE_64_BIT : Bool
  /-- `_OPENMP` is defined. -/
  OPENMP : Bool
  /-- Value of `omp_get_max_threads()`. -/
  numthreads : Nat
deriving DecidableEq

/-- `#define SHIFT`. -/
def SHIFT (b : Build) : Nat := if b.COMPILE_64_BIT then 6 else 5

/-- `#define MASK`. -/
def MASK (b : Build) : Nat := if b.COMPILE_64_BIT then 0x3F else 0x1F

/-- Value of `sizeof(TYPE)`, in bytes. -/
def sizeofTYPE (b : Build) : Nat := if b.COMPILE_64_BIT then 8 else 4

/-- Width of `TYPE` in bits. -/
def wordBits (b : Build) : Nat := 8 * sizeofTYPE b

/-- `static unsigned int steps[8]`. -/
def steps : List Nat := [3, 2, 1, 2, 1, 2, 3, 1]

/-! ## The word array -/

/-- A block of `size` words of type `TYPE`, with the bit image of its contents. -/
structure Words where
  /-- Number of words in the block. -/
  size : Nat
  /-- Bit image of the block. -/
  bits : Nat
deriving DecidableEq

/-- `calloc(count, sizeof(TYPE))`: a zeroed block of `count` words. -/
def calloc (count : Nat) : Words := ⟨count, 0⟩

/-- Read of `a[i]`. -/
def Words.load (b : Build) (a : Words) (i : Nat) : Option Nat :=
  match a with
  | ⟨size, bits⟩ =>
    if i < size then some ((bits >>> (i * wordBits b)) % 2 ^ wordBits b) else none

/-- The statement `a[i] |= v`, for a value `v` of type `TYPE`. -/
def Words.or_assign (b : Build) (a : Words) (i v : Nat) : Option Words :=
  match a with
  | ⟨size, bits⟩ =>
    if i < size then some ⟨size, bits ||| (v <<< (i * wordBits b))⟩ else none

/-- The test `a[h>>SHIFT] & ((TYPE)1 << (h&MASK))` of the bit of half-index `h`. -/
def Words.test (b : Build) (a : Words) (h : Nat) : Option Bool :=
  match a.load b (h >>> SHIFT b) with
  | some w => some (w &&& (1 <<< (h &&& MASK b)) != 0)
  | none => none

/-- `struct sieve_state`. -/
structure sieve_state where
  /-- The bit store. -/
  a : Words
  /-- The bound. -/
  maxints : Nat
deriving DecidableEq

/-- `create_sieve(maxints)` for an `int` argument `0 ≤ maxints < 2^31`. -/
def create_sieve (b : Build) (maxints : Nat) : sieve_state :=
  { a := calloc (maxints / 2 / sizeofTYPE b + 1), maxints := maxints % 4294967296 }

/-! ## Marking -/

/-- The sequential loop
`for (m = ...; m < maxintsh; m += factor) a[m>>SHIFT] |= (TYPE)1 << (m&MASK);`
entered with the current value of `m`. -/
def mark_lt (b : Build) (factor maxintsh : Nat) : Nat → Nat → Words → Option Words
  | 0, _, _ => none
  | fuel + 1, m, a =>
    if m < maxintsh then
      match a.or_assign b (m >>> SHIFT b) (1 <<< (m &&& MASK b)) with
      | some a1 => mark_lt b factor maxintsh fuel (add32 m factor) a1
      | none => none
    else some a

/-- The per-thread loop
`for (m = myfirstbit; m <= mylastbit; m += factor) a[m>>SHIFT] |= (TYPE)1 << (m&MASK);`
entered with the current value of `m`. -/
def mark_le (b : Build) (factor mylastbit : Nat) : Nat → Nat → Words → Option Words
  | 0, _, _ => none
  | fuel + 1, m, a =>
    if m ≤ mylastbit then
      match a.or_assign b (m >>> SHIFT b) (1 <<< (m &&& MASK b)) with
      | some a1 => mark_le b factor mylastbit fuel (add32 m factor) a1
      | none => none
    else some a

/-- The first `while (1)` loop of the parallel region (start boundary), entered
with the current value of `myfirstbit`. -/
def adjust_first (b : Build) (factor : Nat) : Nat → Nat → Option Nat
  | 0, _ => none
  | fuel + 1, myfirstbit =>
    if myfirstbit >>> SHIFT b ≠ sub32 myfirstbit factor >>> SHIFT b then some myfirstbit
    else adjust_first b factor fuel (add32 myfirstbit factor)

/-- The second `while (1)` loop of the parallel region (end boundary), entered
with the current value of `mylastbit`. -/
def adjust_last (b : Build) (factor : Nat) : Nat → Nat → Option Nat
  | 0, _ => none
  | fuel + 1, mylastbit =>
    if mylastbit >>> SHIFT b ≠ add32 mylastbit factor >>> SHIFT b then some mylastbit
    else adjust_last b factor fuel (add32 mylastbit factor)

/-- Final `(myfirstbit, mylastbit)` of thread `ithread` in the parallel region. -/
def thread_range (b : Build) (maxintsh factor ithread : Nat) : Option (Nat × Nat) :=
  let firstbit := mul32 factor factor >>> 1
  let lastbit := maxintsh
  let workbits := sub32 lastbit firstbit / factor
  let threadworkbits := workbits / b.numthreads
  let myfirstbit := add32 firstbit (mul32 (mul32 factor threadworkbits) ithread)
  let mylastbit :=
    sub32 (add32 firstbit (mul32 (mul32 factor threadworkbits) (add32 ithread 1))) factor
  match (if ithread ≠ 0 then adjust_first b factor (wordBits b + 1) myfirstbit
         else some myfirstbit) with
  | none => none
  | some myfirstbit1 =>
    match (if ithread = b.numthreads - 1 then some lastbit
           else adjust_last b factor (wordBits b + 1) mylastbit) with
    | none => none
    | some mylastbit1 => some (myfirstbit1, mylastbit1)

/-- Body of the parallel region as executed by thread `ithread`. -/
def thread_body (b : Build) (maxintsh factor ithread : Nat) (a : Words) : Option Words :=
  match thread_range b maxintsh factor ithread with
  | none => none
  | some (myfirstbit, mylastbit) => mark_le b factor mylastbit (maxintsh + 2) myfirstbit a

/-- The parallel region, the bodies of the listed threads run in turn. -/
def parallel_region (b : Build) (maxintsh factor : Nat) : List Nat → Words → Option Words
  | [], a => some a
  | ithread :: rest, a =>
    match thread_body b maxintsh factor ithread a with
    | none => none
    | some a1 => parallel_region b maxintsh factor rest a1

/-- "Mask all integer multiples of this prime": the body of the outer loop of
`run_sieve` between the computation of `factor` and the wheel step. -/
def mark_multiples (b : Build) (maxints maxintsh factor : Nat) (a : Words) : Option Words :=
  if b.OPENMP then
    if maxints > mul32 factor factor then
      if sub32 maxints (mul32 factor factor) / mul32 2 factor > b.numthreads * 300 then
        parallel_region b maxintsh factor (List.range b.numthreads) a
      else
        mark_lt b factor maxintsh (maxintsh + 1) (mul32 factor factor >>> 1) a
    else some a
  else
    mark_lt b factor maxintsh (maxintsh + 1) (mul32 factor factor >>> 1) a

/-- `if (++step==8U) step=0U;` -/
def next_step (step : Nat) : Nat := if step + 1 = 8 then 0 else step + 1

/-- The loop `while (factorh<=qh)` of `run_sieve`. -/
def sieve_loop (b : Build) (maxints maxintsh qh : Nat) :
    Nat → Nat → Nat → Nat → Words → Option Words
  | 0, _, _, _, _ => none
  | fuel + 1, factorh, step, inc, a =>
    if factorh ≤ qh then
      match a.test b factorh with
      | none => none
      | some true =>
        sieve_loop b maxints maxintsh qh fuel (add32 factorh inc) (next_step step)
          (steps.getD (next_step step) 0) a
      | some false =>
        match mark_multiples b maxints maxintsh (add32 (shl32 factorh 1) 1) a with
        | none => none
        | some a1 =>
          sieve_loop b maxints maxintsh qh fuel (add32 factorh inc) (next_step step)
            (steps.getD (next_step step) 0) a1
    else some a

/-- `run_sieve(sieve_state)`. -/
def run_sieve (b : Build) (s : sieve_state) : Option sieve_state :=
  match s with
  | ⟨a, maxints⟩ =>
    match sieve_loop b maxints (maxints >>> 1) (add32 (isqrt maxints) 1 >>> 1)
        ((add32 (isqrt maxints) 1 >>> 1) + 1) (7 >>> 1) 1 (steps.getD 1 0) a with
    | none => none
    | some a1 => some ⟨a1, maxints⟩

/-! ## Counting -/

/-- The loop `while (factor<=maxints)` of `count_primes`. -/
def count_loop (b : Build) (maxints : Nat) (a : Words) :
    Nat → Nat → Nat → Nat → Nat → Option Nat
  | 0, _, _, _, _ => none
  | fuel + 1, factor, step, inc, ncount =>
    if factor ≤ maxints then
      match a.load b (factor >>> (SHIFT b + 1)) with
      | none => none
      | some w =>
        if w &&& (1 <<< ((factor >>> 1) &&& MASK b)) = 0 then
          count_loop b maxints a fuel (add32 factor inc) (next_step step)
            (shl32 (steps.getD (next_step step) 0) 1) (add32 ncount 1)
        else
          count_loop b maxints a fuel (add32 factor inc) (next_step step)
            (shl32 (steps.getD (next_step step) 0) 1) ncount
    else some ncount

/-- `count_primes(sieve_state)`. -/
def count_primes (b : Build) (s : sieve_state) : Option Nat :=
  match s with
  | ⟨a, maxints⟩ => count_loop b maxints a (maxints + 1) 7 1 (shl32 (steps.getD 1 0) 1) 3

/-- The call sequence of `main`: `create_sieve`, `run_sieve`, `count_primes`. -/
def sieve_count (b : Build) (maxints : Nat) : Option Nat :=
  match run_sieve b (create_sieve b maxints) with
  | none => none
  | some s => count_primes b s

/-! ## Traces of the marking loops

The lists of the values of `m` for which the body of a marking loop runs.  They
do not occur in the source; each is tied to its loop by a theorem below. -/

/-- The statement `a[m>>SHIFT] |= (TYPE)1 << (m&MASK)` for every `m` of a list, in turn. -/
def mark_list (b : Build) : List Nat → Words → Option Words
  | [], a => some a
  | m :: ms, a =>
    match a.or_assign b (m >>> SHIFT b) (1 <<< (m &&& MASK b)) with
    | some a1 => mark_list b ms a1
    | none => none

/-- Values of `m` at which the body of `for (...; m < maxintsh; m += factor)` runs. -/
def visits_lt (factor maxintsh : Nat) : Nat → Nat → Option (List Nat)
  | 0, _ => none
  | fuel + 1, m =>
    if m < maxintsh then
      match visits_lt factor maxintsh fuel (add32 m factor) with
      | some ms => some (m :: ms)
      | none => none
    else some []

/-- Values of `m` at which the body of `for (...; m <= mylastbit; m += factor)` runs. -/
def visits_le (factor mylastbit : Nat) : Nat → Nat → Option (List Nat)
  | 0, _ => none
  | fuel + 1, m =>
    if m ≤ mylastbit then
      match visits_le factor mylastbit fuel (add32 m factor) with
      | some ms => some (m :: ms)
      | none => none
    else some []

/-- Half-indices that thread `ithread` marks in the parallel region. -/
def thread_visits (b : Build) (maxintsh factor ithread : Nat) : Option (List Nat) :=
  match thread_range b maxintsh factor ithread with
  | none => none
  | some (myfirstbit, mylastbit) => visits_le factor mylastbit (maxintsh + 2) myfirstbit

/-- Half-indices that the sequential loop marks for `factor`. -/
def sequential_visits (maxintsh factor : Nat) : Option (List Nat) :=
  visits_lt factor maxintsh (maxintsh + 1) (mul32 factor factor >>> 1)

/-! ## Specification vocabulary -/

/-- The value of `myfirstbit` of thread `ithread` after the first `while (1)` loop
(the statements of `thread_range` up to that point). -/
def thread_first (b : Build) (maxintsh factor ithread : Nat) : Option Nat :=
  let firstbit := mul32 factor factor >>> 1
  let lastbit := maxintsh
  let workbits := sub32 lastbit firstbit / factor
  let threadworkbits := workbits / b.numthreads
  let myfirstbit := add32 firstbit (mul32 (mul32 factor threadworkbits) ithread)
  if ithread ≠ 0 then adjust_first b factor (wordBits b + 1) myfirstbit else some myfirstbit

/-- The half-indices `h` that `mark_multiples` marks for `factor` under the bound
`maxints`: the progression `factor*factor/2 + k*factor` below `maxints/2`, and
`maxints/2` itself as well when it belongs to the progression and the parallel
path is taken. -/
def marked_by (b : Build) (maxints factor h : Nat) : Prop :=
  factor * factor / 2 ≤ h ∧ factor ∣ h - factor * factor / 2 ∧
    (h < maxints / 2 ∨
      (h = maxints / 2 ∧ b.OPENMP = true ∧ factor * factor < maxints ∧
        (maxints - factor * factor) / (2 * factor) > b.numthreads * 300))

/-- Residues modulo 30 of the integers coprime to 30, in the order of the wheel:
the wheel cursor `step` stands at an integer with residue `wheel_residues[step]`. -/
def wheel_residues : List Nat := [1, 7, 11, 13, 17, 19, 23, 29]

/-- The wheel cursor `step` stands at the integer `factor`. -/
def wheel_at (factor step : Nat) : Prop :=
  step < 8 ∧ factor % 30 = wheel_residues.getD step 0

end Sieve8of30

/-! ## Further vocabulary: initial chunk bounds and traces of the candidate loops -/

namespace Sieve8of30

/-- The value of `myfirstbit` of thread `ithread` before the first `while (1)` loop. -/
def chunk_first (b : Build) (maxintsh factor ithread : Nat) : Nat :=
  let firstbit := mul32 factor factor >>> 1
  let lastbit := maxintsh
  let workbits := sub32 lastbit firstbit / factor
  let threadworkbits := workbits / b.numthreads
  add32 firstbit (mul32 (mul32 factor threadworkbits) ithread)

/-- The value of `mylastbit` of thread `ithread` before the second `while (1)` loop. -/
def chunk_last (b : Build) (maxintsh factor ithread : Nat) : Nat :=
  let firstbit := mul32 factor factor >>> 1
  let lastbit := maxintsh
  let workbits := sub32 lastbit firstbit / factor
  let threadworkbits := workbits / b.numthreads
  sub32 (add32 firstbit (mul32 (mul32 factor threadworkbits) (add32 ithread 1))) factor

/-- Values of `factorh` at which the body of `while (factorh<=qh)` runs: the wheel
cursor of `run_sieve`, which does not depend on the bit store. -/
def sieve_candidates (qh : Nat) : Nat → Nat → Nat → Nat → Option (List Nat)
  | 0, _, _, _ => none
  | fuel + 1, factorh, step, inc =>
    if factorh ≤ qh then
      match sieve_candidates qh fuel (add32 factorh inc) (next_step step)
          (steps.getD (next_step step) 0) with
      | some l => some (factorh :: l)
      | none => none
    else some []

/-- The body of `while (factorh<=qh)` (bit test, marking) for every candidate of a
list, in turn. -/
def sieve_over (b : Build) (maxints maxintsh : Nat) : List Nat → Words → Option Words
  | [], a => some a
  | factorh :: l, a =>
    match a.test b factorh with
    | none => none
    | some true => sieve_over b maxints maxintsh l a
    | some false =>
      match mark_multiples b maxints maxintsh (add32 (shl32 factorh 1) 1) a with
      | none => none
      | some a1 => sieve_over b maxints maxintsh l a1

/-- Values of `factor` at which the body of `while (factor<=maxints)` of
`count_primes` runs: the wheel cursor of the counter. -/
def count_candidates (maxints : Nat) : Nat → Nat → Nat → Nat → Option (List Nat)
  | 0, _, _, _ => none
  | fuel + 1, factor, step, inc =>
    if factor ≤ maxints then
      match count_candidates maxints fuel (add32 factor inc) (next_step step)
          (shl32 (steps.getD (next_step step) 0) 1) with
      | some l => some (factor :: l)
      | none => none
    else some []

/-- The body of `while (factor<=maxints)` (bit test, `ncount++`) for every candidate
of a list, in turn. -/
def count_over (b : Build) (a : Words) : List Nat → Nat → Option Nat
  | [], ncount => some ncount
  | factor :: l, ncount =>
    match a.load b (factor >>> (SHIFT b + 1)) with
    | none => none
    | some w =>
      if w &&& (1 <<< ((factor >>> 1) &&& MASK b)) = 0 then count_over b a l (add32 ncount 1)
      else count_over b a l ncount

end Sieve8of30

/-! ## Checked arithmetic

The functions of the program once more, with every `unsigned int` addition,
subtraction, multiplication and left shift replaced by an operation that returns
`none` when the mathematical result is not a value of `unsigned int`, and the
`int` product `numthreads*300` by one that returns `none` when the result is not a
value of `int`.  A run of a checked function that returns `some` is a run in which
no operation wrapped around. -/

namespace Sieve8of30

/-- Sum of two `unsigned int`, defined when it does not wrap. -/
def add_chk (x y : Nat) : Option Nat := if x + y < 4294967296 then some (x + y) else none

/-- Difference of two `unsigned int`, defined when it does not wrap. -/
def sub_chk (x y : Nat) : Option Nat := if y ≤ x then some (x - y) else none

/-- Product of two `unsigned int`, defined when it does not wrap. -/
def mul_chk (x y : Nat) : Option Nat := if x * y < 4294967296 then some (x * y) else none

/-- Left shift of an `unsigned int`, defined when no bit is shifted out. -/
def shl_chk (x k : Nat) : Option Nat := if x <<< k < 4294967296 then some (x <<< k) else none

/-- Product of two non-negative `int`, defined when it does not overflow. -/
def imul_chk (x y : Nat) : Option Nat := if x * y < 2147483648 then some (x * y) else none

/-- The loop of `mark_lt` with checked `m += factor`. -/
def mark_lt_chk (b : Build) (factor maxintsh : Nat) : Nat → Nat → Words → Option Words
  | 0, _, _ => none
  | fuel + 1, m, a =>
    if m < maxintsh then
      match a.or_assign b (m >>> SHIFT b) (1 <<< (m &&& MASK b)) with
      | some a1 =>
        match add_chk m factor with
        | some m1 => mark_lt_chk b factor maxintsh fuel m1 a1
        | none => none
      | none => none
    else some a

/-- The loop of `mark_le` with checked `m += factor`. -/
def mark_le_chk (b : Build) (factor mylastbit : Nat) : Nat → Nat → Words → Option Words
  | 0, _, _ => none
  | fuel + 1, m, a =>
    if m ≤ mylastbit then
      match a.or_assign b (m >>> SHIFT b) (1 <<< (m &&& MASK b)) with
      | some a1 =>
        match add_chk m factor with
        | some m1 => mark_le_chk b factor mylastbit fuel m1 a1
        | none => none
      | none => none
    else some a

/-- The loop of `adjust_first` with checked `myfirstbit-factor` and
`myfirstbit+=factor`. -/
def adjust_first_chk (b : Build) (factor : Nat) : Nat → Nat → Option Nat
  | 0, _ => none
  | fuel + 1, myfirstbit =>
    match sub_chk myfirstbit factor with
    | none => none
    | some previous_thread_lastbit =>
      if myfirstbit >>> SHIFT b ≠ previous_thread_lastbit >>> SHIFT b then some myfirstbit
      else
        match add_chk myfirstbit factor with
        | none => none
        | some myfirstbit1 => adjust_first_chk b factor fuel myfirstbit1

/-- The loop of `adjust_last` with checked `mylastbit+factor` and
`mylastbit+=factor`. -/
def adjust_last_chk (b : Build) (factor : Nat) : Nat → Nat → Option Nat
  | 0, _ => none
  | fuel + 1, mylastbit =>
    match add_chk mylastbit factor with
    | none => none
    | some next_thread_firstbit =>
      if mylastbit >>> SHIFT b ≠ next_thread_firstbit >>> SHIFT b then some mylastbit
      else adjust_last_chk b factor fuel next_thread_firstbit

/-- The statements of `thread_range` with checked arithmetic. -/
def thread_range_chk (b : Build) (maxintsh factor ithread : Nat) : Option (Nat × Nat) :=
  (mul_chk factor factor).bind fun ff =>
  let firstbit := ff >>> 1
  let lastbit := maxintsh
  (sub_chk lastbit firstbit).bind fun d =>
  let workbits := d / factor
  let threadworkbits := workbits / b.numthreads
  (mul_chk factor threadworkbits).bind fun ft =>
  (mul_chk ft ithread).bind fun fti =>
  (add_chk firstbit fti).bind fun myfirstbit =>
  (add_chk ithread 1).bind fun ithread1 =>
  (mul_chk ft ithread1).bind fun fti1 =>
  (add_chk firstbit fti1).bind fun nextfirstbit =>
  (sub_chk nextfirstbit factor).bind fun mylastbit =>
  match (if ithread ≠ 0 then adjust_first_chk b factor (wordBits b + 1) myfirstbit
         else some myfirstbit) with
  | none => none
  | some myfirstbit1 =>
    match (if ithread = b.numthreads - 1 then some lastbit
           else adjust_last_chk b factor (wordBits b + 1) mylastbit) with
    | none => none
    | some mylastbit1 => some (myfirstbit1, mylastbit1)

/-- The body of the parallel region with checked arithmetic. -/
def thread_body_chk (b : Build) (maxintsh factor ithread : Nat) (a : Words) : Option Words :=
  match thread_range_chk b maxintsh factor ithread with
  | none => none
  | some (myfirstbit, mylastbit) => mark_le_chk b factor mylastbit (maxintsh + 2) myfirstbit a

/-- The parallel region with checked arithmetic. -/
def parallel_region_chk (b : Build) (maxintsh factor : Nat) : List Nat → Words → Option Words
  | [], a => some a
  | ithread :: rest, a =>
    match thread_body_chk b maxintsh factor ithread a with
    | none => none
    | some a1 => parallel_region_chk b maxintsh factor rest a1

/-- The statements of `mark_multiples` with checked arithmetic. -/
def mark_multiples_chk (b : Build) (maxints maxintsh factor : Nat) (a : Words) :
    Option Words :=
  (mul_chk factor factor).bind fun ff =>
  if b.OPENMP then
    if maxints > ff then
      (sub_chk maxints ff).bind fun d =>
      (mul_chk 2 factor).bind fun f2 =>
      (imul_chk b.numthreads 300).bind fun t300 =>
      if d / f2 > t300 then
        parallel_region_chk b maxintsh factor (List.range b.numthreads) a
      else
        mark_lt_chk b factor maxintsh (maxintsh + 1) (ff >>> 1) a
    else some a
  else
    mark_lt_chk b factor maxintsh (maxintsh + 1) (ff >>> 1) a

/-- The loop of `sieve_loop` with checked arithmetic. -/
def sieve_loop_chk (b : Build) (maxints maxintsh qh : Nat) :
    Nat → Nat → Nat → Nat → Words → Option Words
  | 0, _, _, _, _ => none
  | fuel + 1, factorh, step, inc, a =>
    if factorh ≤ qh then
      match a.test b factorh with
      | none => none
      | some true =>
        match add_chk factorh inc with
        | none => none
        | some factorh1 =>
          sieve_loop_chk b maxints maxintsh qh fuel factorh1 (next_step step)
            (steps.getD (next_step step) 0) a
      | some false =>
        match (shl_chk factorh 1).bind (fun x => add_chk x 1) with
        | none => none
        | some factor =>
          match mark_multiples_chk b maxints maxintsh factor a with
          | none => none
          | some a1 =>
            match add_chk factorh inc with
            | none => none
            | some factorh1 =>
              sieve_loop_chk b maxints maxintsh qh fuel factorh1 (next_step step)
                (steps.getD (next_step step) 0) a1
    else some a

/-- The statements of `run_sieve` with checked arithmetic. -/
def run_sieve_chk (b : Build) (s : sieve_state) : Option sieve_state :=
  match s with
  | ⟨a, maxints⟩ =>
    match add_chk (isqrt maxints) 1 with
    | none => none
    | some q =>
      match sieve_loop_chk b maxints (maxints >>> 1) (q >>> 1) ((q >>> 1) + 1) (7 >>> 1) 1
          (steps.getD 1 0) a with
      | none => none
      | some a1 => some ⟨a1, maxints⟩

/-- The loop of `count_loop` with checked arithmetic. -/
def count_loop_chk (b : Build) (maxints : Nat) (a : Words) :
    Nat → Nat → Nat → Nat → Nat → Option Nat
  | 0, _, _, _, _ => none
  | fuel + 1, factor, step, inc, ncount =>
    if factor ≤ maxints then
      match a.load b (factor >>> (SHIFT b + 1)) with
      | none => none
      | some w =>
        match (if w &&& (1 <<< ((factor >>> 1) &&& MASK b)) = 0 then add_chk ncount 1
               else some ncount) with
        | none => none
        | some ncount1 =>
          match add_chk factor inc with
          | none => none
          | some factor1 =>
            match shl_chk (steps.getD (next_step step) 0) 1 with
            | none => none
            | some inc1 =>
              count_loop_chk b maxints a fuel factor1 (next_step step) inc1 ncount1
    else some ncount

/-- The statements of `count_primes` with checked arithmetic. -/
def count_primes_chk (b : Build) (s : sieve_state) : Option Nat :=
  match s with
  | ⟨a, maxints⟩ =>
    match shl_chk (steps.getD 1 0) 1 with
    | none => none
    | some inc => count_loop_chk b maxints a (maxints + 1) 7 1 inc 3

end Sieve8of30

/-! ## Machine arithmetic without wrap-around -/

namespace Sieve8of30

theorem add32_of_lt {x y : Nat} (h : x + y < 4294967296) : add32 x y = x + y :=
  Nat.mod_eq_of_lt h

theorem sub32_of_le {x y : Nat} (hy : y ≤ x) (hx : x < 4294967296) : sub32 x y = x - y := by
  unfold sub32
  rw [Nat.mod_eq_of_lt (show y < 4294967296 by omega)]
  omega

theorem mul32_of_lt {x y : Nat} (h : x * y < 4294967296) : mul32 x y = x * y :=
  Nat.mod_eq_of_lt h

theorem shl32_one {x : Nat} (h : x < 2147483648) : shl32 x 1 = 2 * x := by
  unfold shl32
  rw [Nat.shiftLeft_eq, Nat.mod_eq_of_lt (by omega)]
  omega

theorem shiftRight_one_eq (x : Nat) : x >>> 1 = x / 2 := by
  rw [Nat.shiftRight_eq_div_pow, pow_one]

theorem isqrt_loop_spec (n : Nat) : ∀ fuel r, r * r ≤ n → n ≤ r + fuel →
    isqrt_loop n fuel r * isqrt_loop n fuel r ≤ n ∧
      n < (isqrt_loop n fuel r + 1) * (isqrt_loop n fuel r + 1) := by
  intro fuel
  induction fuel with
  | zero =>
    intro r h1 h2
    simp only [isqrt_loop]
    refine ⟨h1, ?_⟩
    nlinarith
  | succ k ih =>
    intro r h1 h2
    simp only [isqrt_loop]
    split
    · next h => exact ih (r + 1) h (by omega)
    · next h => exact ⟨h1, by omega⟩

theorem isqrt_eq_sqrt (n : Nat) : isqrt n = Nat.sqrt n :=
  Nat.eq_sqrt.mpr (isqrt_loop_spec n n 0 (by simp) (by simp))

theorem isqrt_lt_of_lt {n : Nat} (h : n < 4294967296) : isqrt n < 65536 := by
  rw [isqrt_eq_sqrt, Nat.sqrt_lt]
  omega

/-! ## Independence of the switches that a function does not read -/

theorem mark_lt_build (w o o' : Bool) (T T' : Nat) (factor maxintsh : Nat) :
    ∀ fuel m a, mark_lt ⟨w, o, T⟩ factor maxintsh fuel m a
      = mark_lt ⟨w, o', T'⟩ factor maxintsh fuel m a := by
  intro fuel
  induction fuel with
  | zero => intro m a; rfl
  | succ n ih =>
    intro m a
    simp only [mark_lt, ih]
    rfl

theorem count_loop_build (w o o' : Bool) (T T' : Nat) (maxints : Nat) (a : Words) :
    ∀ fuel factor step inc ncount, count_loop ⟨w, o, T⟩ maxints a fuel factor step inc ncount
      = count_loop ⟨w, o', T'⟩ maxints a fuel factor step inc ncount := by
  intro fuel
  induction fuel with
  | zero => intros; rfl
  | succ n ih =>
    intro factor step inc ncount
    simp only [count_loop, ih]
    rfl

theorem count_primes_build (w o o' : Bool) (T T' : Nat) (s : sieve_state) :
    count_primes ⟨w, o, T⟩ s = count_primes ⟨w, o', T'⟩ s := by
  unfold count_primes
  exact count_loop_build w o o' T T' _ _ _ _ _ _ _

theorem steps_getD_le (i : Nat) : steps.getD i 0 ≤ 3 := by
  unfold steps
  rcases i with _ | _ | _ | _ | _ | _ | _ | _ | i <;> simp

/-- Two builds of the same word width whose marking of the multiples agrees on
every factor that the outer loop can produce run the same outer loop. -/
theorem sieve_loop_congr (w o o' : Bool) (T T' : Nat) (maxints maxintsh qh : Nat)
    (hq : qh < 2147483648)
    (hmark : ∀ factorh a, 3 ≤ factorh → factorh ≤ qh →
      mark_multiples ⟨w, o, T⟩ maxints maxintsh (2 * factorh + 1) a
        = mark_multiples ⟨w, o', T'⟩ maxints maxintsh (2 * factorh + 1) a) :
    ∀ fuel factorh step inc a, 3 ≤ factorh → inc ≤ 3 →
      sieve_loop ⟨w, o, T⟩ maxints maxintsh qh fuel factorh step inc a
        = sieve_loop ⟨w, o', T'⟩ maxints maxintsh qh fuel factorh step inc a := by
  intro fuel
  induction fuel with
  | zero => intros; rfl
  | succ n ih =>
    intro factorh step inc a h3 hinc
    simp only [sieve_loop]
    by_cases hle : factorh ≤ qh
    · have hnext : 3 ≤ add32 factorh inc := by
        rw [add32_of_lt (by omega)]; omega
      have hfac : add32 (shl32 factorh 1) 1 = 2 * factorh + 1 := by
        rw [shl32_one (by omega), add32_of_lt (by omega)]
      rw [if_pos hle, if_pos hle, hfac, hmark factorh a h3 hle,
        ih _ _ _ a hnext (steps_getD_le _)]
      have htest : Words.test ⟨w, o, T⟩ a factorh = Words.test ⟨w, o', T'⟩ a factorh := rfl
      rw [htest]
      cases Words.test ⟨w, o', T'⟩ a factorh with
      | none => rfl
      | some v =>
        cases v with
        | true => rfl
        | false =>
          simp only
          cases mark_multiples ⟨w, o', T'⟩ maxints maxintsh (2 * factorh + 1) a with
          | none => rfl
          | some a1 =>
            simp only
            exact ih _ _ _ a1 hnext (steps_getD_le _)
    · rw [if_neg hle, if_neg hle]

/-- When the work of no factor can exceed the threshold `300 * numthreads`, the
OpenMP build marks exactly as the build without OpenMP. -/
theorem mark_multiples_below_threshold (w : Bool) (T T' : Nat) (maxints factor : Nat)
    (a : Words) (hN : maxints < 4294967296) (hf7 : 7 ≤ factor) (hf : factor < 2147483648)
    (hT : maxints / 14 ≤ T * 300) :
    mark_multiples ⟨w, true, T⟩ maxints (maxints >>> 1) factor a
      = mark_multiples ⟨w, false, T'⟩ maxints (maxints >>> 1) factor a := by
  simp only [mark_multiples, if_true, Bool.false_eq_true, if_false]
  by_cases hgt : maxints > mul32 factor factor
  · rw [if_pos hgt]
    have hws : ¬ sub32 maxints (mul32 factor factor) / mul32 2 factor > T * 300 := by
      rw [sub32_of_le (Nat.le_of_lt hgt) hN, @mul32_of_lt 2 factor (by omega)]
      have : (maxints - mul32 factor factor) / (2 * factor) ≤ maxints / 14 :=
        Nat.div_le_div (Nat.sub_le _ _) (by omega) (by norm_num)
      omega
    rw [if_neg hws]
    exact mark_lt_build w true false T T' _ _ _ _ _
  · rw [if_neg hgt]
    simp only [mark_lt]
    rw [if_neg]
    simp only [shiftRight_one_eq]
    omega

theorem run_sieve_below_threshold (w : Bool) (T T' : Nat) (s : sieve_state)
    (hN : s.maxints < 4294967296) (hT : s.maxints / 14 ≤ T * 300) :
    run_sieve ⟨w, true, T⟩ s = run_sieve ⟨w, false, T'⟩ s := by
  obtain ⟨a, maxints⟩ := s
  simp only at hN hT
  have hq : add32 (isqrt maxints) 1 >>> 1 < 65536 := by
    have := isqrt_lt_of_lt hN
    rw [add32_of_lt (by omega), shiftRight_one_eq]
    omega
  simp only [run_sieve]
  rw [sieve_loop_congr w true false T T' maxints (maxints >>> 1) _ (by omega) _ _ _ _ _ _
    (by decide) (by simp [steps])]
  intro factorh a' h3 hle
  exact mark_multiples_below_threshold w T T' maxints _ a' hN (by omega) (by omega) hT

theorem run_sieve_sequential_build (w : Bool) (T T' : Nat) (s : sieve_state) :
    run_sieve ⟨w, false, T⟩ s = run_sieve ⟨w, false, T'⟩ s := by
  obtain ⟨a, maxints⟩ := s
  simp only [run_sieve]
  have hstep : ∀ fuel factorh step inc a,
      sieve_loop ⟨w, false, T⟩ maxints (maxints >>> 1) (add32 (isqrt maxints) 1 >>> 1)
        fuel factorh step inc a
      = sieve_loop ⟨w, false, T'⟩ maxints (maxints >>> 1) (add32 (isqrt maxints) 1 >>> 1)
        fuel factorh step inc a := by
    intro fuel
    induction fuel with
    | zero => intros; rfl
    | succ n ih =>
      intro factorh step inc a
      simp only [sieve_loop, ih]
      have hm : ∀ f a, mark_multiples ⟨w, false, T⟩ maxints (maxints >>> 1) f a
          = mark_multiples ⟨w, false, T'⟩ maxints (maxints >>> 1) f a := by
        intro f a
        simp only [mark_multiples, Bool.false_eq_true, if_false]
        exact mark_lt_build w false false T T' _ _ _ _ _
      rw [hm]
      rfl
  rw [hstep]

theorem sieve_count_below_threshold (w : Bool) (T T' : Nat) (n : Nat)
    (hN : n < 4294967296) (hT : n / 14 ≤ T * 300) :
    sieve_count ⟨w, true, T⟩ n = sieve_count ⟨w, false, T'⟩ n := by
  unfold sieve_count
  have hc : create_sieve ⟨w, true, T⟩ n = create_sieve ⟨w, false, T'⟩ n := rfl
  have hm : (create_sieve ⟨w, false, T'⟩ n).maxints = n := by
    simp only [create_sieve]; omega
  rw [hc, run_sieve_below_threshold w T T' _ (by omega) (by omega)]
  cases run_sieve ⟨w, false, T'⟩ (create_sieve ⟨w, false, T'⟩ n) with
  | none => rfl
  | some s => exact count_primes_build w true false T T' s

theorem sieve_count_sequential_build (w : Bool) (T T' : Nat) (n : Nat) :
    sieve_count ⟨w, false, T⟩ n = sieve_count ⟨w, false, T'⟩ n := by
  unfold sieve_count
  have hc : create_sieve ⟨w, false, T⟩ n = create_sieve ⟨w, false, T'⟩ n := rfl
  rw [hc, run_sieve_sequential_build w T T']
  cases run_sieve ⟨w, false, T'⟩ (create_sieve ⟨w, false, T'⟩ n) with
  | none => rfl
  | some s => exact count_primes_build w false false T T' s

end Sieve8of30

/-! ## Bits of the word array -/

namespace Sieve8of30

theorem build_cases (b : Build) :
    (SHIFT b = 5 ∧ MASK b = 31 ∧ wordBits b = 32 ∧ sizeofTYPE b = 4) ∨
    (SHIFT b = 6 ∧ MASK b = 63 ∧ wordBits b = 64 ∧ sizeofTYPE b = 8) := by
  unfold SHIFT MASK wordBits sizeofTYPE
  cases b.COMPILE_64_BIT <;> simp

theorem wordBits_pos (b : Build) : 0 < wordBits b := by
  rcases build_cases b with h | h <;> omega

theorem wordBits_le (b : Build) : wordBits b ≤ 64 := by
  rcases build_cases b with h | h <;> omega

theorem shiftRight_SHIFT (b : Build) (h : Nat) : h >>> SHIFT b = h / wordBits b := by
  rcases build_cases b with ⟨h1, _, h3, _⟩ | ⟨h1, _, h3, _⟩ <;>
    rw [h1, h3, Nat.shiftRight_eq_div_pow]

theorem and_MASK (b : Build) (h : Nat) : h &&& MASK b = h % wordBits b := by
  rcases build_cases b with ⟨_, h2, h3, _⟩ | ⟨_, h2, h3, _⟩
  · rw [h2, h3]; exact Nat.and_pow_two_sub_one_eq_mod h 5
  · rw [h2, h3]; exact Nat.and_pow_two_sub_one_eq_mod h 6

theorem and_two_pow_bne_zero (w k : Nat) : (w &&& 2 ^ k != 0) = w.testBit k := by
  have h : w &&& 2 ^ k = if w.testBit k then 2 ^ k else 0 := by
    apply Nat.eq_of_testBit_eq
    intro i
    rw [Nat.testBit_and, Nat.testBit_two_pow]
    by_cases hk : k = i
    · subst hk
      cases hw : w.testBit k <;> simp [Nat.testBit_two_pow_self]
    · cases hw : w.testBit k <;> simp [hk, Nat.testBit_two_pow_of_ne hk]
  rw [h]
  cases hw : w.testBit k
  · simp
  · simp only [if_true]
    have : 2 ^ k ≠ 0 := Nat.pos_iff_ne_zero.mp (Nat.two_pow_pos k)
    simp [this]

/-- The bit test of the source reads bit `h` of the image. -/
theorem test_eq (b : Build) (a : Words) (h : Nat) :
    a.test b h = if h / wordBits b < a.size then some (a.bits.testBit h) else none := by
  obtain ⟨size, bits⟩ := a
  simp only [Words.test, Words.load, shiftRight_SHIFT, and_MASK]
  by_cases hi : h / wordBits b < size
  · simp only [if_pos hi, Nat.one_shiftLeft, and_two_pow_bne_zero, Nat.testBit_mod_two_pow,
      Nat.testBit_shiftRight]
    have hlt : h % wordBits b < wordBits b := Nat.mod_lt _ (wordBits_pos b)
    have hsum : h / wordBits b * wordBits b + h % wordBits b = h := Nat.div_add_mod' h _
    simp [hlt, hsum]
  · simp only [if_neg hi]

/-- The marking statement of the source sets bit `m` of the image. -/
theorem or_assign_eq (b : Build) (a : Words) (m : Nat) :
    a.or_assign b (m >>> SHIFT b) (1 <<< (m &&& MASK b))
      = if m / wordBits b < a.size then some ⟨a.size, a.bits ||| 2 ^ m⟩ else none := by
  obtain ⟨size, bits⟩ := a
  simp only [Words.or_assign, shiftRight_SHIFT, and_MASK]
  by_cases hi : m / wordBits b < size
  · simp only [if_pos hi]
    have hsum : m % wordBits b + m / wordBits b * wordBits b = m := Nat.mod_add_div' m _
    rw [← Nat.shiftLeft_add, Nat.one_shiftLeft, hsum]
  · simp only [if_neg hi]

theorem testBit_or_two_pow (x m h : Nat) :
    (x ||| 2 ^ m).testBit h = (x.testBit h || decide (m = h)) := by
  rw [Nat.testBit_or, Nat.testBit_two_pow]

theorem or_two_pow_of_testBit {x m : Nat} (h : x.testBit m = true) : x ||| 2 ^ m = x := by
  apply Nat.eq_of_testBit_eq
  intro i
  rw [testBit_or_two_pow]
  by_cases hi : m = i
  · subst hi; simp [h]
  · simp [hi]

end Sieve8of30

/-! ## The marking loops and their traces -/

namespace Sieve8of30

theorem mark_le_eq_mark_lt (b : Build) (factor last : Nat) :
    ∀ fuel m a, mark_le b factor last fuel m a = mark_lt b factor (last + 1) fuel m a := by
  intro fuel
  induction fuel with
  | zero => intro m a; rfl
  | succ n ih =>
    intro m a
    simp only [mark_le, mark_lt, ih, Nat.lt_succ_iff]

theorem visits_le_eq_visits_lt (factor last : Nat) :
    ∀ fuel m, visits_le factor last fuel m = visits_lt factor (last + 1) fuel m := by
  intro fuel
  induction fuel with
  | zero => intro m; rfl
  | succ n ih =>
    intro m
    simp only [visits_le, visits_lt, ih, Nat.lt_succ_iff]

/-- The sequential loop performs the marking statement exactly at the values of its trace. -/
theorem mark_lt_eq_mark_list (b : Build) (factor last : Nat) :
    ∀ fuel m a, mark_lt b factor last fuel m a
      = match visits_lt factor last fuel m with
        | none => none
        | some ms => mark_list b ms a := by
  intro fuel
  induction fuel with
  | zero => intro m a; rfl
  | succ n ih =>
    intro m a
    simp only [mark_lt, visits_lt]
    by_cases hm : m < last
    · simp only [if_pos hm]
      cases hv : visits_lt factor last n (add32 m factor) with
      | none =>
        simp only
        cases Words.or_assign b a (m >>> SHIFT b) (1 <<< (m &&& MASK b)) with
        | none => rfl
        | some a1 => simp only [ih, hv]
      | some ms =>
        simp only [mark_list]
        cases Words.or_assign b a (m >>> SHIFT b) (1 <<< (m &&& MASK b)) with
        | none => rfl
        | some a1 => simp only [ih, hv]
    · simp only [if_neg hm, mark_list]

/-- The per-thread loop performs the marking statement exactly at the values of its trace. -/
theorem mark_le_eq_mark_list (b : Build) (factor last : Nat) (fuel m : Nat) (a : Words) :
    mark_le b factor last fuel m a
      = match visits_le factor last fuel m with
        | none => none
        | some ms => mark_list b ms a := by
  rw [mark_le_eq_mark_lt, visits_le_eq_visits_lt, mark_lt_eq_mark_list]

theorem dvd_sub_step {f m h : Nat} (hle : m + f ≤ h) : f ∣ h - (m + f) ↔ f ∣ h - m := by
  have h1 : h - m = (h - (m + f)) + f := by omega
  rw [h1]
  exact (Nat.dvd_add_left (dvd_refl f)).symm

/-- With enough fuel the trace of the sequential loop is the arithmetic
progression `m, m + factor, ...` below `last`. -/
theorem visits_lt_spec (factor last : Nat) (hf : 1 ≤ factor) (hw : last + factor ≤ 4294967296) :
    ∀ fuel m, last - m < fuel →
      ∃ ms, visits_lt factor last fuel m = some ms ∧
        (∀ h, h ∈ ms ↔ (m ≤ h ∧ h < last ∧ factor ∣ h - m)) ∧ ms.Nodup := by
  intro fuel
  induction fuel with
  | zero => intro m hfuel; omega
  | succ n ih =>
    intro m hfuel
    simp only [visits_lt]
    by_cases hm : m < last
    · rw [if_pos hm, add32_of_lt (by omega)]
      obtain ⟨ms, hms, hmem, hnd⟩ := ih (m + factor) (by omega)
      refine ⟨m :: ms, by rw [hms], ?_, ?_⟩
      · intro h
        rw [List.mem_cons, hmem]
        constructor
        · rintro (rfl | ⟨h1, h2, h3⟩)
          · exact ⟨le_refl _, hm, by simp⟩
          · exact ⟨by omega, h2, (dvd_sub_step h1).mp h3⟩
        · rintro ⟨h1, h2, h3⟩
          by_cases heq : h = m
          · exact Or.inl heq
          · right
            have hpos : 0 < h - m := by omega
            have hge : factor ≤ h - m := Nat.le_of_dvd hpos h3
            have hle : m + factor ≤ h := by omega
            exact ⟨hle, h2, (dvd_sub_step hle).mpr h3⟩
      · rw [List.nodup_cons]
        refine ⟨?_, hnd⟩
        intro hin
        have := (hmem m).mp hin
        omega
    · rw [if_neg hm]
      refine ⟨[], rfl, ?_, List.nodup_nil⟩
      intro h
      simp only [List.not_mem_nil, false_iff]
      omega

/-- Marking a list of half-indices that lie in the block sets exactly their bits. -/
theorem mark_list_spec (b : Build) :
    ∀ (ms : List Nat) (a : Words), (∀ m ∈ ms, m / wordBits b < a.size) →
      ∃ bits, mark_list b ms a = some ⟨a.size, bits⟩ ∧
        ∀ h, bits.testBit h = (a.bits.testBit h || decide (h ∈ ms)) := by
  intro ms
  induction ms with
  | nil =>
    intro a _
    exact ⟨a.bits, rfl, by simp⟩
  | cons m ms ih =>
    intro a hb
    have hm : m / wordBits b < a.size := hb m (List.mem_cons_self _ _)
    simp only [mark_list, or_assign_eq, if_pos hm]
    obtain ⟨bits, hbits, htest⟩ := ih ⟨a.size, a.bits ||| 2 ^ m⟩
      (fun x hx => hb x (List.mem_cons_of_mem _ hx))
    refine ⟨bits, hbits, ?_⟩
    intro h
    rw [htest, testBit_or_two_pow]
    simp only [List.mem_cons]
    by_cases h1 : m = h
    · subst h1; simp
    · have h2 : ¬ h = m := fun e => h1 e.symm
      simp [h1, h2]

/-- Marking half-indices whose bits are all set already changes nothing. -/
theorem mark_list_of_set (b : Build) :
    ∀ (ms : List Nat) (a : Words), (∀ m ∈ ms, m / wordBits b < a.size) →
      (∀ m ∈ ms, a.bits.testBit m = true) → mark_list b ms a = some a := by
  intro ms a hb hset
  obtain ⟨bits, hbits, htest⟩ := mark_list_spec b ms a hb
  rw [hbits]
  have : bits = a.bits := by
    apply Nat.eq_of_testBit_eq
    intro h
    rw [htest]
    by_cases hin : h ∈ ms
    · simp [hin, hset h hin]
    · simp [hin]
  rw [this]

end Sieve8of30

/-! ## The wheel and the counting loop -/

namespace Sieve8of30

theorem coprime_30_iff (c : Nat) :
    Nat.Coprime c 30 ↔ (c % 30 = 1 ∨ c % 30 = 7 ∨ c % 30 = 11 ∨ c % 30 = 13 ∨
      c % 30 = 17 ∨ c % 30 = 19 ∨ c % 30 = 23 ∨ c % 30 = 29) := by
  have h : Nat.Coprime c 30 ↔ Nat.Coprime (c % 30) 30 := by
    unfold Nat.Coprime
    rw [Nat.gcd_comm c 30, Nat.gcd_rec 30 c]
  rw [h]
  have hlt : c % 30 < 30 := Nat.mod_lt _ (by norm_num)
  generalize c % 30 = r at hlt
  interval_cases r <;> decide

theorem wheel_at_coprime {factor step : Nat} (h : wheel_at factor step) :
    Nat.Coprime factor 30 := by
  obtain ⟨h8, hr⟩ := h
  rw [coprime_30_iff]
  unfold wheel_residues at hr
  interval_cases step <;> simp at hr <;> omega

/-- One step of the wheel, in integer units: the next cursor stands at the next
integer, and no integer strictly in between is coprime to 30. -/
theorem wheel_at_next {factor step : Nat} (h : wheel_at factor step) :
    wheel_at (factor + 2 * steps.getD step 0) (next_step step) ∧
    1 ≤ steps.getD step 0 ∧
    ∀ c, factor < c → c < factor + 2 * steps.getD step 0 → ¬ Nat.Coprime c 30 := by
  obtain ⟨h8, hr⟩ := h
  unfold wheel_residues at hr
  unfold wheel_at wheel_residues steps next_step
  interval_cases step <;> simp at hr <;> simp <;> refine ⟨by omega, ?_⟩ <;>
    intro c h1 h2 hc <;> have hc2 := (coprime_30_iff c).mp hc <;> omega

end Sieve8of30

namespace Sieve8of30

theorem card_filter_Icc_step (P : Nat → Prop) [DecidablePred P] (f f' N : Nat) (hf : f ≤ N)
    (hlt : f < f') (hgap : ∀ c, f < c → c < f' → ¬ P c) :
    ((Finset.Icc f N).filter P).card
      = (if P f then 1 else 0) + ((Finset.Icc f' N).filter P).card := by
  have h1 : Finset.Icc f N = insert f (Finset.Icc (f + 1) N) := by
    ext c
    simp only [Finset.mem_Icc, Finset.mem_insert]
    omega
  have h2 : (Finset.Icc (f + 1) N).filter P = (Finset.Icc f' N).filter P := by
    ext c
    simp only [Finset.mem_filter, Finset.mem_Icc]
    constructor
    · rintro ⟨⟨h3, h4⟩, h5⟩
      refine ⟨⟨?_, h4⟩, h5⟩
      by_contra hc
      exact hgap c (by omega) (by omega) h5
    · rintro ⟨⟨h3, h4⟩, h5⟩
      exact ⟨⟨by omega, h4⟩, h5⟩
  have h3 : f ∉ (Finset.Icc f' N).filter P := by
    simp only [Finset.mem_filter, Finset.mem_Icc]
    omega
  rw [h1, Finset.filter_insert, h2]
  by_cases hp : P f
  · rw [if_pos hp, if_pos hp, Finset.card_insert_of_not_mem h3]
    omega
  · rw [if_neg hp, if_neg hp]
    omega

theorem load_of_lt (b : Build) (a : Words) (h : Nat) (hb : h / wordBits b < a.size) :
    ∃ w, a.load b (h >>> SHIFT b) = some w ∧
      a.test b h = some (w &&& (1 <<< (h &&& MASK b)) != 0) := by
  obtain ⟨size, bits⟩ := a
  have hi : h >>> SHIFT b < size := by rw [shiftRight_SHIFT]; exact hb
  refine ⟨(bits >>> ((h >>> SHIFT b) * wordBits b)) % 2 ^ wordBits b, ?_, ?_⟩
  · simp only [Words.load, if_pos hi]
  · simp only [Words.test, Words.load, if_pos hi]

/-- The counting loop adds to `ncount` the number of integers from `factor` to
`maxints` that are coprime to 30 and whose bit is clear. -/
theorem count_loop_spec (b : Build) (a : Words) (maxints : Nat)
    (hN : maxints + 6 < 4294967296) (hsize : maxints / 2 / wordBits b < a.size) :
    ∀ fuel factor step ncount, wheel_at factor step → maxints + 1 - factor < fuel →
      ncount + (maxints + 1 - factor) < 4294967296 →
      count_loop b maxints a fuel factor step (shl32 (steps.getD step 0) 1) ncount
        = some (ncount + ((Finset.Icc factor maxints).filter
            (fun c => Nat.Coprime c 30 ∧ a.test b ((c - 1) / 2) = some false)).card) := by
  intro fuel
  induction fuel with
  | zero => intro factor step ncount _ hfuel; omega
  | succ n ih =>
    intro factor step ncount hwheel hfuel hcount
    simp only [count_loop]
    by_cases hle : factor ≤ maxints
    · obtain ⟨hnext, hpos, hgap⟩ := wheel_at_next hwheel
      have hs3 := steps_getD_le step
      have hcop := wheel_at_coprime hwheel
      have hodd : (factor - 1) / 2 = factor >>> 1 := by
        have := (coprime_30_iff factor).mp hcop
        rw [shiftRight_one_eq]
        omega
      have hinc : shl32 (steps.getD step 0) 1 = 2 * steps.getD step 0 :=
        shl32_one (by omega)
      have hidx : factor >>> (SHIFT b + 1) = (factor >>> 1) >>> SHIFT b := by
        rw [Nat.add_comm, Nat.shiftRight_add]
      have hin : (factor >>> 1) / wordBits b < a.size := by
        rw [shiftRight_one_eq]
        exact lt_of_le_of_lt (Nat.div_le_div_right (Nat.div_le_div_right hle)) hsize
      obtain ⟨w, hload, htest⟩ := load_of_lt b a (factor >>> 1) hin
      rw [if_pos hle, hidx, hload, hinc, add32_of_lt (by omega)]
      simp only
      rw [card_filter_Icc_step _ factor (factor + 2 * steps.getD step 0) maxints hle
        (by omega) (fun c h1 h2 hc => hgap c h1 h2 hc.1)]
      by_cases hw : w &&& (1 <<< ((factor >>> 1) &&& MASK b)) = 0
      · have hP : Nat.Coprime factor 30 ∧ a.test b ((factor - 1) / 2) = some false := by
          refine ⟨hcop, ?_⟩
          rw [hodd, htest, hw]
          rfl
        rw [if_pos hw, if_pos hP, add32_of_lt (by omega),
          ih _ _ _ hnext (by omega) (by omega)]
        congr 1
        omega
      · have hP : ¬ (Nat.Coprime factor 30 ∧ a.test b ((factor - 1) / 2) = some false) := by
          rintro ⟨_, ht⟩
          rw [hodd, htest] at ht
          simp only [Option.some.injEq, bne_eq_false_iff_eq] at ht
          exact hw ht
        rw [if_neg hw, if_neg hP, ih _ _ _ hnext (by omega) (by omega)]
        congr 1
        omega
    · rw [if_neg hle, Finset.Icc_eq_empty (by omega)]
      rfl

theorem wheel_at_seven : wheel_at 7 1 := by
  unfold wheel_at wheel_residues
  decide

/-- `count_primes` on a store that covers the half-indices up to `maxints / 2`. -/
theorem count_primes_spec (b : Build) (a : Words) (maxints : Nat)
    (hN : maxints + 6 < 4294967296) (hsize : maxints / 2 / wordBits b < a.size) :
    count_primes b ⟨a, maxints⟩
      = some (3 + ((Finset.Icc 7 maxints).filter
          (fun c => Nat.Coprime c 30 ∧ a.test b ((c - 1) / 2) = some false)).card) := by
  simp only [count_primes]
  exact count_loop_spec b a maxints hN hsize (maxints + 1) 7 1 3 wheel_at_seven
    (by omega) (by omega)

end Sieve8of30

/-! ## The boundary adjustment of the parallel region -/

namespace Sieve8of30

/-- The start adjustment stops within the word that follows the word of
`x - factor`: its result lies less than one word beyond `x`, differs from `x` by
a multiple of `factor`, and starts a word that `result - factor` is not in. -/
theorem adjust_first_spec (b : Build) (f : Nat) (hf : 1 ≤ f) :
    ∀ fuel x, f ≤ x →
      x + (wordBits b - 1 - (x - f) % wordBits b) + wordBits b < 4294967296 →
      wordBits b - 1 - (x - f) % wordBits b < fuel * f →
      ∃ y, adjust_first b f fuel x = some y ∧ x ≤ y ∧
        y ≤ x + (wordBits b - 1 - (x - f) % wordBits b) ∧ f ∣ y - x ∧
        y / wordBits b ≠ (y - f) / wordBits b := by
  intro fuel
  induction fuel with
  | zero => intro x _ _ h; omega
  | succ n ih =>
    intro x hx hw hfuel
    have hmul : (n + 1) * f = n * f + f := Nat.succ_mul n f
    simp only [adjust_first, shiftRight_SHIFT]
    rw [sub32_of_le hx (by omega)]
    rcases build_cases b with ⟨_, _, h3, _⟩ | ⟨_, _, h3, _⟩ <;> rw [h3] at hw hfuel ih ⊢
    · by_cases hc : x / 32 ≠ (x - f) / 32
      · rw [if_pos hc]
        exact ⟨x, rfl, le_refl _, by omega, by simp, hc⟩
      · rw [if_neg hc, add32_of_lt (by omega)]
        have hsub : x + f - f = x := by omega
        obtain ⟨y, hy, h1, h2, h4, h5⟩ := ih (x + f) (by omega)
          (by rw [hsub]; omega) (by rw [hsub]; omega)
        rw [hsub] at h2
        refine ⟨y, hy, by omega, by omega, ?_, h5⟩
        have : y - x = (y - (x + f)) + f := by omega
        rw [this]
        exact (Nat.dvd_add_left (dvd_refl f)).mpr h4
    · by_cases hc : x / 64 ≠ (x - f) / 64
      · rw [if_pos hc]
        exact ⟨x, rfl, le_refl _, by omega, by simp, hc⟩
      · rw [if_neg hc, add32_of_lt (by omega)]
        have hsub : x + f - f = x := by omega
        obtain ⟨y, hy, h1, h2, h4, h5⟩ := ih (x + f) (by omega)
          (by rw [hsub]; omega) (by rw [hsub]; omega)
        rw [hsub] at h2
        refine ⟨y, hy, by omega, by omega, ?_, h5⟩
        have : y - x = (y - (x + f)) + f := by omega
        rw [this]
        exact (Nat.dvd_add_left (dvd_refl f)).mpr h4

theorem add32_sub32_cancel (x f : Nat) (hx : x < 4294967296) : add32 (sub32 x f) f = x := by
  unfold add32 sub32
  omega

theorem sub32_add32_cancel (x f : Nat) (hx : x < 4294967296) : sub32 (add32 x f) f = x := by
  unfold add32 sub32
  omega

theorem add32_lt (x y : Nat) : add32 x y < 4294967296 := Nat.mod_lt _ (by norm_num)

/-- The end adjustment of a thread is the start adjustment of the next thread,
moved back by `factor`: both loops test the same pair of words. -/
theorem adjust_last_eq (b : Build) (f : Nat) :
    ∀ fuel x, x < 4294967296 →
      adjust_last b f fuel (sub32 x f)
        = match adjust_first b f fuel x with
          | none => none
          | some y => some (sub32 y f) := by
  intro fuel
  induction fuel with
  | zero => intro x _; rfl
  | succ n ih =>
    intro x hx
    simp only [adjust_last, adjust_first]
    rw [add32_sub32_cancel x f hx]
    by_cases hc : x >>> SHIFT b ≠ sub32 x f >>> SHIFT b
    · rw [if_pos hc, if_pos (Ne.symm hc)]
    · rw [if_neg hc, if_neg (fun h => hc (Ne.symm h))]
      have := ih (add32 x f) (add32_lt x f)
      rw [sub32_add32_cancel x f hx] at this
      exact this

end Sieve8of30

/-! ## The work partition of the parallel region -/

namespace Sieve8of30

/-- Arithmetic of the chunk size when the parallel path is taken. -/
theorem chunk_facts (N f T : Nat) (hf : 1 ≤ f) (hT : 1 ≤ T) (hlt : f * f < N)
    (hws : (N - f * f) / (2 * f) > T * 300) :
    f * f / 2 ≤ N / 2 ∧ 300 ≤ (N / 2 - f * f / 2) / f / T ∧
    f * ((N / 2 - f * f / 2) / f / T) * T ≤ N / 2 - f * f / 2 := by
  have h1 : f * f / 2 ≤ N / 2 := Nat.div_le_div_right (Nat.le_of_lt hlt)
  have h2 : (T * 300 + 1) * (2 * f) ≤ N - f * f :=
    (Nat.le_div_iff_mul_le (by omega)).mp hws
  have h3 : (T * 300 + 1) * f ≤ N / 2 - f * f / 2 := by
    have e : (T * 300 + 1) * (2 * f) = 2 * ((T * 300 + 1) * f) := by ring
    rw [e] at h2
    omega
  have h4 : T * 300 + 1 ≤ (N / 2 - f * f / 2) / f :=
    (Nat.le_div_iff_mul_le (by omega)).mpr h3
  have h5 : 300 ≤ (N / 2 - f * f / 2) / f / T := by
    rw [Nat.le_div_iff_mul_le (by omega)]
    have e : 300 * T = T * 300 := Nat.mul_comm _ _
    omega
  refine ⟨h1, h5, ?_⟩
  have h6 : (N / 2 - f * f / 2) / f / T * T ≤ (N / 2 - f * f / 2) / f :=
    Nat.div_mul_le_self _ _
  have h7 : f * ((N / 2 - f * f / 2) / f) ≤ N / 2 - f * f / 2 := Nat.mul_div_le _ _
  calc f * ((N / 2 - f * f / 2) / f / T) * T
      = f * ((N / 2 - f * f / 2) / f / T * T) := by ring
    _ ≤ f * ((N / 2 - f * f / 2) / f) := Nat.mul_le_mul_left f h6
    _ ≤ N / 2 - f * f / 2 := h7

end Sieve8of30

namespace Sieve8of30

/-- The first bit of thread `ithread` before adjustment, without wrap-around. -/
theorem chunk_first_eq (N f T i : Nat) (hf : 1 ≤ f) (hT : 1 ≤ T) (hN : N < 2147483648)
    (hlt : f * f < N) (hws : (N - f * f) / (2 * f) > T * 300) (hi : i ≤ T) :
    add32 (mul32 f f >>> 1) (mul32 (mul32 f (sub32 (N / 2) (mul32 f f >>> 1) / f / T)) i)
      = f * f / 2 + f * ((N / 2 - f * f / 2) / f / T) * i ∧
    f * f / 2 + f * ((N / 2 - f * f / 2) / f / T) * i ≤ N / 2 := by
  obtain ⟨h1, h2, h3⟩ := chunk_facts N f T hf hT hlt hws
  have hDi : f * ((N / 2 - f * f / 2) / f / T) * i ≤ f * ((N / 2 - f * f / 2) / f / T) * T :=
    Nat.mul_le_mul_left _ hi
  have hD : f * ((N / 2 - f * f / 2) / f / T) ≤ f * ((N / 2 - f * f / 2) / f / T) * T :=
    Nat.le_mul_of_pos_right _ (by omega)
  have e1 : mul32 f f = f * f := mul32_of_lt (by omega)
  rw [e1, shiftRight_one_eq, sub32_of_le h1 (by omega),
    @mul32_of_lt f ((N / 2 - f * f / 2) / f / T) (by omega),
    @mul32_of_lt (f * ((N / 2 - f * f / 2) / f / T)) i (by omega), add32_of_lt (by omega)]
  exact ⟨rfl, by omega⟩

theorem thread_first_spec (b : Build) (N f i : Nat) (hf : 1 ≤ f) (hT : 1 ≤ b.numthreads)
    (hN : N < 2147483648) (hlt : f * f < N)
    (hws : (N - f * f) / (2 * f) > b.numthreads * 300) (hi : i < b.numthreads) :
    ∃ y, thread_first b (N / 2) f i = some y ∧
      f * f / 2 + f * ((N / 2 - f * f / 2) / f / b.numthreads) * i ≤ y ∧
      y < f * f / 2 + f * ((N / 2 - f * f / 2) / f / b.numthreads) * i + wordBits b ∧
      f ∣ y - f * f / 2 ∧ (i = 0 → y = f * f / 2) ∧
      (i ≠ 0 → f ≤ y ∧ y / wordBits b ≠ (y - f) / wordBits b) := by
  obtain ⟨h1, h2, h3⟩ := chunk_facts N f b.numthreads hf hT hlt hws
  obtain ⟨e, hle⟩ := chunk_first_eq N f b.numthreads i hf hT hN hlt hws (Nat.le_of_lt hi)
  have hW := wordBits_le b
  have hWp := wordBits_pos b
  simp only [thread_first]
  rw [e]
  generalize hD : f * ((N / 2 - f * f / 2) / f / b.numthreads) = D at *
  have hDf : f ∣ D := by rw [← hD]; exact Dvd.intro _ rfl
  have hDge : f ≤ D := by
    rw [← hD]
    exact Nat.le_mul_of_pos_right f (by omega)
  by_cases hi0 : i = 0
  · subst hi0
    rw [if_neg (fun h => h rfl), Nat.mul_zero, Nat.add_zero]
    exact ⟨_, rfl, le_refl _, by omega, by simp, fun _ => rfl, fun h => absurd rfl h⟩
  · rw [if_pos hi0]
    have hDi : D ≤ D * i := Nat.le_mul_of_pos_right D (by omega)
    have hfuel : wordBits b - 1 - (f * f / 2 + D * i - f) % wordBits b < (wordBits b + 1) * f := by
      have : wordBits b + 1 ≤ (wordBits b + 1) * f := Nat.le_mul_of_pos_right _ (by omega)
      omega
    obtain ⟨y, hy, h4, h5, h6, h7⟩ := adjust_first_spec b f hf (wordBits b + 1)
      (f * f / 2 + D * i) (by omega) (by omega) hfuel
    refine ⟨y, hy, h4, by omega, ?_, fun h => absurd h hi0, fun _ => ⟨by omega, h7⟩⟩
    have hsplit : y - f * f / 2 = (y - (f * f / 2 + D * i)) + D * i := by omega
    rw [hsplit]
    exact Dvd.dvd.add h6 (Dvd.dvd.mul_right hDf i)

/-- The range of a thread in terms of the adjusted first bits: a thread other
than the last ends one stride before the adjusted first bit of its successor. -/
theorem thread_range_eq (b : Build) (maxintsh f i : Nat) (hi : i + 1 < 4294967296) :
    thread_range b maxintsh f i
      = match thread_first b maxintsh f i with
        | none => none
        | some s =>
          match (if i = b.numthreads - 1 then some maxintsh
                 else match thread_first b maxintsh f (i + 1) with
                      | none => none
                      | some y => some (sub32 y f)) with
          | none => none
          | some e => some (s, e) := by
  simp only [thread_range, thread_first]
  rw [add32_of_lt hi, if_pos (Nat.succ_ne_zero i), adjust_last_eq b f _ _ (add32_lt _ _)]

end Sieve8of30

namespace Sieve8of30

/-- The work partition.  When the parallel path is taken for `f`, there are
adjusted first bits `B 0 < B 1 < ...`, one per thread, all congruent to the first
bit `f*f/2` modulo `f`, each of them (but `B 0`) in another word than its
predecessor in the progression, such that thread `i` visits exactly the members
of the progression from `B i` up to one stride before `B (i+1)`, the last
thread up to `N/2` inclusive. -/
theorem partition_spec (b : Build) (N f : Nat) (hf : 1 ≤ f) (hT : 1 ≤ b.numthreads)
    (hN : N < 2147483648) (hlt : f * f < N)
    (hws : (N - f * f) / (2 * f) > b.numthreads * 300) :
    ∃ (B : Nat → Nat) (V : Nat → List Nat),
      B 0 = f * f / 2 ∧
      (∀ i, i + 1 < b.numthreads → B i < B (i + 1)) ∧
      (∀ i, i < b.numthreads → B i ≤ N / 2) ∧
      (∀ i, i ≠ 0 → i < b.numthreads →
        f ≤ B i ∧ B i / wordBits b ≠ (B i - f) / wordBits b) ∧
      (∀ i, i < b.numthreads → f ∣ B i - f * f / 2) ∧
      (∀ i, i < b.numthreads → thread_range b (N / 2) f i
        = some (B i, if i + 1 = b.numthreads then N / 2 else B (i + 1) - f)) ∧
      (∀ i, i < b.numthreads → thread_visits b (N / 2) f i = some (V i) ∧ (V i).Nodup ∧
        ∀ m, m ∈ V i ↔ (B i ≤ m ∧
          m ≤ (if i + 1 = b.numthreads then N / 2 else B (i + 1) - f) ∧
          f ∣ m - f * f / 2)) := by
  obtain ⟨h1, h2, h3⟩ := chunk_facts N f b.numthreads hf hT hlt hws
  have hW := wordBits_le b
  have hspec := fun i hi => thread_first_spec b N f i hf hT hN hlt hws hi
  generalize hD : f * ((N / 2 - f * f / 2) / f / b.numthreads) = D at *
  have hDge : 300 ≤ D := by
    rw [← hD]
    calc 300 ≤ (N / 2 - f * f / 2) / f / b.numthreads := h2
      _ ≤ f * ((N / 2 - f * f / 2) / f / b.numthreads) := Nat.le_mul_of_pos_left _ (by omega)
  have hDT : ∀ i, i < b.numthreads → D * i + D ≤ D * b.numthreads := by
    intro i hi
    have : D * (i + 1) ≤ D * b.numthreads := Nat.mul_le_mul_left D hi
    rw [Nat.mul_succ] at this
    exact this
  have hTlt : b.numthreads < 2147483648 := by
    have : (N - f * f) / (2 * f) ≤ N := le_trans (Nat.div_le_self _ _) (Nat.sub_le _ _)
    omega
  -- the adjusted first bits
  have hB : ∀ i, i < b.numthreads →
      thread_first b (N / 2) f i = some ((thread_first b (N / 2) f i).getD 0) ∧
      f * f / 2 + D * i ≤ (thread_first b (N / 2) f i).getD 0 ∧
      (thread_first b (N / 2) f i).getD 0 < f * f / 2 + D * i + wordBits b ∧
      f ∣ (thread_first b (N / 2) f i).getD 0 - f * f / 2 ∧
      (i = 0 → (thread_first b (N / 2) f i).getD 0 = f * f / 2) ∧
      (i ≠ 0 → f ≤ (thread_first b (N / 2) f i).getD 0 ∧
        (thread_first b (N / 2) f i).getD 0 / wordBits b
          ≠ ((thread_first b (N / 2) f i).getD 0 - f) / wordBits b) := by
    intro i hi
    obtain ⟨y, hy, hrest⟩ := hspec i hi
    rw [hy]
    exact ⟨rfl, hrest⟩
  generalize hBdef : (fun i => (thread_first b (N / 2) f i).getD 0) = B at *
  have hB' : ∀ i, i < b.numthreads →
      thread_first b (N / 2) f i = some (B i) ∧
      f * f / 2 + D * i ≤ B i ∧ B i < f * f / 2 + D * i + wordBits b ∧
      f ∣ B i - f * f / 2 ∧ (i = 0 → B i = f * f / 2) ∧
      (i ≠ 0 → f ≤ B i ∧ B i / wordBits b ≠ (B i - f) / wordBits b) := by
    intro i hi
    have := hB i hi
    rw [← hBdef]
    exact this
  have hmono : ∀ i, i + 1 < b.numthreads → B i < B (i + 1) := by
    intro i hi
    obtain ⟨_, _, h5, _⟩ := hB' i (by omega)
    obtain ⟨_, h6, _⟩ := hB' (i + 1) hi
    rw [Nat.mul_succ] at h6
    omega
  have hle : ∀ i, i < b.numthreads → B i ≤ N / 2 := by
    intro i hi
    obtain ⟨_, _, h5, _⟩ := hB' i hi
    have := hDT i hi
    omega
  have hrange : ∀ i, i < b.numthreads → thread_range b (N / 2) f i
      = some (B i, if i + 1 = b.numthreads then N / 2 else B (i + 1) - f) := by
    intro i hi
    rw [thread_range_eq b (N / 2) f i (by omega), (hB' i hi).1]
    by_cases hlast : i + 1 = b.numthreads
    · rw [if_pos hlast, if_pos (by omega)]
    · rw [if_neg hlast, if_neg (by omega), (hB' (i + 1) (by omega)).1]
      obtain ⟨_, _, _, _, _, h7⟩ := hB' (i + 1) (by omega)
      have := hle (i + 1) (by omega)
      simp only
      rw [sub32_of_le (h7 (Nat.succ_ne_zero i)).1 (by omega)]
  refine ⟨B, fun i => (thread_visits b (N / 2) f i).getD [], (hB' 0 (by omega)).2.2.2.2.1 rfl,
    hmono, hle, fun i hi0 hi => (hB' i hi).2.2.2.2.2 hi0, fun i hi => (hB' i hi).2.2.2.1,
    hrange, ?_⟩
  intro i hi
  have hend : (if i + 1 = b.numthreads then N / 2 else B (i + 1) - f) ≤ N / 2 := by
    by_cases hlast : i + 1 = b.numthreads
    · rw [if_pos hlast]
    · rw [if_neg hlast]
      have := hle (i + 1) (by omega)
      omega
  generalize hE : (if i + 1 = b.numthreads then N / 2 else B (i + 1) - f) = E at *
  have hfbound : f ≤ N := le_trans (Nat.le_mul_self f) (Nat.le_of_lt hlt)
  obtain ⟨ms, hms, hmem, hnd⟩ := visits_lt_spec f (E + 1) hf (by omega) (N / 2 + 2) (B i)
    (by omega)
  have hv : thread_visits b (N / 2) f i = some ms := by
    simp only [thread_visits, hrange i hi, hE, visits_le_eq_visits_lt, hms]
  simp only [hv, Option.getD_some]
  refine ⟨trivial, hnd, ?_⟩
  intro m
  rw [hmem m]
  obtain ⟨_, _, _, hdv, _⟩ := hB' i hi
  constructor
  · rintro ⟨h4, h5, h6⟩
    refine ⟨h4, by omega, ?_⟩
    have hsplit : m - f * f / 2 = (m - B i) + (B i - f * f / 2) := by omega
    rw [hsplit]
    exact Dvd.dvd.add h6 hdv
  · rintro ⟨h4, h5, h6⟩
    refine ⟨h4, by omega, ?_⟩
    have hsplit : m - f * f / 2 = (m - B i) + (B i - f * f / 2) := by omega
    rw [hsplit] at h6
    exact (Nat.dvd_add_left hdv).mp h6

end Sieve8of30

namespace Sieve8of30

theorem exists_interval (B : Nat → Nat) (h : Nat) (h0 : B 0 ≤ h) :
    ∀ T, 1 ≤ T → ∃ i, i < T ∧ B i ≤ h ∧ (i + 1 < T → h < B (i + 1)) := by
  intro T
  induction T with
  | zero => intro hT; omega
  | succ n ih =>
    intro _
    rcases Nat.eq_zero_or_pos n with hn | hn
    · subst hn
      exact ⟨0, by omega, h0, fun hc => by omega⟩
    · obtain ⟨i, hi, h1, h2⟩ := ih hn
      by_cases hB : B n ≤ h
      · exact ⟨n, by omega, hB, fun hc => by omega⟩
      · refine ⟨i, by omega, h1, fun _ => ?_⟩
        by_cases hin : i + 1 = n
        · rw [hin]; omega
        · exact h2 (by omega)

theorem mono_of_step (B : Nat → Nat) (T : Nat) (hstep : ∀ i, i + 1 < T → B i < B (i + 1)) :
    ∀ j i, i ≤ j → j < T → B i ≤ B j := by
  intro j
  induction j with
  | zero =>
    intro i hi _
    have : i = 0 := by omega
    rw [this]
  | succ n ih =>
    intro i hi hj
    by_cases hin : i = n + 1
    · rw [hin]
    · have := ih i (by omega) (by omega)
      have := hstep n hj
      omega

/-- Cover and word ownership of the work partition: every member of the
progression `f*f/2 + k*f` up to `N/2` is visited by exactly one thread, a thread
visits nothing else, and two threads never visit half-indices of the same word. -/
theorem partition_cover (b : Build) (N f : Nat) (hf : 1 ≤ f) (hT : 1 ≤ b.numthreads)
    (hN : N < 2147483648) (hlt : f * f < N)
    (hws : (N - f * f) / (2 * f) > b.numthreads * 300) :
    ∃ V : Nat → List Nat,
      (∀ i, i < b.numthreads → thread_visits b (N / 2) f i = some (V i) ∧ (V i).Nodup) ∧
      (∀ i, i < b.numthreads → ∀ m, m ∈ V i →
        f * f / 2 ≤ m ∧ m ≤ N / 2 ∧ f ∣ m - f * f / 2) ∧
      (∀ m, f * f / 2 ≤ m → m ≤ N / 2 → f ∣ m - f * f / 2 →
        ∃ i, (i < b.numthreads ∧ m ∈ V i) ∧ ∀ j, j < b.numthreads ∧ m ∈ V j → j = i) ∧
      (∀ i j, i < b.numthreads → j < b.numthreads → i ≠ j → ∀ m, m ∈ V i → ∀ m', m' ∈ V j →
        m / wordBits b ≠ m' / wordBits b) := by
  obtain ⟨B, V, hB0, hstep, hle, hword, hdvd, _, hV⟩ :=
    partition_spec b N f hf hT hN hlt hws
  have hmono := mono_of_step B b.numthreads hstep
  have hWp := wordBits_pos b
  -- membership in terms of the half-open intervals between the first bits
  have hmem : ∀ i, i < b.numthreads → ∀ m, f ∣ m - f * f / 2 → m ≤ N / 2 →
      (m ∈ V i ↔ (B i ≤ m ∧ (i + 1 < b.numthreads → m < B (i + 1)))) := by
    intro i hi m hm hmle
    rw [(hV i hi).2.2 m]
    by_cases hlast : i + 1 = b.numthreads
    · rw [if_pos hlast]
      constructor
      · rintro ⟨h1, _, _⟩
        exact ⟨h1, fun hc => by omega⟩
      · rintro ⟨h1, _⟩
        exact ⟨h1, hmle, hm⟩
    · rw [if_neg hlast]
      have hi1 : i + 1 < b.numthreads := by omega
      obtain ⟨hfle, _⟩ := hword (i + 1) (Nat.succ_ne_zero i) hi1
      constructor
      · rintro ⟨h1, h2, _⟩
        exact ⟨h1, fun _ => by omega⟩
      · rintro ⟨h1, h2⟩
        have h3 := h2 hi1
        refine ⟨h1, ?_, hm⟩
        have h4 : f ∣ B (i + 1) - m := by
          have h0 := hmono i 0 (by omega) hi
          have e : B (i + 1) - m = (B (i + 1) - f * f / 2) - (m - f * f / 2) := by omega
          rw [e]
          exact Nat.dvd_sub' (hdvd (i + 1) hi1) hm
        have h5 : f ≤ B (i + 1) - m := Nat.le_of_dvd (by omega) h4
        omega
  refine ⟨V, fun i hi => ⟨(hV i hi).1, (hV i hi).2.1⟩, ?_, ?_, ?_⟩
  · intro i hi m hm
    have h1 := ((hV i hi).2.2 m).mp hm
    have h0 := hmono i 0 (by omega) hi
    refine ⟨by omega, ?_, h1.2.2⟩
    by_cases hlast : i + 1 = b.numthreads
    · rw [if_pos hlast] at h1; exact h1.2.1
    · rw [if_neg hlast] at h1
      have := hle (i + 1) (by omega)
      omega
  · intro m h1 h2 h3
    obtain ⟨i, hi, h4, h5⟩ := exists_interval B m (by omega) b.numthreads hT
    refine ⟨i, ⟨hi, (hmem i hi m h3 h2).mpr ⟨h4, h5⟩⟩, ?_⟩
    rintro j ⟨hj, hjm⟩
    obtain ⟨h6, h7⟩ := (hmem j hj m h3 h2).mp hjm
    rcases Nat.lt_trichotomy i j with hlt' | heq | hgt
    · have := h5 (by omega)
      have := hmono j (i + 1) (by omega) hj
      omega
    · exact heq.symm
    · have := h7 (by omega)
      have := hmono i (j + 1) (by omega) hi
      omega
  · -- two threads never share a word
    have key : ∀ i j, i < j → j < b.numthreads → ∀ m, m ∈ V i → ∀ m', m' ∈ V j →
        m / wordBits b < m' / wordBits b := by
      intro i j hij hj m hm m' hm'
      have hi : i < b.numthreads := by omega
      have h1 := ((hV i hi).2.2 m).mp hm
      have h2 := ((hV j hj).2.2 m').mp hm'
      rw [if_neg (by omega)] at h1
      obtain ⟨hfle, hne⟩ := hword (i + 1) (Nat.succ_ne_zero i) (by omega)
      have h3 := hmono j (i + 1) (by omega) hj
      have h4 : m / wordBits b ≤ (B (i + 1) - f) / wordBits b :=
        Nat.div_le_div_right h1.2.1
      have h5 : (B (i + 1) - f) / wordBits b ≤ B (i + 1) / wordBits b :=
        Nat.div_le_div_right (Nat.sub_le _ _)
      have h6 : B (i + 1) / wordBits b ≤ m' / wordBits b :=
        Nat.div_le_div_right (le_trans h3 h2.1)
      omega
    intro i j hi hj hij m hm m' hm'
    rcases Nat.lt_or_gt_of_ne hij with h | h
    · exact Nat.ne_of_lt (key i j h hj m hm m' hm')
    · exact (Nat.ne_of_lt (key j i h hi m' hm' m hm)).symm

end Sieve8of30

/-! ## What the marking of one factor does to the bit store -/

namespace Sieve8of30

/-- A thread performs the marking statement exactly at its visits. -/
theorem thread_body_eq (b : Build) (maxintsh f i : Nat) (a : Words) :
    thread_body b maxintsh f i a
      = match thread_visits b maxintsh f i with
        | none => none
        | some ms => mark_list b ms a := by
  simp only [thread_body, thread_visits]
  cases thread_range b maxintsh f i with
  | none => rfl
  | some r =>
    obtain ⟨s, e⟩ := r
    simp only
    exact mark_le_eq_mark_list b f e (maxintsh + 2) s a

/-- The threads of a list, run in turn, set the bits of their visits. -/
theorem parallel_region_spec (b : Build) (maxintsh f : Nat) (V : Nat → List Nat) :
    ∀ (l : List Nat) (a : Words),
      (∀ i, i ∈ l → thread_visits b maxintsh f i = some (V i)) →
      (∀ i, i ∈ l → ∀ m, m ∈ V i → m / wordBits b < a.size) →
      ∃ bits, parallel_region b maxintsh f l a = some ⟨a.size, bits⟩ ∧
        ∀ h, bits.testBit h = true ↔ (a.bits.testBit h = true ∨ ∃ i, i ∈ l ∧ h ∈ V i) := by
  intro l
  induction l with
  | nil =>
    intro a _ _
    exact ⟨a.bits, rfl, by simp⟩
  | cons i l ih =>
    intro a hV hb
    simp only [parallel_region, thread_body_eq, hV i (List.mem_cons_self _ _)]
    obtain ⟨bits1, h1, h2⟩ := mark_list_spec b (V i) a (hb i (List.mem_cons_self _ _))
    rw [h1]
    simp only
    obtain ⟨bits, h3, h4⟩ := ih ⟨a.size, bits1⟩
      (fun j hj => hV j (List.mem_cons_of_mem _ hj))
      (fun j hj => hb j (List.mem_cons_of_mem _ hj))
    refine ⟨bits, h3, ?_⟩
    intro h
    rw [h4, h2]
    simp only [Bool.or_eq_true, decide_eq_true_eq, List.mem_cons]
    constructor
    · rintro ((h5 | h5) | ⟨j, hj, h5⟩)
      · exact Or.inl h5
      · exact Or.inr ⟨i, Or.inl rfl, h5⟩
      · exact Or.inr ⟨j, Or.inr hj, h5⟩
    · rintro (h5 | ⟨j, hj | hj, h5⟩)
      · exact Or.inl (Or.inl h5)
      · rw [hj] at h5; exact Or.inl (Or.inr h5)
      · exact Or.inr ⟨j, hj, h5⟩

/-- The marking of the multiples of `f` sets exactly the bits of `marked_by`. -/
theorem mark_multiples_spec (b : Build) (N f : Nat) (a : Words) (hf : 1 ≤ f)
    (hf16 : f < 65536) (hT : 1 ≤ b.numthreads) (hN : N < 2147483648)
    (hsize : N / 2 / wordBits b < a.size) :
    ∃ bits, mark_multiples b N (N >>> 1) f a = some ⟨a.size, bits⟩ ∧
      ∀ h, bits.testBit h = true ↔ (a.bits.testBit h = true ∨ marked_by b N f h) := by
  have hff : f * f < 4294967296 := by nlinarith
  have e1 : mul32 f f = f * f := mul32_of_lt hff
  have e2 : mul32 2 f = 2 * f := mul32_of_lt (by omega)
  have hseq : ∃ bits, mark_lt b f (N / 2) (N / 2 + 1) (f * f / 2) a = some ⟨a.size, bits⟩ ∧
      ∀ h, bits.testBit h = true ↔
        (a.bits.testBit h = true ∨ (f * f / 2 ≤ h ∧ h < N / 2 ∧ f ∣ h - f * f / 2)) := by
    obtain ⟨ms, hms, hmem, _⟩ := visits_lt_spec f (N / 2) hf (by omega) (N / 2 + 1)
      (f * f / 2) (by omega)
    rw [mark_lt_eq_mark_list, hms]
    simp only
    obtain ⟨bits, h1, h2⟩ := mark_list_spec b ms a (by
      intro m hm
      have := (hmem m).mp hm
      exact lt_of_le_of_lt (Nat.div_le_div_right (by omega)) hsize)
    refine ⟨bits, h1, ?_⟩
    intro h
    rw [h2, Bool.or_eq_true, decide_eq_true_eq, hmem h]
  simp only [mark_multiples, e1, e2, shiftRight_one_eq]
  by_cases homp : b.OPENMP = true
  · rw [if_pos homp]
    by_cases hgt : N > f * f
    · rw [if_pos hgt, sub32_of_le (Nat.le_of_lt hgt) (by omega)]
      by_cases hws : (N - f * f) / (2 * f) > b.numthreads * 300
      · rw [if_pos hws]
        obtain ⟨V, hV1, hV2, hV3, _⟩ := partition_cover b N f hf hT hN hgt hws
        obtain ⟨bits, h1, h2⟩ := parallel_region_spec b (N / 2) f V
          (List.range b.numthreads) a
          (fun i hi => (hV1 i (List.mem_range.mp hi)).1)
          (fun i hi m hm => by
            have := hV2 i (List.mem_range.mp hi) m hm
            exact lt_of_le_of_lt (Nat.div_le_div_right this.2.1) hsize)
        refine ⟨bits, h1, ?_⟩
        intro h
        rw [h2]
        unfold marked_by
        constructor
        · rintro (h3 | ⟨i, hi, h3⟩)
          · exact Or.inl h3
          · have := hV2 i (List.mem_range.mp hi) h h3
            right
            refine ⟨this.1, this.2.2, ?_⟩
            by_cases hh : h < N / 2
            · exact Or.inl hh
            · exact Or.inr ⟨by omega, homp, hgt, hws⟩
        · rintro (h3 | ⟨h3, h4, h5⟩)
          · exact Or.inl h3
          · right
            obtain ⟨i, ⟨hi, him⟩, _⟩ := hV3 h h3 (by omega) h4
            exact ⟨i, List.mem_range.mpr hi, him⟩
      · rw [if_neg hws]
        obtain ⟨bits, h1, h2⟩ := hseq
        refine ⟨bits, h1, ?_⟩
        intro h
        rw [h2]
        unfold marked_by
        constructor
        · rintro (h3 | ⟨h3, h4, h5⟩)
          · exact Or.inl h3
          · exact Or.inr ⟨h3, h5, Or.inl h4⟩
        · rintro (h3 | ⟨h3, h4, h5 | h5⟩)
          · exact Or.inl h3
          · exact Or.inr ⟨h3, h5, h4⟩
          · exact absurd h5.2.2.2 hws
    · rw [if_neg hgt]
      refine ⟨a.bits, rfl, ?_⟩
      intro h
      unfold marked_by
      constructor
      · intro h3; exact Or.inl h3
      · rintro (h3 | ⟨h3, h4, h5 | h5⟩)
        · exact h3
        · have : N / 2 ≤ f * f / 2 := Nat.div_le_div_right (by omega)
          omega
        · exact absurd h5.2.2.1 hgt
  · rw [if_neg homp]
    obtain ⟨bits, h1, h2⟩ := hseq
    refine ⟨bits, h1, ?_⟩
    intro h
    rw [h2]
    unfold marked_by
    constructor
    · rintro (h3 | ⟨h3, h4, h5⟩)
      · exact Or.inl h3
      · exact Or.inr ⟨h3, h5, Or.inl h4⟩
    · rintro (h3 | ⟨h3, h4, h5 | h5⟩)
      · exact Or.inl h3
      · exact Or.inr ⟨h3, h5, h4⟩
      · exact absurd h5.2.1 homp

end Sieve8of30

/-! ## The outer loop is idempotent -/

namespace Sieve8of30

theorem steps_getD_pos {i : Nat} (h : i < 8) : 1 ≤ steps.getD i 0 := by
  unfold steps
  interval_cases i <;> simp

theorem next_step_lt {step : Nat} (h : step < 8) : next_step step < 8 := by
  unfold next_step
  split <;> omega

/-- One iteration of the outer loop at a candidate `factorh ≤ qh`, on a store
that holds the bit of the candidate: skip a marked candidate, mark the multiples
of an unmarked one. -/
theorem sieve_loop_step (b : Build) (N qh n factorh step inc : Nat) (a : Words)
    (hle : factorh ≤ qh) (hq2 : 2 * qh + 1 < 65536) (hinc3 : inc ≤ 3)
    (hin : factorh / wordBits b < a.size) :
    sieve_loop b N (N >>> 1) qh (n + 1) factorh step inc a
      = if a.bits.testBit factorh = true then
          sieve_loop b N (N >>> 1) qh n (factorh + inc) (next_step step)
            (steps.getD (next_step step) 0) a
        else
          match mark_multiples b N (N >>> 1) (2 * factorh + 1) a with
          | none => none
          | some a1 =>
            sieve_loop b N (N >>> 1) qh n (factorh + inc) (next_step step)
              (steps.getD (next_step step) 0) a1 := by
  have hnext : add32 factorh inc = factorh + inc := add32_of_lt (by omega)
  have hfac : add32 (shl32 factorh 1) 1 = 2 * factorh + 1 := by
    rw [shl32_one (by omega), add32_of_lt (by omega)]
  simp only [sieve_loop]
  rw [if_pos hle, test_eq, if_pos hin, hnext, hfac]
  cases a.bits.testBit factorh
  · simp only [Bool.false_eq_true, if_false]
  · simp only [if_true]

/-- The outer loop returns a store in which every bit set before is still set,
and on which the same loop changes nothing. -/
theorem sieve_loop_idem (b : Build) (N qh : Nat) (hT : 1 ≤ b.numthreads)
    (hN : N < 2147483648) (hq1 : 3 ≤ qh → qh ≤ N / 2) (hq2 : 2 * qh + 1 < 65536) :
    ∀ fuel factorh step inc (a : Words), 3 ≤ factorh → step < 8 → 1 ≤ inc → inc ≤ 3 →
      qh + 1 - factorh < fuel → N / 2 / wordBits b < a.size →
      ∃ bits, sieve_loop b N (N >>> 1) qh fuel factorh step inc a = some ⟨a.size, bits⟩ ∧
        (∀ h, a.bits.testBit h = true → bits.testBit h = true) ∧
        sieve_loop b N (N >>> 1) qh fuel factorh step inc ⟨a.size, bits⟩
          = some ⟨a.size, bits⟩ := by
  intro fuel
  induction fuel with
  | zero => intro factorh step inc a _ _ _ _ hfuel; omega
  | succ n ih =>
    intro factorh step inc a h3 hstep hinc1 hinc3 hfuel hsize
    by_cases hle : factorh ≤ qh
    · have hqN : qh ≤ N / 2 := hq1 (by omega)
      have hin : factorh / wordBits b < a.size :=
        lt_of_le_of_lt (Nat.div_le_div_right (le_trans hle hqN)) hsize
      have hs' := next_step_lt hstep
      have hi1 := steps_getD_pos hs'
      have hi3 := steps_getD_le (next_step step)
      have body := fun (a0 : Words) (h0 : factorh / wordBits b < a0.size) =>
        sieve_loop_step b N qh n factorh step inc a0 hle hq2 hinc3 h0
      by_cases hbit : a.bits.testBit factorh = true
      · -- the candidate is marked: skip it
        obtain ⟨bits, h1, h2, h4⟩ := ih (factorh + inc) (next_step step)
          (steps.getD (next_step step) 0) a (by omega) hs' hi1 hi3 (by omega) hsize
        refine ⟨bits, ?_, h2, ?_⟩
        · rw [body a hin, if_pos hbit, h1]
        · rw [body ⟨a.size, bits⟩ hin, if_pos (h2 _ hbit), h4]
      · -- the candidate is unmarked: mark its multiples
        obtain ⟨bits1, hm1, hm2⟩ := mark_multiples_spec b N (2 * factorh + 1) a (by omega)
          (by omega) hT hN hsize
        obtain ⟨bits, h1, h2, h4⟩ := ih (factorh + inc) (next_step step)
          (steps.getD (next_step step) 0) ⟨a.size, bits1⟩ (by omega) hs' hi1 hi3 (by omega)
          hsize
        refine ⟨bits, ?_, ?_, ?_⟩
        · rw [body a hin, if_neg hbit, hm1]
          exact h1
        · intro h hh
          exact h2 h ((hm2 h).mpr (Or.inl hh))
        · rw [body ⟨a.size, bits⟩ hin]
          by_cases hbit2 : bits.testBit factorh = true
          · rw [if_pos hbit2]
            exact h4
          · rw [if_neg hbit2]
            obtain ⟨bits2, hm3, hm4⟩ := mark_multiples_spec b N (2 * factorh + 1)
              ⟨a.size, bits⟩ (by omega) (by omega) hT hN hsize
            have heq : bits2 = bits := by
              apply Nat.eq_of_testBit_eq
              intro h
              rw [Bool.eq_iff_iff, hm4 h]
              constructor
              · rintro (h5 | h5)
                · exact h5
                · exact h2 h ((hm2 h).mpr (Or.inr h5))
              · intro h5
                exact Or.inl h5
            rw [hm3, heq]
            exact h4
    · refine ⟨a.bits, ?_, fun _ h => h, ?_⟩ <;> simp only [sieve_loop, if_neg hle]

theorem sqrt_bound {N : Nat} (hN : N < 2147483648) : Nat.sqrt N < 46341 := by
  rw [Nat.sqrt_lt]
  omega

/-- `run_sieve` on a store that covers the half-indices up to `maxints / 2`
returns a state on which `run_sieve` changes nothing. -/
theorem run_sieve_idem (b : Build) (a : Words) (N : Nat) (hT : 1 ≤ b.numthreads)
    (hN : N < 2147483648) (hsize : N / 2 / wordBits b < a.size) :
    ∃ bits, run_sieve b ⟨a, N⟩ = some ⟨⟨a.size, bits⟩, N⟩ ∧
      (∀ h, a.bits.testBit h = true → bits.testBit h = true) ∧
      run_sieve b ⟨⟨a.size, bits⟩, N⟩ = some ⟨⟨a.size, bits⟩, N⟩ := by
  have hs := sqrt_bound hN
  have hq : add32 (isqrt N) 1 >>> 1 = (Nat.sqrt N + 1) / 2 := by
    rw [isqrt_eq_sqrt, add32_of_lt (by omega), shiftRight_one_eq]
  have hq1 : 3 ≤ (Nat.sqrt N + 1) / 2 → (Nat.sqrt N + 1) / 2 ≤ N / 2 := by
    intro h3
    have h5 : 5 ≤ Nat.sqrt N := by omega
    have h25 : 5 * 5 ≤ N := Nat.le_sqrt.mp h5
    have := Nat.sqrt_lt_self (show 1 < N by omega)
    exact Nat.div_le_div_right (by omega)
  obtain ⟨bits, h1, h2, h3⟩ := sieve_loop_idem b N ((Nat.sqrt N + 1) / 2) hT hN hq1 (by omega)
    ((Nat.sqrt N + 1) / 2 + 1) (7 >>> 1) 1 (steps.getD 1 0) a (by decide) (by decide)
    (by decide) (by decide) (by
      have : (7 : Nat) >>> 1 = 3 := by decide
      rw [this]; omega) hsize
  refine ⟨bits, ?_, h2, ?_⟩
  · simp only [run_sieve, hq, h1]
  · simp only [run_sieve, hq, h3]

theorem create_sieve_size (b : Build) (N : Nat) :
    N / 2 / wordBits b < (create_sieve b N).a.size := by
  simp only [create_sieve, calloc]
  rcases build_cases b with ⟨_, _, h3, h4⟩ | ⟨_, _, h3, h4⟩ <;> rw [h3, h4] <;> omega

end Sieve8of30

/-! ## Independence of the build below the half-index `maxints / 2` -/

namespace Sieve8of30

theorem marked_by_below (b b' : Build) (N f h : Nat) (hh : h < N / 2) :
    marked_by b N f h ↔ marked_by b' N f h := by
  unfold marked_by
  constructor
  · rintro ⟨h1, h2, _⟩
    exact ⟨h1, h2, Or.inl hh⟩
  · rintro ⟨h1, h2, _⟩
    exact ⟨h1, h2, Or.inl hh⟩

/-- Two builds (any word widths, with or without OpenMP, any thread counts) that
start the outer loop on stores with the same bits below `N/2` end it on stores
with the same bits below `N/2`. -/
theorem sieve_loop_agree (b b' : Build) (N qh : Nat) (hT : 1 ≤ b.numthreads)
    (hT' : 1 ≤ b'.numthreads) (hN : N < 2147483648) (hq1 : 3 ≤ qh → qh < N / 2)
    (hq2 : 2 * qh + 1 < 65536) :
    ∀ fuel factorh step inc (a a' : Words), 3 ≤ factorh → step < 8 → 1 ≤ inc → inc ≤ 3 →
      qh + 1 - factorh < fuel → N / 2 / wordBits b < a.size → N / 2 / wordBits b' < a'.size →
      (∀ h, h < N / 2 → a.bits.testBit h = a'.bits.testBit h) →
      ∃ bits bits', sieve_loop b N (N >>> 1) qh fuel factorh step inc a = some ⟨a.size, bits⟩ ∧
        sieve_loop b' N (N >>> 1) qh fuel factorh step inc a' = some ⟨a'.size, bits'⟩ ∧
        ∀ h, h < N / 2 → bits.testBit h = bits'.testBit h := by
  intro fuel
  induction fuel with
  | zero => intro factorh step inc a a' _ _ _ _ hfuel; omega
  | succ n ih =>
    intro factorh step inc a a' h3 hstep hinc1 hinc3 hfuel hsize hsize' hagree
    by_cases hle : factorh ≤ qh
    · have hqN : qh < N / 2 := hq1 (by omega)
      have hin : factorh / wordBits b < a.size :=
        lt_of_le_of_lt (Nat.div_le_div_right (by omega)) hsize
      have hin' : factorh / wordBits b' < a'.size :=
        lt_of_le_of_lt (Nat.div_le_div_right (by omega)) hsize'
      have hs' := next_step_lt hstep
      have hi1 := steps_getD_pos hs'
      have hi3 := steps_getD_le (next_step step)
      rw [sieve_loop_step b N qh n factorh step inc a hle hq2 hinc3 hin,
        sieve_loop_step b' N qh n factorh step inc a' hle hq2 hinc3 hin']
      have hbiteq := hagree factorh (by omega)
      by_cases hbit : a.bits.testBit factorh = true
      · rw [if_pos hbit, if_pos (by rw [← hbiteq]; exact hbit)]
        exact ih (factorh + inc) (next_step step) (steps.getD (next_step step) 0) a a'
          (by omega) hs' hi1 hi3 (by omega) hsize hsize' hagree
      · rw [if_neg hbit, if_neg (by rw [← hbiteq]; exact hbit)]
        obtain ⟨bits1, hm1, hm2⟩ := mark_multiples_spec b N (2 * factorh + 1) a (by omega)
          (by omega) hT hN hsize
        obtain ⟨bits1', hm1', hm2'⟩ := mark_multiples_spec b' N (2 * factorh + 1) a' (by omega)
          (by omega) hT' hN hsize'
        rw [hm1, hm1']
        exact ih (factorh + inc) (next_step step) (steps.getD (next_step step) 0)
          ⟨a.size, bits1⟩ ⟨a'.size, bits1'⟩ (by omega) hs' hi1 hi3 (by omega) hsize hsize'
          (by
            intro h hh
            rw [Bool.eq_iff_iff, hm2 h, hm2' h, hagree h hh,
              marked_by_below b b' N (2 * factorh + 1) h hh])
    · exact ⟨a.bits, a'.bits, by simp only [sieve_loop, if_neg hle],
        by simp only [sieve_loop, if_neg hle], hagree⟩

/-- For an even bound the count does not depend on the build: word width,
OpenMP and the thread count change at most the bit of half-index `N/2`, which
stands for `N + 1` and is not counted. -/
theorem sieve_count_even (b b' : Build) (N : Nat) (hT : 1 ≤ b.numthreads)
    (hT' : 1 ≤ b'.numthreads) (hN : N < 2147483648) (heven : N % 2 = 0) :
    sieve_count b N = sieve_count b' N := by
  have hs := sqrt_bound hN
  have hm : N % 4294967296 = N := Nat.mod_eq_of_lt (by omega)
  have hq : add32 (isqrt N) 1 >>> 1 = (Nat.sqrt N + 1) / 2 := by
    rw [isqrt_eq_sqrt, add32_of_lt (by omega), shiftRight_one_eq]
  have hq1 : 3 ≤ (Nat.sqrt N + 1) / 2 → (Nat.sqrt N + 1) / 2 < N / 2 := by
    intro h3
    have h5 : 5 ≤ Nat.sqrt N := by omega
    have h25 : 5 * 5 ≤ N := Nat.le_sqrt.mp h5
    have hsq : Nat.sqrt N * Nat.sqrt N ≤ N := Nat.sqrt_le N
    have : 5 * Nat.sqrt N ≤ Nat.sqrt N * Nat.sqrt N := Nat.mul_le_mul_right _ h5
    omega
  have hsz := create_sieve_size b N
  have hsz' := create_sieve_size b' N
  simp only [create_sieve, calloc] at hsz hsz'
  obtain ⟨bits, bits', h1, h2, h3⟩ := sieve_loop_agree b b' N ((Nat.sqrt N + 1) / 2) hT hT' hN
    hq1 (by omega) ((Nat.sqrt N + 1) / 2 + 1) (7 >>> 1) 1 (steps.getD 1 0)
    ⟨N / 2 / sizeofTYPE b + 1, 0⟩ ⟨N / 2 / sizeofTYPE b' + 1, 0⟩
    (by decide) (by decide) (by decide) (by decide)
    (by
      have : (7 : Nat) >>> 1 = 3 := by decide
      rw [this]; omega) hsz hsz' (fun _ _ => rfl)
  simp only [sieve_count, create_sieve, calloc, run_sieve, hm, hq, h1, h2]
  rw [count_primes_spec b _ N (by omega) hsz, count_primes_spec b' _ N (by omega) hsz']
  congr 2
  apply congrArg
  apply Finset.filter_congr
  intro c hc
  rw [Finset.mem_Icc] at hc
  have key : Nat.Coprime c 30 → (c - 1) / 2 < N / 2 := by
    intro hcop
    have := (coprime_30_iff c).mp hcop
    omega
  constructor
  · rintro ⟨hcop, ht⟩
    refine ⟨hcop, ?_⟩
    have hlt := key hcop
    rw [test_eq, if_pos (lt_of_le_of_lt (Nat.div_le_div_right (Nat.le_of_lt hlt)) hsz)] at ht
    rw [test_eq, if_pos (lt_of_le_of_lt (Nat.div_le_div_right (Nat.le_of_lt hlt)) hsz'),
      ← h3 _ hlt]
    exact ht
  · rintro ⟨hcop, ht⟩
    refine ⟨hcop, ?_⟩
    have hlt := key hcop
    rw [test_eq, if_pos (lt_of_le_of_lt (Nat.div_le_div_right (Nat.le_of_lt hlt)) hsz')] at ht
    rw [test_eq, if_pos (lt_of_le_of_lt (Nat.div_le_div_right (Nat.le_of_lt hlt)) hsz),
      h3 _ hlt]
    exact ht

end Sieve8of30

/-! ## Memory safety, monotonicity and the single marking loop -/

namespace Sieve8of30

/-- An access to word `i` is defined exactly when `i` is below the size of the block. -/
theorem load_eq_none_iff (b : Build) (a : Words) (i : Nat) :
    a.load b i = none ↔ a.size ≤ i := by
  obtain ⟨size, bits⟩ := a
  simp only [Words.load]
  by_cases h : i < size
  · simp only [if_pos h]
    constructor
    · intro hc; exact absurd hc (by simp)
    · intro hc; omega
  · simp only [if_neg h]
    constructor
    · intro _; omega
    · intro _; trivial

theorem or_assign_eq_none_iff (b : Build) (a : Words) (i v : Nat) :
    a.or_assign b i v = none ↔ a.size ≤ i := by
  obtain ⟨size, bits⟩ := a
  simp only [Words.or_assign]
  by_cases h : i < size
  · simp only [if_pos h]
    constructor
    · intro hc; exact absurd hc (by simp)
    · intro hc; omega
  · simp only [if_neg h]
    constructor
    · intro _; omega
    · intro _; trivial

/-- Setting a bit that tests set leaves the store as it is. -/
theorem or_assign_of_test (b : Build) (a : Words) (m : Nat) (h : a.test b m = some true) :
    a.or_assign b (m >>> SHIFT b) (1 <<< (m &&& MASK b)) = some a := by
  rw [test_eq] at h
  by_cases hi : m / wordBits b < a.size
  · rw [if_pos hi] at h
    rw [or_assign_eq, if_pos hi, or_two_pow_of_testBit (Option.some.inj h)]
  · rw [if_neg hi] at h
    exact absurd h (by simp)

/-- `run_sieve` and then `count_primes` return on every store that holds the
half-indices up to `N / 2`: no access leaves the block. -/
theorem run_count_some (b : Build) (a : Words) (N : Nat) (hT : 1 ≤ b.numthreads)
    (hN : N < 2147483648) (hsize : N / 2 / wordBits b < a.size) :
    ∃ s n, run_sieve b ⟨a, N⟩ = some s ∧ s.a.size = a.size ∧ s.maxints = N ∧
      count_primes b s = some n := by
  obtain ⟨bits, h1, _, _⟩ := run_sieve_idem b a N hT hN hsize
  exact ⟨⟨⟨a.size, bits⟩, N⟩, _, h1, rfl, rfl,
    count_primes_spec b ⟨a.size, bits⟩ N (by omega) hsize⟩

theorem odd_coprime_two {p : Nat} (hp : p % 2 = 1) : Nat.Coprime p 2 := by
  rw [Nat.coprime_comm, Nat.Prime.coprime_iff_not_dvd Nat.prime_two]
  omega

/-- For odd `p`, the half-indices of the progression from `p*p/2` with stride `p`
are the half-indices from `p*p/2` on of the odd multiples of `p`. -/
theorem dvd_half_iff {p h : Nat} (hp : p % 2 = 1) (hh : p * p / 2 ≤ h) :
    p ∣ h - p * p / 2 ↔ p ∣ 2 * h + 1 := by
  have hsq : p * p % 2 = 1 := by
    rw [Nat.mul_mod, hp]
  have e : 2 * h + 1 = 2 * (h - p * p / 2) + p * p := by omega
  rw [e]
  constructor
  · intro hd
    exact Dvd.dvd.add (Dvd.dvd.mul_left hd 2) (Dvd.intro _ rfl)
  · intro hd
    have h2 : p ∣ 2 * (h - p * p / 2) := (Nat.dvd_add_left (Dvd.intro _ rfl)).mp hd
    exact (Nat.Coprime.dvd_mul_left (odd_coprime_two hp)).mp h2

/-- The sequential marking loop for an odd `p` whose square fits an `unsigned int`. -/
theorem mark_lt_spec (b : Build) (N p : Nat) (a : Words) (hodd : p % 2 = 1)
    (hp : p < 65536) (hN : N < 2147483648) (hsize : N / 2 / wordBits b < a.size) :
    ∃ bits, mark_lt b p (N >>> 1) ((N >>> 1) + 1) (mul32 p p >>> 1) a = some ⟨a.size, bits⟩ ∧
      (∀ h, bits.testBit h
        = (a.bits.testBit h || decide (p * p / 2 ≤ h ∧ h < N / 2 ∧ p ∣ 2 * h + 1))) ∧
      (p * p ≥ N → bits = a.bits) := by
  have hff : p * p < 4294967296 := by nlinarith
  have hp1 : 1 ≤ p := by omega
  rw [mul32_of_lt hff]
  simp only [shiftRight_one_eq]
  obtain ⟨ms, hms, hmem, _⟩ := visits_lt_spec p (N / 2) hp1 (by omega) (N / 2 + 1)
    (p * p / 2) (by omega)
  rw [mark_lt_eq_mark_list, hms]
  simp only
  obtain ⟨bits, h1, h2⟩ := mark_list_spec b ms a (by
    intro m hm
    have := (hmem m).mp hm
    exact lt_of_le_of_lt (Nat.div_le_div_right (by omega)) hsize)
  have h3 : ∀ h, bits.testBit h
      = (a.bits.testBit h || decide (p * p / 2 ≤ h ∧ h < N / 2 ∧ p ∣ 2 * h + 1)) := by
    intro h
    rw [h2]
    congr 1
    rw [decide_eq_decide, hmem h]
    constructor
    · rintro ⟨h4, h5, h6⟩
      exact ⟨h4, h5, (dvd_half_iff hodd h4).mp h6⟩
    · rintro ⟨h4, h5, h6⟩
      exact ⟨h4, h5, (dvd_half_iff hodd h4).mpr h6⟩
  refine ⟨bits, h1, h3, ?_⟩
  intro hge
  apply Nat.eq_of_testBit_eq
  intro h
  rw [h3]
  have : ¬ (p * p / 2 ≤ h ∧ h < N / 2 ∧ p ∣ 2 * h + 1) := by
    rintro ⟨h4, h5, _⟩
    have : N / 2 ≤ p * p / 2 := Nat.div_le_div_right hge
    omega
  simp [this]

end Sieve8of30

/-! ## Boundaries of the threads: adjustment distance, adjacency, termination -/

namespace Sieve8of30

theorem chunk_first_nat (b : Build) (N f i : Nat) (hf : 1 ≤ f) (hT : 1 ≤ b.numthreads)
    (hN : N < 2147483648) (hlt : f * f < N)
    (hws : (N - f * f) / (2 * f) > b.numthreads * 300) (hi : i ≤ b.numthreads) :
    chunk_first b (N / 2) f i
      = f * f / 2 + f * ((N / 2 - f * f / 2) / f / b.numthreads) * i ∧
    f * f / 2 + f * ((N / 2 - f * f / 2) / f / b.numthreads) * i ≤ N / 2 := by
  simp only [chunk_first]
  exact chunk_first_eq N f b.numthreads i hf hT hN hlt hws hi

theorem chunk_last_nat (b : Build) (N f i : Nat) (hf : 1 ≤ f) (hT : 1 ≤ b.numthreads)
    (hN : N < 2147483648) (hlt : f * f < N)
    (hws : (N - f * f) / (2 * f) > b.numthreads * 300) (hi : i < b.numthreads) :
    chunk_last b (N / 2) f i = sub32 (chunk_first b (N / 2) f (i + 1)) f ∧
    chunk_last b (N / 2) f i = chunk_first b (N / 2) f (i + 1) - f ∧
    f ≤ chunk_first b (N / 2) f (i + 1) := by
  obtain ⟨h1, h2, h3⟩ := chunk_facts N f b.numthreads hf hT hlt hws
  obtain ⟨e, hle⟩ := chunk_first_nat b N f (i + 1) hf hT hN hlt hws hi
  have hTlt : b.numthreads < 2147483648 := by
    have : (N - f * f) / (2 * f) ≤ N := le_trans (Nat.div_le_self _ _) (Nat.sub_le _ _)
    omega
  have hD : f ≤ f * ((N / 2 - f * f / 2) / f / b.numthreads) * (i + 1) := by
    calc f ≤ f * ((N / 2 - f * f / 2) / f / b.numthreads) :=
          Nat.le_mul_of_pos_right f (by omega)
      _ ≤ f * ((N / 2 - f * f / 2) / f / b.numthreads) * (i + 1) :=
          Nat.le_mul_of_pos_right _ (by omega)
  have h0 : chunk_last b (N / 2) f i = sub32 (chunk_first b (N / 2) f (i + 1)) f := by
    simp only [chunk_last, chunk_first]
    rw [@add32_of_lt i 1 (by omega)]
  refine ⟨h0, ?_, by omega⟩
  rw [h0, sub32_of_le (by omega) (by omega)]

/-- Both adjustment loops of every thread finish within `W` passes of their body. -/
theorem adjust_within_word (b : Build) (N f i : Nat) (hf : 1 ≤ f) (hT : 1 ≤ b.numthreads)
    (hN : N < 2147483648) (hlt : f * f < N)
    (hws : (N - f * f) / (2 * f) > b.numthreads * 300) (hi : i < b.numthreads) :
    (i ≠ 0 → ∃ y, adjust_first b f (wordBits b) (chunk_first b (N / 2) f i) = some y) ∧
    (i + 1 < b.numthreads →
      ∃ y, adjust_last b f (wordBits b) (chunk_last b (N / 2) f i) = some y) := by
  obtain ⟨h1, h2, h3⟩ := chunk_facts N f b.numthreads hf hT hlt hws
  have hW := wordBits_le b
  have hWp := wordBits_pos b
  have hfuel : ∀ x, wordBits b - 1 - (x - f) % wordBits b < wordBits b * f := by
    intro x
    have : wordBits b ≤ wordBits b * f := Nat.le_mul_of_pos_right _ (by omega)
    omega
  have hge : ∀ j, j ≠ 0 → j ≤ b.numthreads → f ≤ chunk_first b (N / 2) f j ∧
      chunk_first b (N / 2) f j ≤ N / 2 := by
    intro j hj0 hj
    obtain ⟨e, hle⟩ := chunk_first_nat b N f j hf hT hN hlt hws hj
    rw [e]
    refine ⟨?_, hle⟩
    calc f ≤ f * ((N / 2 - f * f / 2) / f / b.numthreads) :=
          Nat.le_mul_of_pos_right f (by omega)
      _ ≤ f * ((N / 2 - f * f / 2) / f / b.numthreads) * j :=
          Nat.le_mul_of_pos_right _ (by omega)
      _ ≤ _ := Nat.le_add_left _ _
  constructor
  · intro hi0
    obtain ⟨h4, h5⟩ := hge i hi0 (Nat.le_of_lt hi)
    obtain ⟨y, hy, _⟩ := adjust_first_spec b f hf (wordBits b) (chunk_first b (N / 2) f i)
      h4 (by omega) (hfuel _)
    exact ⟨y, hy⟩
  · intro hi1
    obtain ⟨h4, h5⟩ := hge (i + 1) (Nat.succ_ne_zero i) (Nat.le_of_lt hi1)
    obtain ⟨y, hy, _⟩ := adjust_first_spec b f hf (wordBits b)
      (chunk_first b (N / 2) f (i + 1)) h4 (by omega) (hfuel _)
    rw [(chunk_last_nat b N f i hf hT hN hlt hws hi).1, adjust_last_eq b f _ _ (by omega), hy]
    exact ⟨_, rfl⟩

/-- The first component of the range of a thread is its adjusted first bit. -/
theorem thread_range_fst (b : Build) (maxintsh f i s e : Nat)
    (h : thread_range b maxintsh f i = some (s, e)) :
    thread_first b maxintsh f i = some s := by
  simp only [thread_range] at h
  simp only [thread_first]
  split at h
  · exact absurd h (by simp)
  · next x hx =>
    split at h
    · exact absurd h (by simp)
    · next y hy =>
      simp only [Option.some.injEq, Prod.mk.injEq] at h
      rw [hx, h.1]

/-- The final range of a thread: it is not empty, each of its two bounds lies
less than one word beyond the initial bound, and it ends one stride before the
first bit of the next thread. -/
theorem boundary_spec (b : Build) (N f i : Nat) (hf : 1 ≤ f) (hT : 1 ≤ b.numthreads)
    (hN : N < 2147483648) (hlt : f * f < N)
    (hws : (N - f * f) / (2 * f) > b.numthreads * 300) (hi : i < b.numthreads) :
    ∃ s e, thread_range b (N / 2) f i = some (s, e) ∧ s ≤ e ∧ e ≤ N / 2 ∧
      chunk_first b (N / 2) f i ≤ s ∧ s < chunk_first b (N / 2) f i + wordBits b ∧
      (i = 0 → s = chunk_first b (N / 2) f i) ∧
      (i + 1 = b.numthreads → e = N / 2) ∧
      (i + 1 < b.numthreads →
        chunk_last b (N / 2) f i ≤ e ∧ e < chunk_last b (N / 2) f i + wordBits b ∧
        ∃ s' e', thread_range b (N / 2) f (i + 1) = some (s', e') ∧ f ≤ s' ∧ e = s' - f) := by
  obtain ⟨h1, h2, h3⟩ := chunk_facts N f b.numthreads hf hT hlt hws
  obtain ⟨B, V, hB0, hstep, hle, hword, hdvd, hrange, _⟩ :=
    partition_spec b N f hf hT hN hlt hws
  have hW := wordBits_le b
  have hTlt : b.numthreads < 2147483648 := by
    have : (N - f * f) / (2 * f) ≤ N := le_trans (Nat.div_le_self _ _) (Nat.sub_le _ _)
    omega
  -- the first bit of a thread lies less than a word beyond its initial value
  have key : ∀ j, j < b.numthreads →
      chunk_first b (N / 2) f j ≤ B j ∧ B j < chunk_first b (N / 2) f j + wordBits b := by
    intro j hj
    obtain ⟨y, hy, h4, h5, _⟩ := thread_first_spec b N f j hf hT hN hlt hws hj
    have hfst := thread_range_fst b (N / 2) f j _ _ (hrange j hj)
    rw [hy] at hfst
    rw [(chunk_first_nat b N f j hf hT hN hlt hws (Nat.le_of_lt hj)).1,
      ← Option.some.inj hfst]
    exact ⟨h4, h5⟩
  have hDf : 300 * f ≤ f * ((N / 2 - f * f / 2) / f / b.numthreads) := by
    rw [Nat.mul_comm 300 f]
    exact Nat.mul_le_mul_left f h2
  have hnext : ∀ j, j + 1 ≤ b.numthreads → chunk_first b (N / 2) f (j + 1)
      = chunk_first b (N / 2) f j + f * ((N / 2 - f * f / 2) / f / b.numthreads) := by
    intro j hj
    rw [(chunk_first_nat b N f (j + 1) hf hT hN hlt hws hj).1,
      (chunk_first_nat b N f j hf hT hN hlt hws (by omega)).1, Nat.mul_succ]
    omega
  refine ⟨B i, _, hrange i hi, ?_, ?_, (key i hi).1, (key i hi).2, ?_, ?_, ?_⟩
  · by_cases hlast : i + 1 = b.numthreads
    · rw [if_pos hlast]; exact hle i hi
    · rw [if_neg hlast]
      have := key (i + 1) (by omega)
      have := key i hi
      have := hnext i (by omega)
      omega
  · by_cases hlast : i + 1 = b.numthreads
    · rw [if_pos hlast]
    · rw [if_neg hlast]
      have := hle (i + 1) (by omega)
      omega
  · intro hi0
    subst hi0
    rw [hB0, (chunk_first_nat b N f 0 hf hT hN hlt hws (by omega)).1]
    omega
  · intro hlast
    rw [if_pos hlast]
  · intro hi1
    rw [if_neg (by omega)]
    obtain ⟨_, hcl, hfge⟩ := chunk_last_nat b N f i hf hT hN hlt hws hi
    have hk := key (i + 1) hi1
    refine ⟨by omega, by omega, B (i + 1), _, hrange (i + 1) hi1, by omega, rfl⟩

end Sieve8of30

/-! ## The wheel cursors of `run_sieve` and `count_primes` -/

namespace Sieve8of30

/-- The outer loop of `run_sieve` is its body run over its candidates. -/
theorem sieve_loop_eq_sieve_over (b : Build) (maxints maxintsh qh : Nat) :
    ∀ fuel factorh step inc a, sieve_loop b maxints maxintsh qh fuel factorh step inc a
      = match sieve_candidates qh fuel factorh step inc with
        | none => none
        | some l => sieve_over b maxints maxintsh l a := by
  intro fuel
  induction fuel with
  | zero => intro factorh step inc a; rfl
  | succ n ih =>
    intro factorh step inc a
    simp only [sieve_loop, sieve_candidates]
    by_cases hle : factorh ≤ qh
    · simp only [if_pos hle]
      cases hc : sieve_candidates qh n (add32 factorh inc) (next_step step)
          (steps.getD (next_step step) 0) with
      | none =>
        simp only
        cases Words.test b a factorh with
        | none => rfl
        | some v =>
          cases v with
          | true => simp only [ih, hc]
          | false =>
            simp only
            cases mark_multiples b maxints maxintsh (add32 (shl32 factorh 1) 1) a with
            | none => rfl
            | some a1 => simp only [ih, hc]
      | some l =>
        simp only [sieve_over]
        cases Words.test b a factorh with
        | none => rfl
        | some v =>
          cases v with
          | true => simp only [ih, hc]
          | false =>
            simp only
            cases mark_multiples b maxints maxintsh (add32 (shl32 factorh 1) 1) a with
            | none => rfl
            | some a1 => simp only [ih, hc]
    · simp only [if_neg hle, sieve_over]

/-- The loop of `count_primes` is its body run over its candidates. -/
theorem count_loop_eq_count_over (b : Build) (maxints : Nat) (a : Words) :
    ∀ fuel factor step inc ncount, count_loop b maxints a fuel factor step inc ncount
      = match count_candidates maxints fuel factor step inc with
        | none => none
        | some l => count_over b a l ncount := by
  intro fuel
  induction fuel with
  | zero => intro factor step inc ncount; rfl
  | succ n ih =>
    intro factor step inc ncount
    simp only [count_loop, count_candidates]
    by_cases hle : factor ≤ maxints
    · simp only [if_pos hle]
      cases hc : count_candidates maxints n (add32 factor inc) (next_step step)
          (shl32 (steps.getD (next_step step) 0) 1) with
      | none =>
        simp only
        cases Words.load b a (factor >>> (SHIFT b + 1)) with
        | none => rfl
        | some w =>
          simp only
          split <;> simp only [ih, hc]
      | some l =>
        simp only [count_over]
        cases Words.load b a (factor >>> (SHIFT b + 1)) with
        | none => rfl
        | some w =>
          simp only
          split <;> simp only [ih, hc]
    · simp only [if_neg hle, count_over]

theorem sorted_lt_ext (l1 l2 : List Nat) (h1 : l1.Sorted (· < ·)) (h2 : l2.Sorted (· < ·))
    (h : ∀ x, x ∈ l1 ↔ x ∈ l2) : l1 = l2 :=
  List.eq_of_perm_of_sorted ((List.perm_ext_iff_of_nodup h1.nodup h2.nodup).mpr h) h1 h2

/-- The candidates of `run_sieve` from a cursor on: in increasing order, the
half-indices up to `qh` of the integers coprime to 30. -/
theorem sieve_candidates_spec (qh : Nat) (hq : qh < 2147483648) :
    ∀ fuel factorh step, wheel_at (2 * factorh + 1) step → qh + 1 - factorh < fuel →
      ∃ l, sieve_candidates qh fuel factorh step (steps.getD step 0) = some l ∧
        l.Sorted (· < ·) ∧
        ∀ h, h ∈ l ↔ (factorh ≤ h ∧ h ≤ qh ∧ Nat.Coprime (2 * h + 1) 30) := by
  intro fuel
  induction fuel with
  | zero => intro factorh step _ hfuel; omega
  | succ n ih =>
    intro factorh step hwheel hfuel
    simp only [sieve_candidates]
    by_cases hle : factorh ≤ qh
    · obtain ⟨hnext, hpos, hgap⟩ := wheel_at_next hwheel
      have hs3 := steps_getD_le step
      have hcop := wheel_at_coprime hwheel
      have e : 2 * factorh + 1 + 2 * steps.getD step 0
          = 2 * (factorh + steps.getD step 0) + 1 := by omega
      rw [e] at hnext
      obtain ⟨l, hl, hsorted, hmem⟩ := ih (factorh + steps.getD step 0) (next_step step)
        hnext (by omega)
      rw [if_pos hle, add32_of_lt (by omega), hl]
      refine ⟨factorh :: l, rfl, ?_, ?_⟩
      · rw [List.sorted_cons]
        refine ⟨?_, hsorted⟩
        intro x hx
        have := (hmem x).mp hx
        omega
      · intro h
        rw [List.mem_cons, hmem]
        constructor
        · rintro (rfl | ⟨h1, h2, h3⟩)
          · exact ⟨le_refl _, hle, hcop⟩
          · exact ⟨by omega, h2, h3⟩
        · rintro ⟨h1, h2, h3⟩
          by_cases heq : h = factorh
          · exact Or.inl heq
          · right
            refine ⟨?_, h2, h3⟩
            by_contra hc
            exact hgap (2 * h + 1) (by omega) (by omega) h3
    · rw [if_neg hle]
      refine ⟨[], rfl, List.sorted_nil, ?_⟩
      intro h
      simp only [List.not_mem_nil, false_iff]
      omega

/-- The candidates of `count_primes` from a cursor on: in increasing order, the
integers up to `maxints` that are coprime to 30. -/
theorem count_candidates_spec (maxints : Nat) (hN : maxints + 6 < 4294967296) :
    ∀ fuel factor step, wheel_at factor step → maxints + 1 - factor < fuel →
      ∃ l, count_candidates maxints fuel factor step (shl32 (steps.getD step 0) 1) = some l ∧
        l.Sorted (· < ·) ∧
        ∀ c, c ∈ l ↔ (factor ≤ c ∧ c ≤ maxints ∧ Nat.Coprime c 30) := by
  intro fuel
  induction fuel with
  | zero => intro factor step _ hfuel; omega
  | succ n ih =>
    intro factor step hwheel hfuel
    simp only [count_candidates]
    by_cases hle : factor ≤ maxints
    · obtain ⟨hnext, hpos, hgap⟩ := wheel_at_next hwheel
      have hs3 := steps_getD_le step
      have hcop := wheel_at_coprime hwheel
      obtain ⟨l, hl, hsorted, hmem⟩ := ih (factor + 2 * steps.getD step 0) (next_step step)
        hnext (by omega)
      rw [if_pos hle, shl32_one (by omega), add32_of_lt (by omega), hl]
      refine ⟨factor :: l, rfl, ?_, ?_⟩
      · rw [List.sorted_cons]
        refine ⟨?_, hsorted⟩
        intro x hx
        have := (hmem x).mp hx
        omega
      · intro c
        rw [List.mem_cons, hmem]
        constructor
        · rintro (rfl | ⟨h1, h2, h3⟩)
          · exact ⟨le_refl _, hle, hcop⟩
          · exact ⟨by omega, h2, h3⟩
        · rintro ⟨h1, h2, h3⟩
          by_cases heq : c = factor
          · exact Or.inl heq
          · right
            refine ⟨?_, h2, h3⟩
            by_contra hc
            exact hgap c (by omega) (by omega) h3
    · rw [if_neg hle]
      refine ⟨[], rfl, List.sorted_nil, ?_⟩
      intro c
      simp only [List.not_mem_nil, false_iff]
      omega

theorem sieve_candidates_eq (qh : Nat) (hq : qh < 2147483648) :
    sieve_candidates qh (qh + 1) (7 >>> 1) 1 (steps.getD 1 0)
      = some ((List.range (qh + 1)).filter
          (fun h => decide (3 ≤ h ∧ Nat.Coprime (2 * h + 1) 30))) := by
  have h7 : (7 : Nat) >>> 1 = 3 := by decide
  rw [h7]
  obtain ⟨l, hl, hsorted, hmem⟩ := sieve_candidates_spec qh hq (qh + 1) 3 1
    (by unfold wheel_at wheel_residues; decide) (by omega)
  rw [hl]
  congr 1
  apply sorted_lt_ext _ _ hsorted ((List.sorted_lt_range _).filter _)
  intro x
  rw [hmem, List.mem_filter, List.mem_range, decide_eq_true_eq]
  constructor
  · rintro ⟨h1, h2, h3⟩; exact ⟨by omega, h1, h3⟩
  · rintro ⟨h1, h2, h3⟩; exact ⟨h2, by omega, h3⟩

theorem count_candidates_eq (N : Nat) (hN : N + 6 < 4294967296) :
    count_candidates N (N + 1) 7 1 (shl32 (steps.getD 1 0) 1)
      = some ((List.range (N + 1)).filter (fun c => decide (7 ≤ c ∧ Nat.Coprime c 30))) := by
  obtain ⟨l, hl, hsorted, hmem⟩ := count_candidates_spec N hN (N + 1) 7 1 wheel_at_seven
    (by omega)
  rw [hl]
  congr 1
  apply sorted_lt_ext _ _ hsorted ((List.sorted_lt_range _).filter _)
  intro x
  rw [hmem, List.mem_filter, List.mem_range, decide_eq_true_eq]
  constructor
  · rintro ⟨h1, h2, h3⟩; exact ⟨by omega, h1, h3⟩
  · rintro ⟨h1, h2, h3⟩; exact ⟨h2, by omega, h3⟩

end Sieve8of30

/-! ## The sieve invariant: the set bits are the multiples of the primes found -/

namespace Sieve8of30

theorem prime_coprime_30 {p : Nat} (hp : p.Prime) (h7 : 7 ≤ p) : Nat.Coprime p 30 := by
  have h2 : Nat.Coprime p 2 := (Nat.coprime_primes hp Nat.prime_two).mpr (by omega)
  have h3 : Nat.Coprime p 3 := (Nat.coprime_primes hp Nat.prime_three).mpr (by omega)
  have h5 : Nat.Coprime p 5 := (Nat.coprime_primes hp Nat.prime_five).mpr (by omega)
  exact Nat.Coprime.mul_right h2 (Nat.Coprime.mul_right h3 h5)

theorem prime_odd {p : Nat} (hp : p.Prime) (h7 : 7 ≤ p) : p % 2 = 1 := by
  rcases hp.eq_two_or_odd with h | h
  · omega
  · exact h

/-- A prime factor of an integer coprime to 30 is at least 7. -/
theorem seven_le_of_dvd {q c : Nat} (hq : q.Prime) (hd : q ∣ c) (hc : Nat.Coprime c 30) :
    7 ≤ q := by
  have hq30 : Nat.Coprime q 30 := Nat.Coprime.coprime_dvd_left hd hc
  have h2 := hq.two_le
  by_contra hlt
  have hlt7 : q < 7 := by omega
  have := (coprime_30_iff q).mp hq30
  omega

/-- A composite integer coprime to 30 has a prime factor `q ≥ 7` with `q*q` below it. -/
theorem exists_small_factor {c : Nat} (h7 : 7 ≤ c) (hc : Nat.Coprime c 30)
    (hnp : ¬ c.Prime) : ∃ q, q.Prime ∧ 7 ≤ q ∧ q * q ≤ c ∧ q ∣ c := by
  refine ⟨c.minFac, Nat.minFac_prime (by omega), ?_, ?_, Nat.minFac_dvd c⟩
  · exact seven_le_of_dvd (Nat.minFac_prime (by omega)) (Nat.minFac_dvd c) hc
  · have := Nat.minFac_sq_le_self (show 0 < c by omega) hnp
    rw [sq] at this
    exact this

/-- What `marked_by` says about the integer `2*h+1` of a half-index. -/
theorem marked_by_dvd {b : Build} {N p h : Nat} (hodd : p % 2 = 1)
    (hm : marked_by b N p h) : p * p ≤ 2 * h + 1 ∧ p ∣ 2 * h + 1 ∧ p * p ≤ N := by
  obtain ⟨h1, h2, h3⟩ := hm
  have hsq : p * p % 2 = 1 := by rw [Nat.mul_mod, hodd]
  refine ⟨by omega, (dvd_half_iff hodd h1).mp h2, ?_⟩
  rcases h3 with h3 | ⟨_, _, h3, _⟩
  · omega
  · omega

theorem marked_by_of_dvd {b : Build} {N p h : Nat} (hodd : p % 2 = 1)
    (hsq : p * p ≤ 2 * h + 1) (hd : p ∣ 2 * h + 1) (hh : h < N / 2) : marked_by b N p h := by
  have h1 : p * p / 2 ≤ h := by omega
  exact ⟨h1, (dvd_half_iff hodd h1).mpr hd, Or.inl hh⟩

/-- A prime `p ≥ 7` does not mark its own half-index, nor that of another prime. -/
theorem not_marked_of_prime {b : Build} {N p h : Nat} (hp : p.Prime) (h7 : 7 ≤ p)
    (hc : (2 * h + 1).Prime) : ¬ marked_by b N p h := by
  intro hm
  obtain ⟨h1, h2, _⟩ := marked_by_dvd (prime_odd hp h7) hm
  rcases (Nat.dvd_prime hc).mp h2 with h3 | h3
  · omega
  · rw [h3] at h1
    have : (2 * h + 1) * 7 ≤ (2 * h + 1) * (2 * h + 1) :=
      Nat.mul_le_mul_left _ (by omega)
    omega

/-- The primes `p ≥ 7` below the next wheel position are those below the current
one, and the current one if it is prime. -/
theorem prime_lt_next {c step p : Nat} (hw : wheel_at c step) (hp : p.Prime) (h7 : 7 ≤ p)
    (hlt : p < c + 2 * steps.getD step 0) : p < c ∨ p = c := by
  obtain ⟨_, _, hgap⟩ := wheel_at_next hw
  by_contra hc
  exact hgap p (by omega) hlt (prime_coprime_30 hp h7)

/-- The outer loop, started at a wheel position with exactly the multiples marked
of the primes below it, ends with exactly the multiples marked of the primes
below a position beyond `qh`. -/
theorem sieve_loop_primes (b : Build) (N qh : Nat) (hT : 1 ≤ b.numthreads)
    (hN : N < 2147483648) (hq1 : 3 ≤ qh → qh ≤ N / 2) (hq2 : 2 * qh + 1 < 65536)
    (hq3 : 2 * qh ≤ Nat.sqrt N + 1) :
    ∀ fuel factorh step (a : Words), 3 ≤ factorh → wheel_at (2 * factorh + 1) step →
      qh + 1 - factorh < fuel → N / 2 / wordBits b < a.size →
      (∀ h, a.bits.testBit h = true
        ↔ ∃ p, p.Prime ∧ 7 ≤ p ∧ p < 2 * factorh + 1 ∧ marked_by b N p h) →
      ∃ bits F, sieve_loop b N (N >>> 1) qh fuel factorh step (steps.getD step 0) a
          = some ⟨a.size, bits⟩ ∧ qh < F ∧
        ∀ h, bits.testBit h = true
          ↔ ∃ p, p.Prime ∧ 7 ≤ p ∧ p < 2 * F + 1 ∧ marked_by b N p h := by
  intro fuel
  induction fuel with
  | zero => intro factorh step a _ _ hfuel; omega
  | succ n ih =>
    intro factorh step a h3 hw hfuel hsize hinv
    by_cases hle : factorh ≤ qh
    · have hqN : qh ≤ N / 2 := hq1 (by omega)
      have hin : factorh / wordBits b < a.size :=
        lt_of_le_of_lt (Nat.div_le_div_right (le_trans hle hqN)) hsize
      obtain ⟨hnext, hpos, hgap⟩ := wheel_at_next hw
      have hs3 := steps_getD_le step
      have e : 2 * factorh + 1 + 2 * steps.getD step 0
          = 2 * (factorh + steps.getD step 0) + 1 := by omega
      rw [e] at hnext
      have hcop := wheel_at_coprime hw
      rw [sieve_loop_step b N qh n factorh step (steps.getD step 0) a hle hq2 hs3 hin]
      by_cases hbit : a.bits.testBit factorh = true
      · -- the candidate is marked: it is composite
        rw [if_pos hbit]
        obtain ⟨q, hq, hq7, hqlt, hqm⟩ := (hinv factorh).mp hbit
        have hnp : ¬ (2 * factorh + 1).Prime := fun hc => not_marked_of_prime hq hq7 hc hqm
        apply ih (factorh + steps.getD step 0) (next_step step) a (by omega) hnext (by omega)
          hsize
        intro h
        rw [hinv h]
        constructor
        · rintro ⟨p, hp, hp7, hplt, hpm⟩
          exact ⟨p, hp, hp7, by omega, hpm⟩
        · rintro ⟨p, hp, hp7, hplt, hpm⟩
          rcases prime_lt_next hw hp hp7 (by omega) with h4 | h4
          · exact ⟨p, hp, hp7, h4, hpm⟩
          · rw [h4] at hp
            exact absurd hp hnp
      · -- the candidate is unmarked: it is prime, and its multiples are marked
        rw [if_neg hbit]
        have hprime : (2 * factorh + 1).Prime := by
          by_contra hnp
          obtain ⟨q, hq, hq7, hqsq, hqd⟩ := exists_small_factor (by omega) hcop hnp
          have hs47 : 47 ≤ Nat.sqrt N := by
            have : 7 * 7 ≤ q * q := Nat.mul_le_mul hq7 hq7
            omega
          have hsN : Nat.sqrt N * Nat.sqrt N ≤ N := Nat.sqrt_le N
          have h47 : 47 * Nat.sqrt N ≤ Nat.sqrt N * Nat.sqrt N :=
            Nat.mul_le_mul_right _ hs47
          have hlt : q < 2 * factorh + 1 := by
            have : q * 7 ≤ q * q := Nat.mul_le_mul_left q hq7
            omega
          exact hbit ((hinv factorh).mpr ⟨q, hq, hq7, hlt,
            marked_by_of_dvd (prime_odd hq hq7) hqsq hqd (by omega)⟩)
        obtain ⟨bits1, hm1, hm2⟩ := mark_multiples_spec b N (2 * factorh + 1) a (by omega)
          (by omega) hT hN hsize
        rw [hm1]
        apply ih (factorh + steps.getD step 0) (next_step step) ⟨a.size, bits1⟩ (by omega)
          hnext (by omega) hsize
        intro h
        rw [hm2 h, hinv h]
        constructor
        · rintro (⟨p, hp, hp7, hplt, hpm⟩ | hm)
          · exact ⟨p, hp, hp7, by omega, hpm⟩
          · exact ⟨2 * factorh + 1, hprime, by omega, by omega, hm⟩
        · rintro ⟨p, hp, hp7, hplt, hpm⟩
          rcases prime_lt_next hw hp hp7 (by omega) with h4 | h4
          · exact Or.inl ⟨p, hp, hp7, h4, hpm⟩
          · rw [h4] at hpm
            exact Or.inr hpm
    · refine ⟨a.bits, factorh, ?_, by omega, hinv⟩
      simp only [sieve_loop, if_neg hle]

/-- `run_sieve` on a cleared store that holds the half-indices up to `N / 2`: the
bits set are the half-indices marked for the primes `p ≥ 7`. -/
theorem run_sieve_spec (b : Build) (size N : Nat) (hT : 1 ≤ b.numthreads)
    (hN : N < 2147483648) (hsize : N / 2 / wordBits b < size) :
    ∃ bits, run_sieve b ⟨⟨size, 0⟩, N⟩ = some ⟨⟨size, bits⟩, N⟩ ∧
      ∀ h, bits.testBit h = true ↔ ∃ p, p.Prime ∧ 7 ≤ p ∧ marked_by b N p h := by
  have hs := sqrt_bound hN
  have hq : add32 (isqrt N) 1 >>> 1 = (Nat.sqrt N + 1) / 2 := by
    rw [isqrt_eq_sqrt, add32_of_lt (by omega), shiftRight_one_eq]
  have hq1 : 3 ≤ (Nat.sqrt N + 1) / 2 → (Nat.sqrt N + 1) / 2 ≤ N / 2 := by
    intro h3
    have h5 : 5 ≤ Nat.sqrt N := by omega
    have h25 : 5 * 5 ≤ N := Nat.le_sqrt.mp h5
    have := Nat.sqrt_lt_self (show 1 < N by omega)
    exact Nat.div_le_div_right (by omega)
  have h7 : (7 : Nat) >>> 1 = 3 := by decide
  obtain ⟨bits, F, h1, hF, h2⟩ := sieve_loop_primes b N ((Nat.sqrt N + 1) / 2) hT hN hq1
    (by omega) (by omega) ((Nat.sqrt N + 1) / 2 + 1) 3 1 ⟨size, 0⟩ (le_refl 3)
    (by unfold wheel_at wheel_residues; decide) (by omega) hsize (by
      intro h
      simp only [Nat.zero_testBit, Bool.false_eq_true, false_iff]
      rintro ⟨p, _, hp7, hplt, _⟩
      omega)
  refine ⟨bits, ?_, ?_⟩
  · simp only [run_sieve, hq, h7, h1]
  · intro h
    rw [h2 h]
    constructor
    · rintro ⟨p, hp, hp7, _, hpm⟩
      exact ⟨p, hp, hp7, hpm⟩
    · rintro ⟨p, hp, hp7, hpm⟩
      refine ⟨p, hp, hp7, ?_, hpm⟩
      have hpN := (marked_by_dvd (prime_odd hp hp7) hpm).2.2
      have : p ≤ Nat.sqrt N := Nat.le_sqrt.mpr hpN
      omega

theorem create_sieve_eq (b : Build) (N : Nat) (hN : N < 2147483648) :
    create_sieve b N = ⟨⟨(create_sieve b N).a.size, 0⟩, N⟩ := by
  have hm : N % 4294967296 = N := Nat.mod_eq_of_lt (by omega)
  simp only [create_sieve, calloc, hm]

/-- The number of primes up to `N ≥ 6` is 3 plus the number of primes from 7 to `N`. -/
theorem card_primes_from_seven (N : Nat) (hN : 6 ≤ N) :
    ((Finset.Icc 1 N).filter Nat.Prime).card
      = 3 + ((Finset.Icc 7 N).filter Nat.Prime).card := by
  rw [card_filter_Icc_step Nat.Prime 1 2 N (by omega) (by omega) (by intro c h1 h2; omega),
    card_filter_Icc_step Nat.Prime 2 3 N (by omega) (by omega) (by intro c h1 h2; omega),
    card_filter_Icc_step Nat.Prime 3 5 N (by omega) (by omega) (by
      intro c h1 h2
      have : c = 4 := by omega
      rw [this]; decide),
    card_filter_Icc_step Nat.Prime 5 7 N (by omega) (by omega) (by
      intro c h1 h2
      have : c = 6 := by omega
      rw [this]; decide),
    if_neg Nat.not_prime_one, if_pos Nat.prime_two, if_pos Nat.prime_three,
    if_pos Nat.prime_five]
  omega

/-- For an even bound `6 ≤ N < 2^31` the program counts the primes up to `N`. -/
theorem sieve_count_primes (b : Build) (N : Nat) (hT : 1 ≤ b.numthreads)
    (hN : N < 2147483648) (heven : N % 2 = 0) (h6 : 6 ≤ N) :
    sieve_count b N = some ((Finset.Icc 1 N).filter Nat.Prime).card := by
  obtain ⟨bits, h1, h2⟩ := run_sieve_spec b (create_sieve b N).a.size N hT hN
    (create_sieve_size b N)
  simp only [sieve_count]
  rw [create_sieve_eq b N hN, h1]
  simp only
  rw [count_primes_spec b ⟨(create_sieve b N).a.size, bits⟩ N (by omega) (create_sieve_size b N),
    card_primes_from_seven N h6]
  congr 2
  apply congrArg
  apply Finset.filter_congr
  intro c hc
  rw [Finset.mem_Icc] at hc
  have hin : (c - 1) / 2 / wordBits b < (create_sieve b N).a.size :=
    lt_of_le_of_lt (Nat.div_le_div_right (by omega)) (create_sieve_size b N)
  rw [test_eq, if_pos hin]
  simp only [Option.some.injEq]
  constructor
  · rintro ⟨hcop, hclear⟩
    have hodd : c % 2 = 1 := by
      have := (coprime_30_iff c).mp hcop
      omega
    by_contra hnp
    obtain ⟨q, hq, hq7, hqsq, hqd⟩ := exists_small_factor hc.1 hcop hnp
    have e : 2 * ((c - 1) / 2) + 1 = c := by omega
    have hm : marked_by b N q ((c - 1) / 2) :=
      marked_by_of_dvd (prime_odd hq hq7) (by rw [e]; exact hqsq) (by rw [e]; exact hqd)
        (by omega)
    have := (h2 ((c - 1) / 2)).mpr ⟨q, hq, hq7, hm⟩
    rw [hclear] at this
    exact absurd this Bool.false_ne_true
  · intro hp
    have hodd := prime_odd hp hc.1
    have e : 2 * ((c - 1) / 2) + 1 = c := by omega
    refine ⟨prime_coprime_30 hp hc.1, ?_⟩
    rw [Bool.eq_false_iff]
    intro hset
    obtain ⟨q, hq, hq7, hm⟩ := (h2 ((c - 1) / 2)).mp hset
    exact not_marked_of_prime hq hq7 (by rw [e]; exact hp) hm

end Sieve8of30

/-! ## Evaluation of the program on concrete bounds -/

namespace Sieve8of30

set_option maxRecDepth 100000 in
theorem eval_small_bounds (w omp : Bool) : ∀ N, N < 50 →
    (N < 49 → run_sieve ⟨w, omp, 0⟩ (create_sieve ⟨w, omp, 0⟩ N)
      = some (create_sieve ⟨w, omp, 0⟩ N)) ∧
    sieve_count ⟨w, omp, 0⟩ N
      = some (3 + ((Finset.Icc 7 N).filter Nat.Prime).card + (if N = 49 then 1 else 0)) := by
  cases w <;> cases omp <;> decide!

theorem sieve_count_small (b : Build) (N : Nat) (hN : N < 50) :
    sieve_count b N
      = some (3 + ((Finset.Icc 7 N).filter Nat.Prime).card + (if N = 49 then 1 else 0)) := by
  obtain ⟨w, omp, T⟩ := b
  cases omp with
  | false =>
    rw [sieve_count_sequential_build w T 0]
    exact (eval_small_bounds w false N hN).2
  | true =>
    rcases Nat.eq_zero_or_pos T with hT | hT
    · subst hT
      exact (eval_small_bounds w true N hN).2
    · rw [sieve_count_below_threshold w T 0 N (by omega) (by omega)]
      exact (eval_small_bounds w false N hN).2

theorem run_sieve_small (b : Build) (N : Nat) (hN : N < 49) :
    run_sieve b (create_sieve b N) = some (create_sieve b N) := by
  obtain ⟨w, omp, T⟩ := b
  cases omp with
  | false =>
    rw [run_sieve_sequential_build w T 0]
    exact (eval_small_bounds w false N (by omega)).1 hN
  | true =>
    rcases Nat.eq_zero_or_pos T with hT | hT
    · subst hT
      exact (eval_small_bounds w true N (by omega)).1 hN
    · have hm : (create_sieve ⟨w, true, T⟩ N).maxints = N := by
        simp only [create_sieve]; omega
      rw [run_sieve_below_threshold w T 0 _ (by omega) (by omega)]
      exact (eval_small_bounds w false N (by omega)).1 hN

set_option maxRecDepth 100000 in
theorem eval_table :
    sieve_count ⟨false, false, 1⟩ 10 = some 4 ∧ sieve_count ⟨false, false, 1⟩ 100 = some 25 ∧
    sieve_count ⟨false, false, 1⟩ 1000 = some 168 ∧
    sieve_count ⟨false, false, 1⟩ 10000 = some 1229 := by
  decide!

theorem sieve_count_table (b : Build) (hT : 1 ≤ b.numthreads) :
    sieve_count b 10 = some 4 ∧ sieve_count b 100 = some 25 ∧
    sieve_count b 1000 = some 168 ∧ sieve_count b 10000 = some 1229 := by
  rw [sieve_count_even b ⟨false, false, 1⟩ 10 hT (by decide) (by decide) (by decide),
    sieve_count_even b ⟨false, false, 1⟩ 100 hT (by decide) (by decide) (by decide),
    sieve_count_even b ⟨false, false, 1⟩ 1000 hT (by decide) (by decide) (by decide),
    sieve_count_even b ⟨false, false, 1⟩ 10000 hT (by decide) (by decide) (by decide)]
  exact eval_table

set_option maxRecDepth 100000 in
theorem eval_4277 :
    sieve_count ⟨false, true, 1⟩ 4277 = some 587 ∧ sieve_count ⟨false, true, 2⟩ 4277 = some 588 ∧
    sieve_count ⟨false, false, 1⟩ 4277 = some 588 := by
  decide!

set_option maxRecDepth 100000 in
theorem eval_thread_visits_4277 :
    (match thread_visits ⟨false, true, 1⟩ (4277 / 2) 7 0 with
      | some V => decide (2138 ∈ V)
      | none => false) = true := by
  decide!

set_option maxRecDepth 100000 in
theorem eval_visits_4277 :
    (match thread_visits ⟨false, true, 1⟩ (4277 >>> 1) 7 0,
        sequential_visits (4277 >>> 1) 7 with
      | some V, some S => decide (2138 ∈ V) && !decide (2138 ∈ S)
      | _, _ => false) = true := by
  decide!

end Sieve8of30

/-! ## No `unsigned int` operation wraps around -/

namespace Sieve8of30

theorem add_chk_val {x y : Nat} (h : x + y < 4294967296) : add_chk x y = some (x + y) := by
  rw [add_chk, if_pos h]

theorem sub_chk_val {x y : Nat} (h : y ≤ x) : sub_chk x y = some (x - y) := by
  rw [sub_chk, if_pos h]

theorem mul_chk_val {x y : Nat} (h : x * y < 4294967296) : mul_chk x y = some (x * y) := by
  rw [mul_chk, if_pos h]

theorem imul_chk_val {x y : Nat} (h : x * y < 2147483648) : imul_chk x y = some (x * y) := by
  rw [imul_chk, if_pos h]

theorem add_chk_eq {x y : Nat} (h : x + y < 4294967296) : add_chk x y = some (add32 x y) := by
  rw [add_chk_val h, add32_of_lt h]

theorem shl_chk_one {x : Nat} (h : x < 2147483648) : shl_chk x 1 = some (shl32 x 1) := by
  have h1 : x <<< 1 < 4294967296 := by rw [Nat.shiftLeft_eq]; omega
  rw [shl_chk, if_pos h1, shl32, Nat.mod_eq_of_lt h1]

theorem mark_lt_chk_eq (b : Build) (factor maxintsh : Nat)
    (h : maxintsh + factor ≤ 4294967296) :
    ∀ fuel m a, mark_lt_chk b factor maxintsh fuel m a = mark_lt b factor maxintsh fuel m a := by
  intro fuel
  induction fuel with
  | zero => intro m a; rfl
  | succ n ih =>
    intro m a
    simp only [mark_lt_chk, mark_lt]
    by_cases hm : m < maxintsh
    · rw [if_pos hm, if_pos hm, add_chk_eq (by omega)]
      cases a.or_assign b (m >>> SHIFT b) (1 <<< (m &&& MASK b)) with
      | none => rfl
      | some a1 => simp only [ih]
    · rw [if_neg hm, if_neg hm]

theorem mark_le_chk_eq (b : Build) (factor mylastbit : Nat)
    (h : mylastbit + factor < 4294967296) :
    ∀ fuel m a, mark_le_chk b factor mylastbit fuel m a = mark_le b factor mylastbit fuel m a := by
  intro fuel
  induction fuel with
  | zero => intro m a; rfl
  | succ n ih =>
    intro m a
    simp only [mark_le_chk, mark_le]
    by_cases hm : m ≤ mylastbit
    · rw [if_pos hm, if_pos hm, add_chk_eq (by omega)]
      cases a.or_assign b (m >>> SHIFT b) (1 <<< (m &&& MASK b)) with
      | none => rfl
      | some a1 => simp only [ih]
    · rw [if_neg hm, if_neg hm]

theorem adjust_first_chk_eq (b : Build) (f : Nat) :
    ∀ fuel x, f ≤ x → x + fuel * f < 4294967296 →
      adjust_first_chk b f fuel x = adjust_first b f fuel x := by
  intro fuel
  induction fuel with
  | zero => intro x _ _; rfl
  | succ n ih =>
    intro x hx hb
    have hs : (n + 1) * f = n * f + f := by ring
    have hadd : x + f < 4294967296 := by omega
    simp only [adjust_first_chk, adjust_first]
    rw [sub_chk_val hx, sub32_of_le hx (by omega), add_chk_val hadd, add32_of_lt hadd]
    simp only
    rw [ih (x + f) (by omega) (by omega)]

theorem adjust_last_chk_eq (b : Build) (f : Nat) :
    ∀ fuel x, x + fuel * f < 4294967296 →
      adjust_last_chk b f fuel x = adjust_last b f fuel x := by
  intro fuel
  induction fuel with
  | zero => intro x _; rfl
  | succ n ih =>
    intro x hb
    have hs : (n + 1) * f = n * f + f := by ring
    have hadd : x + f < 4294967296 := by omega
    simp only [adjust_last_chk, adjust_last]
    rw [add_chk_val hadd, add32_of_lt hadd]
    simp only
    rw [ih (x + f) (by omega)]

theorem lt_65536_of_sq {f N : Nat} (hN : N < 2147483648) (hlt : f * f < N) : f < 65536 := by
  by_contra hc
  have : 65536 * 65536 ≤ f * f := Nat.mul_le_mul (by omega) (by omega)
  omega

/-- On the parallel path the computation of the range of a thread does not wrap. -/
theorem thread_range_chk_eq (b : Build) (N f i : Nat) (hf : 1 ≤ f) (hT : 1 ≤ b.numthreads)
    (hN : N < 2147483648) (hlt : f * f < N)
    (hws : (N - f * f) / (2 * f) > b.numthreads * 300) (hi : i < b.numthreads) :
    thread_range_chk b (N / 2) f i = thread_range b (N / 2) f i := by
  obtain ⟨h1, h2, h3⟩ := chunk_facts N f b.numthreads hf hT hlt hws
  have hW := wordBits_le b
  have hf16 := lt_65536_of_sq hN hlt
  have hWf : (wordBits b + 1) * f ≤ 65 * f := Nat.mul_le_mul_right f (by omega)
  have hTlt : b.numthreads < 2147483648 := by
    have : (N - f * f) / (2 * f) ≤ N := le_trans (Nat.div_le_self _ _) (Nat.sub_le _ _)
    omega
  have hDi : f * ((N / 2 - f * f / 2) / f / b.numthreads) * i
      ≤ f * ((N / 2 - f * f / 2) / f / b.numthreads) * b.numthreads :=
    Nat.mul_le_mul_left _ (Nat.le_of_lt hi)
  have hDi1 : f * ((N / 2 - f * f / 2) / f / b.numthreads) * (i + 1)
      ≤ f * ((N / 2 - f * f / 2) / f / b.numthreads) * b.numthreads :=
    Nat.mul_le_mul_left _ hi
  have hD : f * ((N / 2 - f * f / 2) / f / b.numthreads)
      ≤ f * ((N / 2 - f * f / 2) / f / b.numthreads) * b.numthreads :=
    Nat.le_mul_of_pos_right _ (by omega)
  have hfD : f ≤ f * ((N / 2 - f * f / 2) / f / b.numthreads) :=
    Nat.le_mul_of_pos_right f (by omega)
  have hfD1 : f * ((N / 2 - f * f / 2) / f / b.numthreads)
      ≤ f * ((N / 2 - f * f / 2) / f / b.numthreads) * (i + 1) :=
    Nat.le_mul_of_pos_right _ (by omega)
  have hff : f * f < 4294967296 := by omega
  have hft : f * ((N / 2 - f * f / 2) / f / b.numthreads) < 4294967296 := by omega
  have hfti : f * ((N / 2 - f * f / 2) / f / b.numthreads) * i < 4294967296 := by omega
  have hmy : f * f / 2 + f * ((N / 2 - f * f / 2) / f / b.numthreads) * i < 4294967296 := by
    omega
  have hi1 : i + 1 < 4294967296 := by omega
  have hfti1 : f * ((N / 2 - f * f / 2) / f / b.numthreads) * (i + 1) < 4294967296 := by omega
  have hnf : f * f / 2 + f * ((N / 2 - f * f / 2) / f / b.numthreads) * (i + 1)
      < 4294967296 := by omega
  have hsub : f ≤ f * f / 2 + f * ((N / 2 - f * f / 2) / f / b.numthreads) * (i + 1) := by
    omega
  simp only [thread_range_chk, thread_range]
  rw [mul_chk_val hff, Option.some_bind, mul32_of_lt hff, shiftRight_one_eq,
    sub_chk_val h1, Option.some_bind, sub32_of_le h1 (by omega),
    mul_chk_val hft, Option.some_bind, mul32_of_lt hft,
    mul_chk_val hfti, Option.some_bind, mul32_of_lt hfti,
    add_chk_val hmy, Option.some_bind, add32_of_lt hmy,
    add_chk_val hi1, Option.some_bind, add32_of_lt hi1,
    mul_chk_val hfti1, Option.some_bind, mul32_of_lt hfti1,
    add_chk_val hnf, Option.some_bind, add32_of_lt hnf,
    sub_chk_val hsub, Option.some_bind, sub32_of_le hsub (by omega),
    adjust_last_chk_eq b f (wordBits b + 1) _ (by omega)]
  by_cases hi0 : i = 0
  · have hn : ¬ (i ≠ 0) := fun h => h hi0
    rw [if_neg hn, if_neg hn]
  · have hge : f ≤ f * ((N / 2 - f * f / 2) / f / b.numthreads) * i :=
      le_trans hfD (Nat.le_mul_of_pos_right _ (by omega))
    rw [if_pos hi0, if_pos hi0, adjust_first_chk_eq b f (wordBits b + 1) _ (by omega) (by omega)]

theorem thread_body_chk_eq (b : Build) (N f i : Nat) (a : Words) (hf : 1 ≤ f)
    (hT : 1 ≤ b.numthreads) (hN : N < 2147483648) (hlt : f * f < N)
    (hws : (N - f * f) / (2 * f) > b.numthreads * 300) (hi : i < b.numthreads) :
    thread_body_chk b (N / 2) f i a = thread_body b (N / 2) f i a := by
  have hf16 := lt_65536_of_sq hN hlt
  obtain ⟨s, e, hr, _, he, _⟩ := boundary_spec b N f i hf hT hN hlt hws hi
  simp only [thread_body_chk, thread_body]
  rw [thread_range_chk_eq b N f i hf hT hN hlt hws hi, hr]
  exact mark_le_chk_eq b f e (by omega) _ _ _

theorem parallel_region_chk_eq (b : Build) (N f : Nat) (hf : 1 ≤ f)
    (hT : 1 ≤ b.numthreads) (hN : N < 2147483648) (hlt : f * f < N)
    (hws : (N - f * f) / (2 * f) > b.numthreads * 300) :
    ∀ (l : List Nat) (a : Words), (∀ i, i ∈ l → i < b.numthreads) →
      parallel_region_chk b (N / 2) f l a = parallel_region b (N / 2) f l a := by
  intro l
  induction l with
  | nil => intro a _; rfl
  | cons i rest ih =>
    intro a hl
    simp only [parallel_region_chk, parallel_region]
    rw [thread_body_chk_eq b N f i a hf hT hN hlt hws (hl i (List.mem_cons_self i rest))]
    cases thread_body b (N / 2) f i a with
    | none => rfl
    | some a1 =>
      simp only
      exact ih a1 (fun j hj => hl j (List.mem_cons_of_mem i hj))

/-- The marking of the multiples of a factor below `2^16` does not wrap. -/
theorem mark_multiples_chk_eq (b : Build) (N f : Nat) (a : Words) (hf : 1 ≤ f)
    (hf16 : f < 65536) (hT : 1 ≤ b.numthreads) (hN : N < 2147483648)
    (h300 : b.numthreads * 300 < 2147483648) :
    mark_multiples_chk b N (N >>> 1) f a = mark_multiples b N (N >>> 1) f a := by
  have hff : f * f < 4294967296 := by
    have : f * f ≤ 65535 * 65535 := Nat.mul_le_mul (by omega) (by omega)
    omega
  have h2f : 2 * f < 4294967296 := by omega
  simp only [mark_multiples_chk, mark_multiples]
  rw [mul_chk_val hff, Option.some_bind, mul32_of_lt hff, shiftRight_one_eq,
    shiftRight_one_eq, mul32_of_lt h2f]
  by_cases hO : b.OPENMP = true
  · rw [if_pos hO, if_pos hO]
    by_cases hgt : N > f * f
    · rw [if_pos hgt, if_pos hgt, sub_chk_val (Nat.le_of_lt hgt), Option.some_bind,
        sub32_of_le (Nat.le_of_lt hgt) (by omega), mul_chk_val h2f, Option.some_bind,
        imul_chk_val h300, Option.some_bind]
      by_cases hws : (N - f * f) / (2 * f) > b.numthreads * 300
      · rw [if_pos hws, if_pos hws]
        exact parallel_region_chk_eq b N f hf hT hN hgt hws _ a
          (fun i hi => List.mem_range.mp hi)
      · rw [if_neg hws, if_neg hws]
        exact mark_lt_chk_eq b f (N / 2) (by omega) _ _ _
    · rw [if_neg hgt, if_neg hgt]
  · rw [if_neg hO, if_neg hO]
    exact mark_lt_chk_eq b f (N / 2) (by omega) _ _ _

theorem sieve_loop_chk_eq (b : Build) (N qh : Nat) (hT : 1 ≤ b.numthreads)
    (hN : N < 2147483648) (h300 : b.numthreads * 300 < 2147483648)
    (hq2 : 2 * qh + 1 < 65536) :
    ∀ fuel factorh step inc (a : Words), inc ≤ 3 →
      sieve_loop_chk b N (N >>> 1) qh fuel factorh step inc a
        = sieve_loop b N (N >>> 1) qh fuel factorh step inc a := by
  intro fuel
  induction fuel with
  | zero => intro factorh step inc a _; rfl
  | succ n ih =>
    intro factorh step inc a hinc
    simp only [sieve_loop_chk, sieve_loop]
    by_cases hle : factorh ≤ qh
    · have hfac : add32 (shl32 factorh 1) 1 = 2 * factorh + 1 := by
        rw [shl32_one (by omega), add32_of_lt (by omega)]
      have h1 : add_chk (shl32 factorh 1) 1 = some (add32 (shl32 factorh 1) 1) :=
        add_chk_eq (by rw [shl32_one (by omega)]; omega)
      rw [if_pos hle, if_pos hle, add_chk_eq (show factorh + inc < 4294967296 by omega),
        shl_chk_one (by omega), Option.some_bind, h1, hfac]
      have hs3 := steps_getD_le (next_step step)
      cases a.test b factorh with
      | none => rfl
      | some v =>
        cases v with
        | true => simp only [ih _ _ _ _ hs3]
        | false =>
          simp only
          rw [mark_multiples_chk_eq b N (2 * factorh + 1) a (by omega) (by omega) hT hN h300]
          cases mark_multiples b N (N >>> 1) (2 * factorh + 1) a with
          | none => rfl
          | some a1 => simp only [ih _ _ _ _ hs3]
    · rw [if_neg hle, if_neg hle]

/-- No `unsigned int` operation of `run_sieve` wraps, whatever the store holds. -/
theorem run_sieve_chk_eq (b : Build) (a : Words) (N : Nat) (hT : 1 ≤ b.numthreads)
    (hN : N < 2147483648) (h300 : b.numthreads * 300 < 2147483648) :
    run_sieve_chk b ⟨a, N⟩ = run_sieve b ⟨a, N⟩ := by
  have hs := sqrt_bound hN
  have hq : add32 (isqrt N) 1 >>> 1 = (Nat.sqrt N + 1) / 2 := by
    rw [isqrt_eq_sqrt, add32_of_lt (by omega), shiftRight_one_eq]
  simp only [run_sieve_chk, run_sieve]
  rw [add_chk_eq (show isqrt N + 1 < 4294967296 by rw [isqrt_eq_sqrt]; omega)]
  simp only
  rw [hq, sieve_loop_chk_eq b N _ hT hN h300 (by omega) _ _ _ _ _ (by decide)]

theorem count_loop_chk_eq (b : Build) (N : Nat) (a : Words) (hN : N + 6 < 4294967296) :
    ∀ fuel factor step inc ncount, inc ≤ 6 → ncount + fuel < 4294967296 →
      count_loop_chk b N a fuel factor step inc ncount
        = count_loop b N a fuel factor step inc ncount := by
  intro fuel
  induction fuel with
  | zero => intro factor step inc ncount _ _; rfl
  | succ n ih =>
    intro factor step inc ncount hinc hcount
    simp only [count_loop_chk, count_loop]
    by_cases hle : factor ≤ N
    · have hs3 := steps_getD_le (next_step step)
      have hinc1 : shl32 (steps.getD (next_step step) 0) 1 ≤ 6 := by
        rw [shl32_one (by omega)]; omega
      rw [if_pos hle, if_pos hle, add_chk_eq (show factor + inc < 4294967296 by omega),
        shl_chk_one (show steps.getD (next_step step) 0 < 2147483648 by omega)]
      cases a.load b (factor >>> (SHIFT b + 1)) with
      | none => rfl
      | some w =>
        simp only
        by_cases hw : w &&& (1 <<< ((factor >>> 1) &&& MASK b)) = 0
        · rw [if_pos hw, if_pos hw, add_chk_eq (show ncount + 1 < 4294967296 by omega)]
          simp only
          exact ih _ _ _ _ hinc1 (by rw [add32_of_lt (by omega)]; omega)
        · rw [if_neg hw, if_neg hw]
          simp only
          exact ih _ _ _ _ hinc1 (by omega)
    · rw [if_neg hle, if_neg hle]

/-- No `unsigned int` operation of `count_primes` wraps, whatever the store holds. -/
theorem count_primes_chk_eq (b : Build) (a : Words) (N : Nat) (hN : N < 2147483648) :
    count_primes_chk b ⟨a, N⟩ = count_primes b ⟨a, N⟩ := by
  simp only [count_primes_chk, count_primes]
  rw [shl_chk_one (show steps.getD 1 0 < 2147483648 by decide)]
  simp only
  exact count_loop_chk_eq b N a (by omega) _ _ _ _ _ (by decide) (by omega)

end Sieve8of30

/-! ## Consequences for the whole run -/

namespace Sieve8of30

/-- The count does not depend on how many words beyond `N / 2` the block has. -/
theorem count_primes_size (b : Build) (s1 s2 bits N : Nat) (hN : N < 2147483648)
    (h1 : N / 2 / wordBits b < s1) (h2 : N / 2 / wordBits b < s2) :
    count_primes b ⟨⟨s1, bits⟩, N⟩ = count_primes b ⟨⟨s2, bits⟩, N⟩ := by
  rw [count_primes_spec b ⟨s1, bits⟩ N (by omega) h1,
    count_primes_spec b ⟨s2, bits⟩ N (by omega) h2]
  congr 2
  apply congrArg
  apply Finset.filter_congr
  intro c hc
  rw [Finset.mem_Icc] at hc
  have hle : (c - 1) / 2 / wordBits b ≤ N / 2 / wordBits b :=
    Nat.div_le_div_right (by omega)
  rw [test_eq, test_eq, if_pos (lt_of_le_of_lt hle h1), if_pos (lt_of_le_of_lt hle h2)]

/-- The run on a cleared block of `floor((N/2)/W) + 1` words and the run on the
block of `create_sieve` return the same bits and the same count. -/
theorem run_count_sizes (b : Build) (N : Nat) (hT : 1 ≤ b.numthreads)
    (hN : N < 2147483648) :
    ∃ bits n,
      run_sieve b ⟨⟨N / 2 / wordBits b + 1, 0⟩, N⟩
        = some ⟨⟨N / 2 / wordBits b + 1, bits⟩, N⟩ ∧
      count_primes b ⟨⟨N / 2 / wordBits b + 1, bits⟩, N⟩ = some n ∧
      run_sieve b (create_sieve b N) = some ⟨⟨(create_sieve b N).a.size, bits⟩, N⟩ ∧
      count_primes b ⟨⟨(create_sieve b N).a.size, bits⟩, N⟩ = some n := by
  obtain ⟨bits1, h1, h2⟩ := run_sieve_spec b (N / 2 / wordBits b + 1) N hT hN
    (Nat.lt_succ_self _)
  obtain ⟨bits2, h3, h4⟩ := run_sieve_spec b (create_sieve b N).a.size N hT hN
    (create_sieve_size b N)
  have heq : bits2 = bits1 := by
    apply Nat.eq_of_testBit_eq
    intro h
    rw [Bool.eq_iff_iff, h2 h, h4 h]
  rw [heq] at h3
  refine ⟨bits1, _, h1, count_primes_spec b ⟨_, bits1⟩ N (by omega) (Nat.lt_succ_self _), ?_, ?_⟩
  · rw [create_sieve_eq b N hN]
    exact h3
  · rw [count_primes_size b _ _ bits1 N hN (create_sieve_size b N)
      (Nat.lt_succ_self (N / 2 / wordBits b))]
    exact count_primes_spec b ⟨_, bits1⟩ N (by omega) (Nat.lt_succ_self _)

/-- The bits of the state that `run_sieve` returns for a fresh state. -/
theorem run_sieve_create (b : Build) (N : Nat) (hT : 1 ≤ b.numthreads)
    (hN : N < 2147483648) :
    ∃ bits, run_sieve b (create_sieve b N) = some ⟨⟨(create_sieve b N).a.size, bits⟩, N⟩ ∧
      (∀ h, bits.testBit h = true
        → ∃ p, p.Prime ∧ 7 ≤ p ∧ p * p ≤ 2 * h + 1 ∧ p ∣ 2 * h + 1) ∧
      (∀ h, h < N / 2 → (∃ p, p.Prime ∧ 7 ≤ p ∧ p * p ≤ 2 * h + 1 ∧ p ∣ 2 * h + 1)
        → bits.testBit h = true) := by
  obtain ⟨bits, h1, h2⟩ := run_sieve_spec b (create_sieve b N).a.size N hT hN
    (create_sieve_size b N)
  refine ⟨bits, ?_, ?_, ?_⟩
  · rw [create_sieve_eq b N hN]
    exact h1
  · intro h hset
    obtain ⟨p, hp, hp7, hm⟩ := (h2 h).mp hset
    obtain ⟨h3, h4, _⟩ := marked_by_dvd (prime_odd hp hp7) hm
    exact ⟨p, hp, hp7, h3, h4⟩
  · rintro h hh ⟨p, hp, hp7, h3, h4⟩
    exact (h2 h).mpr ⟨p, hp, hp7, marked_by_of_dvd (prime_odd hp hp7) h3 h4 hh⟩

/-- A prime `p ≥ 7` with `p * p ≤ c` that divides `c` shows that `c` is not prime. -/
theorem not_prime_of_small_factor {p c : Nat} (hp7 : 7 ≤ p) (hsq : p * p ≤ c)
    (hd : p ∣ c) : ¬ c.Prime := by
  intro hc
  rcases (Nat.dvd_prime hc).mp hd with h | h
  · omega
  · rw [h] at hsq
    have : c * 7 ≤ c * c := Nat.mul_le_mul_left c (by omega)
    omega

/-- `run_sieve` is the body of its loop run over the candidates below `qh`: the
half-indices `3 ≤ h ≤ qh` of the integers coprime to 30, in increasing order. -/
theorem run_sieve_eq_sieve_over (b : Build) (a : Words) (N : Nat) (hN : N < 2147483648) :
    run_sieve b ⟨a, N⟩
      = match sieve_over b N (N >>> 1)
          ((List.range ((Nat.sqrt N + 1) / 2 + 1)).filter
            (fun h => decide (3 ≤ h ∧ Nat.Coprime (2 * h + 1) 30))) a with
        | none => none
        | some a1 => some ⟨a1, N⟩ := by
  have hs := sqrt_bound hN
  have hq : add32 (isqrt N) 1 >>> 1 = (Nat.sqrt N + 1) / 2 := by
    rw [isqrt_eq_sqrt, add32_of_lt (by omega), shiftRight_one_eq]
  simp only [run_sieve]
  rw [hq, sieve_loop_eq_sieve_over, sieve_candidates_eq _ (by omega)]

/-- `count_primes` is the body of its loop run over the integers `7 ≤ c ≤ N`
coprime to 30, in increasing order. -/
theorem count_primes_eq_count_over (b : Build) (a : Words) (N : Nat)
    (hN : N + 6 < 4294967296) :
    count_primes b ⟨a, N⟩
      = count_over b a
          ((List.range (N + 1)).filter (fun c => decide (7 ≤ c ∧ Nat.Coprime c 30))) 3 := by
  simp only [count_primes]
  rw [count_loop_eq_count_over, count_candidates_eq N hN]

theorem candidates_example :
    sieve_candidates 18 19 (7 >>> 1) 1 (steps.getD 1 0) = some [3, 5, 6, 8, 9, 11, 14, 15, 18] ∧
    count_candidates 37 38 7 1 (shl32 (steps.getD 1 0) 1)
      = some [7, 11, 13, 17, 19, 23, 29, 31, 37] := by
  constructor <;> rfl

/-- The statement `a[i] |= v` clears no bit. -/
theorem or_assign_mono (b : Build) (a a1 : Words) (i v : Nat)
    (h : a.or_assign b i v = some a1) :
    a1.size = a.size ∧ ∀ h, a.bits.testBit h = true → a1.bits.testBit h = true := by
  obtain ⟨size, bits⟩ := a
  simp only [Words.or_assign] at h
  by_cases hi : i < size
  · rw [if_pos hi] at h
    have := Option.some.inj h
    subst this
    refine ⟨rfl, ?_⟩
    intro h hset
    simp only [Nat.testBit_or, hset, Bool.true_or]
  · rw [if_neg hi] at h
    exact absurd h (by simp)

/-- In a build without OpenMP the marking of the multiples of a factor is the
sequential loop. -/
theorem mark_multiples_sequential (b : Build) (N maxintsh p : Nat) (a : Words)
    (h : b.OPENMP = false) :
    mark_multiples b N maxintsh p a
      = mark_lt b p maxintsh (maxintsh + 1) (mul32 p p >>> 1) a := by
  simp only [mark_multiples, h, Bool.false_eq_true, if_false]

end Sieve8of30

/-! ## The contract -/

namespace Sieve8of30

/-- C1 (evaluation at the failing bound): for the bound 49 every build returns
the count 16 from `count_primes` after `run_sieve`, while there are 15 primes
up to 49; the composite 49 is counted. -/
theorem C1_count_at_49 (b : Build) :
    sieve_count b 49 = some 16 ∧ ((Finset.Icc 1 49).filter Nat.Prime).card = 15 := by
  refine ⟨?_, by decide⟩
  rw [sieve_count_small b 49 (by omega)]
  decide

/-- C2: for the bounds 10, 100, 1000 and 10000 `count_primes` after `run_sieve`
on `create_sieve` returns 4, 25, 168 and 1229, in every build and for every
thread count `T ≥ 1`. -/
theorem C2_validation_table (b : Build) (hT : 1 ≤ b.numthreads) :
    sieve_count b 10 = some 4 ∧ sieve_count b 100 = some 25 ∧
    sieve_count b 1000 = some 168 ∧ sieve_count b 10000 = some 1229 :=
  sieve_count_table b hT

theorem C2_validation_table_witness :
    1 ≤ (Build.mk false true 4).numthreads ∧
    (sieve_count (Build.mk false true 4) 10 = some 4 ∧
     sieve_count (Build.mk false true 4) 100 = some 25 ∧
     sieve_count (Build.mk false true 4) 1000 = some 168 ∧
     sieve_count (Build.mk false true 4) 10000 = some 1229) :=
  ⟨by decide, C2_validation_table (Build.mk false true 4) (by decide)⟩

/-- C3: for every bound `0 ≤ N ≤ 2^31 - 1`, in every build and for every thread
count `T ≥ 1`, `run_sieve` on `create_sieve N` returns a state `s`, and a second
`run_sieve` on `s` returns `s` again: the bit store is unchanged. -/
theorem C3_run_sieve_idempotent (b : Build) (N : Nat) (hT : 1 ≤ b.numthreads)
    (hN : N < 2147483648) :
    ∃ s, run_sieve b (create_sieve b N) = some s ∧ run_sieve b s = some s ∧
      s.a.size = (create_sieve b N).a.size ∧ s.maxints = N := by
  have hm : N % 4294967296 = N := Nat.mod_eq_of_lt (by omega)
  have hc : create_sieve b N = ⟨(create_sieve b N).a, N⟩ := by
    simp only [create_sieve, hm]
  obtain ⟨bits, h1, _, h3⟩ := run_sieve_idem b (create_sieve b N).a N hT hN
    (create_sieve_size b N)
  refine ⟨⟨⟨(create_sieve b N).a.size, bits⟩, N⟩, ?_, h3, rfl, rfl⟩
  rw [← h1, ← hc]

theorem C3_run_sieve_idempotent_witness :
    1 ≤ (Build.mk false true 4).numthreads ∧ (100 : Nat) < 2147483648 ∧
    ∃ s, run_sieve (Build.mk false true 4) (create_sieve (Build.mk false true 4) 100) = some s ∧
      run_sieve (Build.mk false true 4) s = some s ∧
      s.a.size = (create_sieve (Build.mk false true 4) 100).a.size ∧ s.maxints = 100 :=
  ⟨by decide, by decide, C3_run_sieve_idempotent (Build.mk false true 4) 100 (by decide) (by decide)⟩

/-- C4 (as stated, refuted): for the prime 7, the bound 4277 and one thread the
parallel path is taken, and the loop of thread 0 visits the half-index
2138 = 4277 / 2, which is not in the half-open range `[7*7/2, 4277/2)`. -/
theorem C4_visit_outside_half_open_range :
    Nat.Prime 7 ∧ 4277 > 7 * 7 ∧ (4277 - 7 * 7) / (2 * 7) > 300 * 1 ∧
    (∃ V, thread_visits ⟨false, true, 1⟩ (4277 / 2) 7 0 = some V ∧ 2138 ∈ V) ∧
    ¬ (2138 < 4277 / 2) := by
  refine ⟨by norm_num, by decide, by decide, ?_, by decide⟩
  have h := eval_thread_visits_4277
  cases hv : thread_visits ⟨false, true, 1⟩ (4277 / 2) 7 0 with
  | none => rw [hv] at h; exact absurd h Bool.false_ne_true
  | some V =>
    rw [hv] at h
    exact ⟨V, rfl, of_decide_eq_true h⟩

/-- C4 (amended): for every `p ≥ 1` (in particular every prime `p ≥ 7`), bound
`N ≤ 2^31 - 1` and thread count `T ≥ 1` for which the parallel path is taken,
every thread computes its range and its strided loop terminates, every half-index
`p*p/2 + k*p` that is `≤ N/2` is visited by the loop of exactly one thread, once,
and the threads visit no half-index outside the closed range `[p*p/2, N/2]` and
none off the progression. -/
theorem C4_partition_covers_closed_range (b : Build) (N p : Nat) (hp : 1 ≤ p)
    (hT : 1 ≤ b.numthreads) (hN : N < 2147483648) (hlt : N > p * p)
    (hws : (N - p * p) / (2 * p) > 300 * b.numthreads) :
    ∃ V : Nat → List Nat,
      (∀ i, i < b.numthreads → thread_visits b (N >>> 1) p i = some (V i) ∧ (V i).Nodup) ∧
      (∀ k, p * p / 2 + k * p ≤ N / 2 →
        ∃ i, (i < b.numthreads ∧ p * p / 2 + k * p ∈ V i) ∧
          ∀ j, j < b.numthreads ∧ p * p / 2 + k * p ∈ V j → j = i) ∧
      (∀ i, i < b.numthreads → ∀ m, m ∈ V i →
        p * p / 2 ≤ m ∧ m ≤ N / 2 ∧ ∃ k, m = p * p / 2 + k * p) := by
  rw [Nat.mul_comm 300] at hws
  obtain ⟨V, h1, h2, h3, _⟩ := partition_cover b N p hp hT hN hlt hws
  rw [shiftRight_one_eq]
  refine ⟨V, h1, ?_, ?_⟩
  · intro k hk
    exact h3 _ (Nat.le_add_right _ _) hk (by simp)
  · intro i hi m hm
    obtain ⟨h4, h5, k, hk⟩ := h2 i hi m hm
    exact ⟨h4, h5, k, by rw [Nat.mul_comm k p]; omega⟩

theorem C4_partition_covers_closed_range_witness :
    (1 : Nat) ≤ 7 ∧ 1 ≤ (Build.mk false true 4).numthreads ∧ (100000 : Nat) < 2147483648 ∧
    100000 > 7 * 7 ∧ (100000 - 7 * 7) / (2 * 7) > 300 * (Build.mk false true 4).numthreads ∧
    ∃ V : Nat → List Nat,
      (∀ i, i < (Build.mk false true 4).numthreads →
        thread_visits (Build.mk false true 4) (100000 >>> 1) 7 i = some (V i) ∧ (V i).Nodup) ∧
      (∀ k, 7 * 7 / 2 + k * 7 ≤ 100000 / 2 →
        ∃ i, (i < (Build.mk false true 4).numthreads ∧ 7 * 7 / 2 + k * 7 ∈ V i) ∧
          ∀ j, j < (Build.mk false true 4).numthreads ∧ 7 * 7 / 2 + k * 7 ∈ V j → j = i) ∧
      (∀ i, i < (Build.mk false true 4).numthreads → ∀ m, m ∈ V i →
        7 * 7 / 2 ≤ m ∧ m ≤ 100000 / 2 ∧ ∃ k, m = 7 * 7 / 2 + k * 7) :=
  ⟨by decide, by decide, by decide, by decide, by decide,
    C4_partition_covers_closed_range (Build.mk false true 4) 100000 7 (by decide) (by decide)
      (by decide) (by decide) (by decide)⟩

/-- C5: for every `p ≥ 1` (in particular every prime `p ≥ 7`), bound
`N ≤ 2^31 - 1` and thread count `T ≥ 1` for which the parallel path is taken, and
for both word widths, two distinct threads never mark half-indices of the same
storage word: `m >> SHIFT ≠ m' >> SHIFT` for every `m` visited by thread `i` and
every `m'` visited by a thread `j ≠ i`. -/
theorem C5_threads_own_disjoint_words (b : Build) (N p : Nat) (hp : 1 ≤ p)
    (hT : 1 ≤ b.numthreads) (hN : N < 2147483648) (hlt : N > p * p)
    (hws : (N - p * p) / (2 * p) > 300 * b.numthreads) :
    ∃ V : Nat → List Nat,
      (∀ i, i < b.numthreads → thread_visits b (N >>> 1) p i = some (V i)) ∧
      (∀ i j, i < b.numthreads → j < b.numthreads → i ≠ j →
        ∀ m, m ∈ V i → ∀ m', m' ∈ V j → m >>> SHIFT b ≠ m' >>> SHIFT b) ∧
      (SHIFT b = 5 ∨ SHIFT b = 6) := by
  rw [Nat.mul_comm 300] at hws
  obtain ⟨V, h1, _, _, h4⟩ := partition_cover b N p hp hT hN hlt hws
  rw [shiftRight_one_eq]
  refine ⟨V, fun i hi => (h1 i hi).1, ?_, ?_⟩
  · intro i j hi hj hij m hm m' hm'
    rw [shiftRight_SHIFT, shiftRight_SHIFT]
    exact h4 i j hi hj hij m hm m' hm'
  · rcases build_cases b with h | h
    · exact Or.inl h.1
    · exact Or.inr h.1

theorem C5_threads_own_disjoint_words_witness :
    (1 : Nat) ≤ 11 ∧ 1 ≤ (Build.mk true true 8).numthreads ∧ (1000000 : Nat) < 2147483648 ∧
    1000000 > 11 * 11 ∧
    (1000000 - 11 * 11) / (2 * 11) > 300 * (Build.mk true true 8).numthreads ∧
    ∃ V : Nat → List Nat,
      (∀ i, i < (Build.mk true true 8).numthreads →
        thread_visits (Build.mk true true 8) (1000000 >>> 1) 11 i = some (V i)) ∧
      (∀ i j, i < (Build.mk true true 8).numthreads → j < (Build.mk true true 8).numthreads →
        i ≠ j → ∀ m, m ∈ V i → ∀ m', m' ∈ V j →
          m >>> SHIFT (Build.mk true true 8) ≠ m' >>> SHIFT (Build.mk true true 8)) ∧
      (SHIFT (Build.mk true true 8) = 5 ∨ SHIFT (Build.mk true true 8) = 6) :=
  ⟨by decide, by decide, by decide, by decide, by decide,
    C5_threads_own_disjoint_words (Build.mk true true 8) 1000000 11 (by decide) (by decide)
      (by decide) (by decide) (by decide)⟩

/-- C6 (evaluation at the failing input): for the prime 7, the bound 4277 and
one thread the parallel path is taken; the half-index 2138 = 4277 / 2 is marked
by the parallel path (thread 0) and is not marked by the sequential loop. -/
theorem C6_parallel_marks_more_than_sequential :
    4277 > 7 * 7 ∧ (4277 - 7 * 7) / (2 * 7) > 300 * 1 ∧
    ∃ V S, thread_visits ⟨false, true, 1⟩ (4277 >>> 1) 7 0 = some V ∧
      sequential_visits (4277 >>> 1) 7 = some S ∧ 2138 ∈ V ∧ 2138 ∉ S := by
  refine ⟨by decide, by decide, ?_⟩
  have h := eval_visits_4277
  cases hv : thread_visits ⟨false, true, 1⟩ (4277 >>> 1) 7 0 with
  | none => rw [hv] at h; exact absurd h Bool.false_ne_true
  | some V =>
    cases hs : sequential_visits (4277 >>> 1) 7 with
    | none => rw [hv, hs] at h; exact absurd h Bool.false_ne_true
    | some S =>
      rw [hv, hs] at h
      simp only [Bool.and_eq_true, decide_eq_true_eq, Bool.not_eq_true', decide_eq_false_iff_not]
        at h
      exact ⟨V, S, rfl, rfl, h.1, h.2⟩

/-- C7 (evaluation at the failing bound): for the bound 4277 = 7 * 13 * 47 the
OpenMP build returns 587 with one thread and 588 with two threads, and the
build without OpenMP returns 588. -/
theorem C7_count_depends_on_threads :
    sieve_count ⟨false, true, 1⟩ 4277 = some 587 ∧
    sieve_count ⟨false, true, 2⟩ 4277 = some 588 ∧
    sieve_count ⟨false, false, 1⟩ 4277 = some 588 :=
  eval_4277

/-- C8: for every bound `N < 49`, `run_sieve` on `create_sieve N` returns the
state unchanged (no bit is set), and `count_primes` then returns 3 plus the
number of primes `p` with `7 ≤ p ≤ N`; for `N < 7` this is 3. -/
theorem C8_bounds_below_49 (b : Build) (N : Nat) (hN : N < 49) :
    run_sieve b (create_sieve b N) = some (create_sieve b N) ∧
    (create_sieve b N).a.bits = 0 ∧
    sieve_count b N = some (3 + ((Finset.Icc 7 N).filter Nat.Prime).card) ∧
    (N < 7 → sieve_count b N = some 3) := by
  have hc := sieve_count_small b N (by omega)
  rw [if_neg (by omega), Nat.add_zero] at hc
  refine ⟨run_sieve_small b N hN, rfl, hc, ?_⟩
  intro h7
  rw [hc, Finset.Icc_eq_empty (by omega)]
  rfl

theorem C8_bounds_below_49_witness :
    (1 : Nat) < 49 ∧
    (run_sieve ⟨true, true, 8⟩ (create_sieve ⟨true, true, 8⟩ 1)
      = some (create_sieve ⟨true, true, 8⟩ 1) ∧
    (create_sieve ⟨true, true, 8⟩ 1).a.bits = 0 ∧
    sieve_count ⟨true, true, 8⟩ 1 = some (3 + ((Finset.Icc 7 1).filter Nat.Prime).card) ∧
    (1 < 7 → sieve_count ⟨true, true, 8⟩ 1 = some 3)) :=
  ⟨by decide, C8_bounds_below_49 ⟨true, true, 8⟩ 1 (by decide)⟩

/-- C9: for every bound `N ≤ 2^31 - 1` and every bit store that holds the
half-indices up to `N/2`, `count_primes` returns 3 plus the number of integers
`c` with `7 ≤ c ≤ N`, `c` coprime to 30, whose half-index bit `(c-1)/2` tests
clear; the result is the same on any other such store whose test of these bits
agrees (no other bit is tested).  `count_primes` has no write to the store. -/
theorem C9_count_primes (b : Build) (a : Words) (N : Nat) (hN : N < 2147483648)
    (hsize : N / 2 / wordBits b < a.size) :
    count_primes b ⟨a, N⟩
      = some (3 + ((Finset.Icc 7 N).filter
          (fun c => Nat.Coprime c 30 ∧ a.test b ((c - 1) / 2) = some false)).card) ∧
    ∀ a' : Words, N / 2 / wordBits b < a'.size →
      (∀ c, 7 ≤ c → c ≤ N → Nat.Coprime c 30 →
        a'.test b ((c - 1) / 2) = a.test b ((c - 1) / 2)) →
      count_primes b ⟨a', N⟩ = count_primes b ⟨a, N⟩ := by
  refine ⟨count_primes_spec b a N (by omega) hsize, ?_⟩
  intro a' hsize' hagree
  rw [count_primes_spec b a N (by omega) hsize, count_primes_spec b a' N (by omega) hsize']
  congr 2
  apply congrArg
  apply Finset.filter_congr
  intro c hc
  rw [Finset.mem_Icc] at hc
  constructor
  · rintro ⟨h1, h2⟩
    exact ⟨h1, by rw [← hagree c hc.1 hc.2 h1]; exact h2⟩
  · rintro ⟨h1, h2⟩
    exact ⟨h1, by rw [hagree c hc.1 hc.2 h1]; exact h2⟩

theorem C9_count_primes_witness :
    (100 : Nat) < 2147483648 ∧
    100 / 2 / wordBits ⟨false, false, 1⟩ < (Words.mk 13 16777216).size ∧
    (count_primes ⟨false, false, 1⟩ ⟨Words.mk 13 16777216, 100⟩
      = some (3 + ((Finset.Icc 7 100).filter
          (fun c => Nat.Coprime c 30 ∧
            (Words.mk 13 16777216).test ⟨false, false, 1⟩ ((c - 1) / 2) = some false)).card) ∧
    ∀ a' : Words, 100 / 2 / wordBits ⟨false, false, 1⟩ < a'.size →
      (∀ c, 7 ≤ c → c ≤ 100 → Nat.Coprime c 30 →
        a'.test ⟨false, false, 1⟩ ((c - 1) / 2)
          = (Words.mk 13 16777216).test ⟨false, false, 1⟩ ((c - 1) / 2)) →
      count_primes ⟨false, false, 1⟩ ⟨a', 100⟩
        = count_primes ⟨false, false, 1⟩ ⟨Words.mk 13 16777216, 100⟩) :=
  ⟨by decide, by decide,
    C9_count_primes ⟨false, false, 1⟩ (Words.mk 13 16777216) 100 (by decide) (by decide)⟩

/-- C10 (as stated, refuted): for the bound 100 and 32-bit words `create_sieve`
allocates 13 words, not `ceil((100/2)/32) + 1 = 3`. -/
theorem C10_size_counterexample :
    (create_sieve ⟨false, false, 1⟩ 100).a.size = 13 ∧
    (100 / 2 + wordBits ⟨false, false, 1⟩ - 1) / wordBits ⟨false, false, 1⟩ + 1 = 3 := by
  decide

/-- C10 (amended): for every bound `0 ≤ N ≤ 2^31 - 1`, `create_sieve N`
returns a state whose `maxints` is `N` and whose bit store is all zero (every
word reads 0) and has exactly `floor((N/2)/sizeof(TYPE)) + 1` words, where
`sizeof(TYPE)` is the size of a word in bytes (4 or 8). -/
theorem C10_create_sieve (b : Build) (N : Nat) (hN : N < 2147483648) :
    (create_sieve b N).maxints = N ∧
    (create_sieve b N).a.bits = 0 ∧
    (∀ i, i < (create_sieve b N).a.size → (create_sieve b N).a.load b i = some 0) ∧
    (create_sieve b N).a.size = N / 2 / sizeofTYPE b + 1 ∧
    (sizeofTYPE b = 4 ∨ sizeofTYPE b = 8) ∧ wordBits b = 8 * sizeofTYPE b := by
  refine ⟨?_, rfl, ?_, rfl, ?_, rfl⟩
  · simp only [create_sieve]; omega
  · intro i hi
    simp only [create_sieve, calloc] at hi
    simp only [create_sieve, calloc, Words.load, if_pos hi, Nat.zero_shiftRight, Nat.zero_mod]
  · unfold sizeofTYPE
    cases b.COMPILE_64_BIT <;> simp

theorem C10_create_sieve_witness :
    (100 : Nat) < 2147483648 ∧
    ((create_sieve ⟨false, false, 1⟩ 100).maxints = 100 ∧
    (create_sieve ⟨false, false, 1⟩ 100).a.bits = 0 ∧
    (∀ i, i < (create_sieve ⟨false, false, 1⟩ 100).a.size →
      (create_sieve ⟨false, false, 1⟩ 100).a.load ⟨false, false, 1⟩ i = some 0) ∧
    (create_sieve ⟨false, false, 1⟩ 100).a.size = 100 / 2 / sizeofTYPE ⟨false, false, 1⟩ + 1 ∧
    (sizeofTYPE ⟨false, false, 1⟩ = 4 ∨ sizeofTYPE ⟨false, false, 1⟩ = 8) ∧
    wordBits ⟨false, false, 1⟩ = 8 * sizeofTYPE ⟨false, false, 1⟩) :=
  ⟨by decide, C10_create_sieve ⟨false, false, 1⟩ 100 (by decide)⟩

/-- C11: for every bound `0 ≤ N ≤ 2^31 - 1`, in every build and for every thread
count `T ≥ 1`: a word access is defined exactly when its index is below the number
of words of the block; `run_sieve` and then `count_primes` return on a cleared
block of only `floor((N/2)/W) + 1` words, so every word index that they read or
write is at most `floor((N/2)/W)`, which is at most `ceil((N/2)/W)` and below the
number of words that `create_sieve N` allocates; on the state of `create_sieve N`
they return, with the same bits and the same count. -/
theorem C11_accesses_in_bounds (b : Build) (N : Nat) (hT : 1 ≤ b.numthreads)
    (hN : N < 2147483648) :
    (∀ (a : Words) (i v : Nat),
      (a.load b i = none ↔ a.size ≤ i) ∧ (a.or_assign b i v = none ↔ a.size ≤ i)) ∧
    N / 2 / wordBits b ≤ (N / 2 + wordBits b - 1) / wordBits b ∧
    N / 2 / wordBits b < (create_sieve b N).a.size ∧
    ∃ bits n,
      run_sieve b ⟨⟨N / 2 / wordBits b + 1, 0⟩, N⟩
        = some ⟨⟨N / 2 / wordBits b + 1, bits⟩, N⟩ ∧
      count_primes b ⟨⟨N / 2 / wordBits b + 1, bits⟩, N⟩ = some n ∧
      run_sieve b (create_sieve b N) = some ⟨⟨(create_sieve b N).a.size, bits⟩, N⟩ ∧
      count_primes b ⟨⟨(create_sieve b N).a.size, bits⟩, N⟩ = some n := by
  have hWp := wordBits_pos b
  exact ⟨fun a i v => ⟨load_eq_none_iff b a i, or_assign_eq_none_iff b a i v⟩,
    Nat.div_le_div_right (by omega), create_sieve_size b N, run_count_sizes b N hT hN⟩

theorem C11_accesses_in_bounds_witness :
    1 ≤ (Build.mk false true 4).numthreads ∧ (1000 : Nat) < 2147483648 ∧
    ((∀ (a : Words) (i v : Nat),
      (a.load (Build.mk false true 4) i = none ↔ a.size ≤ i) ∧
      (a.or_assign (Build.mk false true 4) i v = none ↔ a.size ≤ i)) ∧
    1000 / 2 / wordBits (Build.mk false true 4)
      ≤ (1000 / 2 + wordBits (Build.mk false true 4) - 1) / wordBits (Build.mk false true 4) ∧
    1000 / 2 / wordBits (Build.mk false true 4)
      < (create_sieve (Build.mk false true 4) 1000).a.size ∧
    ∃ bits n,
      run_sieve (Build.mk false true 4)
          ⟨⟨1000 / 2 / wordBits (Build.mk false true 4) + 1, 0⟩, 1000⟩
        = some ⟨⟨1000 / 2 / wordBits (Build.mk false true 4) + 1, bits⟩, 1000⟩ ∧
      count_primes (Build.mk false true 4)
          ⟨⟨1000 / 2 / wordBits (Build.mk false true 4) + 1, bits⟩, 1000⟩ = some n ∧
      run_sieve (Build.mk false true 4) (create_sieve (Build.mk false true 4) 1000)
        = some ⟨⟨(create_sieve (Build.mk false true 4) 1000).a.size, bits⟩, 1000⟩ ∧
      count_primes (Build.mk false true 4)
          ⟨⟨(create_sieve (Build.mk false true 4) 1000).a.size, bits⟩, 1000⟩ = some n) :=
  ⟨by decide, by decide,
    C11_accesses_in_bounds (Build.mk false true 4) 1000 (by decide) (by decide)⟩

/-- C12: for every even bound `6 ≤ N ≤ 2^31 - 1`, in every build (with or without
OpenMP, both word widths) and for every thread count `T ≥ 1`, `count_primes` after
`run_sieve` on `create_sieve N` returns the number of primes `p ≤ N`. -/
theorem C12_even_bound_counts_primes (b : Build) (N : Nat) (hT : 1 ≤ b.numthreads)
    (hN : N < 2147483648) (heven : N % 2 = 0) (h6 : 6 ≤ N) :
    sieve_count b N = some ((Finset.Icc 1 N).filter Nat.Prime).card :=
  sieve_count_primes b N hT hN heven h6

theorem C12_even_bound_counts_primes_witness :
    1 ≤ (Build.mk true true 2).numthreads ∧ (5000 : Nat) < 2147483648 ∧ 5000 % 2 = 0 ∧
    6 ≤ 5000 ∧
    sieve_count (Build.mk true true 2) 5000
      = some ((Finset.Icc 1 5000).filter Nat.Prime).card :=
  ⟨by decide, by decide, by decide, by decide,
    C12_even_bound_counts_primes (Build.mk true true 2) 5000 (by decide) (by decide)
      (by decide) (by decide)⟩

/-- C13: for every bound `0 ≤ N ≤ 2^31 - 1`, in every build and for every thread
count `T ≥ 1`, `run_sieve` on `create_sieve N` returns a state in which every set
bit `h` (a bit of the image, or a bit that the test of the source reports) has
`2h+1` divisible by a prime `p ≥ 7` with `p*p ≤ 2h+1`, so that `2h+1` is not
prime; and in which the bit `h` tests set for every `h < N/2` such that `2h+1` is
divisible by a prime `p ≥ 7` with `p*p ≤ 2h+1`. -/
theorem C13_set_bits_are_composites (b : Build) (N : Nat) (hT : 1 ≤ b.numthreads)
    (hN : N < 2147483648) :
    ∃ s, run_sieve b (create_sieve b N) = some s ∧
      (∀ h, (s.a.bits.testBit h = true ∨ s.a.test b h = some true) →
        (∃ p, p.Prime ∧ 7 ≤ p ∧ p * p ≤ 2 * h + 1 ∧ p ∣ 2 * h + 1) ∧ ¬ (2 * h + 1).Prime) ∧
      (∀ h, h < N / 2 → (∃ p, p.Prime ∧ 7 ≤ p ∧ p * p ≤ 2 * h + 1 ∧ p ∣ 2 * h + 1) →
        s.a.test b h = some true) := by
  obtain ⟨bits, h1, h2, h3⟩ := run_sieve_create b N hT hN
  refine ⟨_, h1, ?_, ?_⟩
  · intro h hset
    have hbit : bits.testBit h = true := by
      rcases hset with hset | hset
      · exact hset
      · rw [test_eq] at hset
        split at hset
        · exact Option.some.inj hset
        · exact absurd hset (by simp)
    obtain ⟨p, hp, hp7, hsq, hd⟩ := h2 h hbit
    exact ⟨⟨p, hp, hp7, hsq, hd⟩, not_prime_of_small_factor hp7 hsq hd⟩
  · intro h hh hp
    have hin : h / wordBits b < (create_sieve b N).a.size :=
      lt_of_le_of_lt (Nat.div_le_div_right (Nat.le_of_lt hh)) (create_sieve_size b N)
    rw [test_eq, if_pos hin, h3 h hh hp]

theorem C13_set_bits_are_composites_witness :
    1 ≤ (Build.mk false true 4).numthreads ∧ (100000 : Nat) < 2147483648 ∧
    ∃ s, run_sieve (Build.mk false true 4) (create_sieve (Build.mk false true 4) 100000)
        = some s ∧
      (∀ h, (s.a.bits.testBit h = true ∨ s.a.test (Build.mk false true 4) h = some true) →
        (∃ p, p.Prime ∧ 7 ≤ p ∧ p * p ≤ 2 * h + 1 ∧ p ∣ 2 * h + 1) ∧ ¬ (2 * h + 1).Prime) ∧
      (∀ h, h < 100000 / 2 →
        (∃ p, p.Prime ∧ 7 ≤ p ∧ p * p ≤ 2 * h + 1 ∧ p ∣ 2 * h + 1) →
        s.a.test (Build.mk false true 4) h = some true) :=
  ⟨by decide, by decide,
    C13_set_bits_are_composites (Build.mk false true 4) 100000 (by decide) (by decide)⟩

/-- C14: the wheel cursor of `run_sieve`, started at the half-index `7>>1 = 3`
with step cursor 1, visits up to any `qh < 2^31` exactly the half-indices
`3 ≤ h ≤ qh` with `2h+1` coprime to 30, in increasing order and each once
(3, 5, 6, 8, 9, 11, 14, 15, 18 up to 18); the cursor of `count_primes`, started
at 7 with doubled gaps, visits up to any `N < 2^32 - 6` exactly the integers
`7 ≤ c ≤ N` coprime to 30, in increasing order and each once; `run_sieve` and
`count_primes` are the bodies of their loops run over these lists. -/
theorem C14_wheel_candidates (qh N : Nat) (hq : qh < 2147483648)
    (hN : N + 6 < 4294967296) :
    sieve_candidates qh (qh + 1) (7 >>> 1) 1 (steps.getD 1 0)
      = some ((List.range (qh + 1)).filter
          (fun h => decide (3 ≤ h ∧ Nat.Coprime (2 * h + 1) 30))) ∧
    count_candidates N (N + 1) 7 1 (shl32 (steps.getD 1 0) 1)
      = some ((List.range (N + 1)).filter (fun c => decide (7 ≤ c ∧ Nat.Coprime c 30))) ∧
    sieve_candidates 18 19 (7 >>> 1) 1 (steps.getD 1 0)
      = some [3, 5, 6, 8, 9, 11, 14, 15, 18] ∧
    (∀ (b : Build) (a : Words), N < 2147483648 →
      run_sieve b ⟨a, N⟩
        = match sieve_over b N (N >>> 1)
            ((List.range ((Nat.sqrt N + 1) / 2 + 1)).filter
              (fun h => decide (3 ≤ h ∧ Nat.Coprime (2 * h + 1) 30))) a with
          | none => none
          | some a1 => some ⟨a1, N⟩) ∧
    (∀ (b : Build) (a : Words),
      count_primes b ⟨a, N⟩
        = count_over b a
            ((List.range (N + 1)).filter (fun c => decide (7 ≤ c ∧ Nat.Coprime c 30))) 3) :=
  ⟨sieve_candidates_eq qh hq, count_candidates_eq N hN, candidates_example.1,
    fun b a h => run_sieve_eq_sieve_over b a N h,
    fun b a => count_primes_eq_count_over b a N hN⟩

theorem C14_wheel_candidates_witness :
    (18 : Nat) < 2147483648 ∧ (37 : Nat) + 6 < 4294967296 ∧
    (sieve_candidates 18 (18 + 1) (7 >>> 1) 1 (steps.getD 1 0)
      = some ((List.range (18 + 1)).filter
          (fun h => decide (3 ≤ h ∧ Nat.Coprime (2 * h + 1) 30))) ∧
    count_candidates 37 (37 + 1) 7 1 (shl32 (steps.getD 1 0) 1)
      = some ((List.range (37 + 1)).filter (fun c => decide (7 ≤ c ∧ Nat.Coprime c 30))) ∧
    sieve_candidates 18 19 (7 >>> 1) 1 (steps.getD 1 0)
      = some [3, 5, 6, 8, 9, 11, 14, 15, 18] ∧
    (∀ (b : Build) (a : Words), 37 < 2147483648 →
      run_sieve b ⟨a, 37⟩
        = match sieve_over b 37 (37 >>> 1)
            ((List.range ((Nat.sqrt 37 + 1) / 2 + 1)).filter
              (fun h => decide (3 ≤ h ∧ Nat.Coprime (2 * h + 1) 30))) a with
          | none => none
          | some a1 => some ⟨a1, 37⟩) ∧
    (∀ (b : Build) (a : Words),
      count_primes b ⟨a, 37⟩
        = count_over b a
            ((List.range (37 + 1)).filter (fun c => decide (7 ≤ c ∧ Nat.Coprime c 30))) 3)) :=
  ⟨by decide, by decide, C14_wheel_candidates 18 37 (by decide) (by decide)⟩

/-- C15: for every odd `p` with `p*p` a value of `unsigned int` (`p < 2^16`, in
particular every factor `p ≥ 7` that `run_sieve` finds for a bound
`N ≤ 2^31 - 1`), and every store that holds the half-indices up to `N/2`, the
sequential loop `for (m = p*p>>1; m < maxintsh; m += p)` terminates and returns a
store of the same size in which the bit `h` is set exactly when it was set before
or `p*p/2 ≤ h < N/2` and `p` divides `2h+1`; when `p*p ≥ N` the store is
unchanged.  In a build without OpenMP this loop is the whole marking step. -/
theorem C15_sequential_marking (b : Build) (N p : Nat) (a : Words) (hodd : p % 2 = 1)
    (hp : p < 65536) (hN : N < 2147483648) (hsize : N / 2 / wordBits b < a.size) :
    ∃ bits,
      mark_lt b p (N >>> 1) ((N >>> 1) + 1) (mul32 p p >>> 1) a = some ⟨a.size, bits⟩ ∧
      (b.OPENMP = false → mark_multiples b N (N >>> 1) p a = some ⟨a.size, bits⟩) ∧
      (∀ h, bits.testBit h
        = (a.bits.testBit h || decide (p * p / 2 ≤ h ∧ h < N / 2 ∧ p ∣ 2 * h + 1))) ∧
      (p * p ≥ N → bits = a.bits) := by
  obtain ⟨bits, h1, h2, h3⟩ := mark_lt_spec b N p a hodd hp hN hsize
  refine ⟨bits, h1, ?_, h2, h3⟩
  intro hO
  rw [mark_multiples_sequential b N (N >>> 1) p a hO]
  exact h1

theorem C15_sequential_marking_witness :
    7 % 2 = 1 ∧ (7 : Nat) < 65536 ∧ (100 : Nat) < 2147483648 ∧
    100 / 2 / wordBits ⟨false, false, 1⟩ < (Words.mk 13 0).size ∧
    ∃ bits,
      mark_lt ⟨false, false, 1⟩ 7 (100 >>> 1) ((100 >>> 1) + 1) (mul32 7 7 >>> 1)
          (Words.mk 13 0) = some ⟨(Words.mk 13 0).size, bits⟩ ∧
      ((Build.mk false false 1).OPENMP = false →
        mark_multiples ⟨false, false, 1⟩ 100 (100 >>> 1) 7 (Words.mk 13 0)
          = some ⟨(Words.mk 13 0).size, bits⟩) ∧
      (∀ h, bits.testBit h
        = ((Words.mk 13 0).bits.testBit h
            || decide (7 * 7 / 2 ≤ h ∧ h < 100 / 2 ∧ 7 ∣ 2 * h + 1))) ∧
      (7 * 7 ≥ 100 → bits = (Words.mk 13 0).bits) :=
  ⟨by decide, by decide, by decide, by decide,
    C15_sequential_marking ⟨false, false, 1⟩ 100 7 (Words.mk 13 0) (by decide) (by decide)
      (by decide) (by decide)⟩

/-- C16: for every bound `N ≤ 2^31 - 1`, every thread count `T ≥ 1` and every
initial contents of a store that holds the half-indices up to `N/2`, `run_sieve`
returns a state with a store of the same size in which every bit that was set
before is still set; the statement `a[i] |= v` clears no bit, and setting a bit
that tests set returns the store unchanged. -/
theorem C16_bits_never_cleared (b : Build) (a : Words) (N : Nat) (hT : 1 ≤ b.numthreads)
    (hN : N < 2147483648) (hsize : N / 2 / wordBits b < a.size) :
    (∃ s, run_sieve b ⟨a, N⟩ = some s ∧ s.a.size = a.size ∧
      (∀ h, a.bits.testBit h = true → s.a.bits.testBit h = true) ∧
      (∀ h, a.test b h = some true → s.a.test b h = some true)) ∧
    (∀ (a0 a1 : Words) (i v : Nat), a0.or_assign b i v = some a1 →
      a1.size = a0.size ∧ ∀ h, a0.bits.testBit h = true → a1.bits.testBit h = true) ∧
    (∀ (a0 : Words) (m : Nat), a0.test b m = some true →
      a0.or_assign b (m >>> SHIFT b) (1 <<< (m &&& MASK b)) = some a0) := by
  obtain ⟨bits, h1, h2, _⟩ := run_sieve_idem b a N hT hN hsize
  refine ⟨⟨_, h1, rfl, h2, ?_⟩, fun a0 a1 i v h => or_assign_mono b a0 a1 i v h,
    fun a0 m h => or_assign_of_test b a0 m h⟩
  intro h hset
  rw [test_eq] at hset
  rw [test_eq]
  split at hset
  · next hin =>
    rw [if_pos hin, h2 h (Option.some.inj hset)]
  · exact absurd hset (by simp)

theorem C16_bits_never_cleared_witness :
    1 ≤ (Build.mk false true 4).numthreads ∧ (100 : Nat) < 2147483648 ∧
    100 / 2 / wordBits (Build.mk false true 4) < (Words.mk 13 16777216).size ∧
    ((∃ s, run_sieve (Build.mk false true 4) ⟨Words.mk 13 16777216, 100⟩ = some s ∧
      s.a.size = (Words.mk 13 16777216).size ∧
      (∀ h, (Words.mk 13 16777216).bits.testBit h = true → s.a.bits.testBit h = true) ∧
      (∀ h, (Words.mk 13 16777216).test (Build.mk false true 4) h = some true →
        s.a.test (Build.mk false true 4) h = some true)) ∧
    (∀ (a0 a1 : Words) (i v : Nat), a0.or_assign (Build.mk false true 4) i v = some a1 →
      a1.size = a0.size ∧ ∀ h, a0.bits.testBit h = true → a1.bits.testBit h = true) ∧
    (∀ (a0 : Words) (m : Nat), a0.test (Build.mk false true 4) m = some true →
      a0.or_assign (Build.mk false true 4) (m >>> SHIFT (Build.mk false true 4))
        (1 <<< (m &&& MASK (Build.mk false true 4))) = some a0)) :=
  ⟨by decide, by decide, by decide,
    C16_bits_never_cleared (Build.mk false true 4) (Words.mk 13 16777216) 100 (by decide)
      (by decide) (by decide)⟩

/-- C17: for every bound `0 ≤ N ≤ 2^31 - 1`, in every build and for every thread
count `T ≥ 1`, `run_sieve` on `create_sieve N` returns a state and `count_primes`
on it returns a count: the outer loop, every marking loop and every adjustment
loop end within the iterations that the embedding allots.  For every factor `p`
for which the parallel path is taken and every thread, each of the two
`while (1)` loops ends within `W` passes of its body, the range of the thread is
computed and its marking loop ends; the sequential marking loop ends for every
factor `p < 2^16`. -/
theorem C17_termination (b : Build) (N : Nat) (hT : 1 ≤ b.numthreads)
    (hN : N < 2147483648) :
    (∃ s n, run_sieve b (create_sieve b N) = some s ∧ count_primes b s = some n) ∧
    (∀ p i, 1 ≤ p → p * p < N → (N - p * p) / (2 * p) > b.numthreads * 300 →
      i < b.numthreads →
      (i ≠ 0 → ∃ y, adjust_first b p (wordBits b) (chunk_first b (N >>> 1) p i) = some y) ∧
      (i + 1 < b.numthreads →
        ∃ y, adjust_last b p (wordBits b) (chunk_last b (N >>> 1) p i) = some y) ∧
      (∃ r, thread_range b (N >>> 1) p i = some r) ∧
      (∃ V, thread_visits b (N >>> 1) p i = some V)) ∧
    (∀ p, 1 ≤ p → p < 65536 → ∃ S, sequential_visits (N >>> 1) p = some S) := by
  refine ⟨?_, ?_, ?_⟩
  · obtain ⟨s, n, h1, _, _, h2⟩ := run_count_some b (create_sieve b N).a N hT hN
      (create_sieve_size b N)
    refine ⟨s, n, ?_, h2⟩
    rw [create_sieve_eq b N hN]
    exact h1
  · intro p i hp hlt hws hi
    rw [shiftRight_one_eq]
    obtain ⟨h1, h2⟩ := adjust_within_word b N p i hp hT hN hlt hws hi
    obtain ⟨s, e, h3, _⟩ := boundary_spec b N p i hp hT hN hlt hws hi
    obtain ⟨V, h4, _⟩ := partition_cover b N p hp hT hN hlt hws
    exact ⟨h1, h2, ⟨_, h3⟩, ⟨V i, (h4 i hi).1⟩⟩
  · intro p hp hp16
    have hpp : p * p < 4294967296 := by
      have : p * p ≤ 65535 * 65535 := Nat.mul_le_mul (by omega) (by omega)
      omega
    simp only [sequential_visits]
    rw [shiftRight_one_eq, shiftRight_one_eq]
    obtain ⟨ms, hms, _⟩ := visits_lt_spec p (N / 2) hp (by omega) (N / 2 + 1)
      (mul32 p p / 2) (by omega)
    exact ⟨ms, hms⟩

theorem C17_termination_witness :
    1 ≤ (Build.mk false true 4).numthreads ∧ (100000 : Nat) < 2147483648 ∧
    ((∃ s n, run_sieve (Build.mk false true 4) (create_sieve (Build.mk false true 4) 100000)
        = some s ∧ count_primes (Build.mk false true 4) s = some n) ∧
    (∀ p i, 1 ≤ p → p * p < 100000 →
      (100000 - p * p) / (2 * p) > (Build.mk false true 4).numthreads * 300 →
      i < (Build.mk false true 4).numthreads →
      (i ≠ 0 → ∃ y, adjust_first (Build.mk false true 4) p (wordBits (Build.mk false true 4))
        (chunk_first (Build.mk false true 4) (100000 >>> 1) p i) = some y) ∧
      (i + 1 < (Build.mk false true 4).numthreads →
        ∃ y, adjust_last (Build.mk false true 4) p (wordBits (Build.mk false true 4))
          (chunk_last (Build.mk false true 4) (100000 >>> 1) p i) = some y) ∧
      (∃ r, thread_range (Build.mk false true 4) (100000 >>> 1) p i = some r) ∧
      (∃ V, thread_visits (Build.mk false true 4) (100000 >>> 1) p i = some V)) ∧
    (∀ p, 1 ≤ p → p < 65536 → ∃ S, sequential_visits (100000 >>> 1) p = some S)) :=
  ⟨by decide, by decide, C17_termination (Build.mk false true 4) 100000 (by decide) (by decide)⟩

/-- C18: for every bound `0 ≤ N ≤ 2^31 - 1`, in every build and for every thread
count `T ≥ 1` with `300*T < 2^31`, `run_sieve` and `count_primes` with checked
arithmetic (every `unsigned int` sum, difference, product and shift undefined
when it wraps, the `int` product `numthreads*300` undefined when it overflows)
return what `run_sieve` and `count_primes` return, on every store; on the state
of `create_sieve N` they return a state and a count, so no operation wraps. -/
theorem C18_no_wraparound (b : Build) (N : Nat) (hT : 1 ≤ b.numthreads)
    (hN : N < 2147483648) (h300 : 300 * b.numthreads < 2147483648) :
    (∀ a : Words, run_sieve_chk b ⟨a, N⟩ = run_sieve b ⟨a, N⟩ ∧
      count_primes_chk b ⟨a, N⟩ = count_primes b ⟨a, N⟩) ∧
    ∃ s n, run_sieve_chk b (create_sieve b N) = some s ∧ count_primes_chk b s = some n ∧
      run_sieve b (create_sieve b N) = some s ∧ count_primes b s = some n := by
  rw [Nat.mul_comm] at h300
  refine ⟨fun a => ⟨run_sieve_chk_eq b a N hT hN h300, count_primes_chk_eq b a N hN⟩, ?_⟩
  obtain ⟨bits, h1, _, _⟩ := run_sieve_idem b (create_sieve b N).a N hT hN
    (create_sieve_size b N)
  have h2 := count_primes_spec b ⟨(create_sieve b N).a.size, bits⟩ N (by omega)
    (create_sieve_size b N)
  refine ⟨_, _, ?_, ?_, ?_, h2⟩
  · rw [create_sieve_eq b N hN, run_sieve_chk_eq b _ N hT hN h300]
    exact h1
  · rw [count_primes_chk_eq b _ N hN]
    exact h2
  · rw [create_sieve_eq b N hN]
    exact h1

theorem C18_no_wraparound_witness :
    1 ≤ (Build.mk false true 4).numthreads ∧ (100000 : Nat) < 2147483648 ∧
    300 * (Build.mk false true 4).numthreads < 2147483648 ∧
    ((∀ a : Words,
      run_sieve_chk (Build.mk false true 4) ⟨a, 100000⟩
        = run_sieve (Build.mk false true 4) ⟨a, 100000⟩ ∧
      count_primes_chk (Build.mk false true 4) ⟨a, 100000⟩
        = count_primes (Build.mk false true 4) ⟨a, 100000⟩) ∧
    ∃ s n, run_sieve_chk (Build.mk false true 4) (create_sieve (Build.mk false true 4) 100000)
        = some s ∧
      count_primes_chk (Build.mk false true 4) s = some n ∧
      run_sieve (Build.mk false true 4) (create_sieve (Build.mk false true 4) 100000)
        = some s ∧
      count_primes (Build.mk false true 4) s = some n) :=
  ⟨by decide, by decide, by decide,
    C18_no_wraparound (Build.mk false true 4) 100000 (by decide) (by decide) (by decide)⟩

/-- C19: for every `p ≥ 1` (in particular every prime `p ≥ 7`), bound
`N ≤ 2^31 - 1` and thread count `T ≥ 1` for which the parallel path is taken,
every thread `i` computes a final range `[s, e]` with `s ≤ e`; `s` lies less than
`W` half-indices beyond the initial `myfirstbit` (and is equal to it for thread
0), `e` is `N/2` for the last thread and otherwise lies less than `W`
half-indices beyond the initial `mylastbit` and equals the final `myfirstbit` of
thread `i+1` minus `p`. -/
theorem C19_boundary_adjustment (b : Build) (N p i : Nat) (hp : 1 ≤ p)
    (hT : 1 ≤ b.numthreads) (hN : N < 2147483648) (hlt : N > p * p)
    (hws : (N - p * p) / (2 * p) > 300 * b.numthreads) (hi : i < b.numthreads) :
    ∃ s e, thread_range b (N >>> 1) p i = some (s, e) ∧ s ≤ e ∧ e ≤ N / 2 ∧
      chunk_first b (N >>> 1) p i ≤ s ∧ s < chunk_first b (N >>> 1) p i + wordBits b ∧
      (i = 0 → s = chunk_first b (N >>> 1) p i) ∧
      (i + 1 = b.numthreads → e = N / 2) ∧
      (i + 1 < b.numthreads →
        chunk_last b (N >>> 1) p i ≤ e ∧ e < chunk_last b (N >>> 1) p i + wordBits b ∧
        ∃ s' e', thread_range b (N >>> 1) p (i + 1) = some (s', e') ∧ p ≤ s' ∧
          e = s' - p) := by
  rw [Nat.mul_comm 300] at hws
  rw [shiftRight_one_eq]
  exact boundary_spec b N p i hp hT hN hlt hws hi

theorem C19_boundary_adjustment_witness :
    (1 : Nat) ≤ 7 ∧ 1 ≤ (Build.mk false true 4).numthreads ∧ (100000 : Nat) < 2147483648 ∧
    100000 > 7 * 7 ∧ (100000 - 7 * 7) / (2 * 7) > 300 * (Build.mk false true 4).numthreads ∧
    1 < (Build.mk false true 4).numthreads ∧
    ∃ s e, thread_range (Build.mk false true 4) (100000 >>> 1) 7 1 = some (s, e) ∧ s ≤ e ∧
      e ≤ 100000 / 2 ∧
      chunk_first (Build.mk false true 4) (100000 >>> 1) 7 1 ≤ s ∧
      s < chunk_first (Build.mk false true 4) (100000 >>> 1) 7 1
        + wordBits (Build.mk false true 4) ∧
      (1 = 0 → s = chunk_first (Build.mk false true 4) (100000 >>> 1) 7 1) ∧
      (1 + 1 = (Build.mk false true 4).numthreads → e = 100000 / 2) ∧
      (1 + 1 < (Build.mk false true 4).numthreads →
        chunk_last (Build.mk false true 4) (100000 >>> 1) 7 1 ≤ e ∧
        e < chunk_last (Build.mk false true 4) (100000 >>> 1) 7 1
          + wordBits (Build.mk false true 4) ∧
        ∃ s' e', thread_range (Build.mk false true 4) (100000 >>> 1) 7 (1 + 1)
            = some (s', e') ∧ 7 ≤ s' ∧ e = s' - 7) :=
  ⟨by decide, by decide, by decide, by decide, by decide, by decide,
    C19_boundary_adjustment (Build.mk false true 4) 100000 7 1 (by decide) (by decide)
      (by decide) (by decide) (by decide) (by decide)⟩

end Sieve8of30
